import Mathlib

/-!
Shape-directed kernels of the IREE host interpreter and the loader of verified buffers.

A shallow embedding of `iree/hal/interpreter/bytecode_kernels_generic.h` (namespace
`iree.hal.kernels`), of `iree/base/flatbuffer_util.h` (namespace `iree`), of
`iree/hal/executable_format.h` (namespace `iree.hal`) and of the lowering of output
bindings in `iree/compiler/Transforms/Interpreter/MakeExecutableABI.cpp` (namespace
`mlir.iree_compiler`).

Conventions of the embedding.

* A span is a list; a span that the kernel writes is passed in and the written
  list is returned next to the `Status` of the call.
* A `Shape` is the list of its dimension sizes (non-negative integers).
* Index and stride arithmetic is carried out in `ℕ` (in `ℤ` where the source
  computes with possibly negative `int32_t` values, as for padding amounts);
  the embedding therefore describes calls whose strides and offsets are
  representable in the machine types of the source.
* Reading a span outside its bounds yields `default`, writing outside its
  bounds is dropped; both are undefined behaviour in the source.
* Element types are type parameters, as the template parameter `T` of the
  source; bytes are `UInt8`. Where the arithmetic of the machine integers
  matters (`Div`), an integer element type is given by its width and signedness
  and its values are integers in the range of the type.
-/

namespace iree.hal.kernels

/-- Outcome of a kernel call: `OkStatus()` or an invalid-argument error. -/
inductive Status where
  | ok
  | invalidArgument
  deriving DecidableEq, Repr

/-- Shape of a buffer: one non-negative size per dimension. -/
abbrev Shape := List Nat

/-! ## Row-major indexing vocabulary used to state the properties -/

/-- Linear offset of the multi-index `idx` in a row-major array of shape `shape`. -/
def flatIndex : Shape → List Nat → Nat
  | _ :: ds, i :: is => i * ds.prod + flatIndex ds is
  | _, _ => 0

/-- Multi-index of the linear offset `n` in a row-major array of shape `shape`. -/
def unflatIndex : Shape → Nat → List Nat
  | [], _ => []
  | _ :: ds, n => n / ds.prod :: unflatIndex ds (n % ds.prod)

/-- The multi-index `idx` lies inside `shape`: same rank, every coordinate below its size. -/
def InBox (idx : List Nat) (shape : Shape) : Prop :=
  List.Forall₂ (fun i d => i < d) idx shape

/-- Inverse of a permutation of `0..r-1` given as a list: position of each axis in `perm`. -/
def inversePerm (perm : List Nat) : List Nat :=
  (List.range perm.length).map (fun i => perm.indexOf i)

/-- Shape seen through a permutation of the axes: `d[k] = s[perm[k]]`. -/
def permuteShape (s : Shape) (perm : List Nat) : Shape :=
  perm.map (fun p => s.getD p 0)

/-! ## Transpose -/

/-- Stride loop of `Transpose::Execute`: for `dim_i = rank-1 .. 0` store the running
products, the source one over `src_shape[dim_i]`, the destination one over
`src_shape[perm[dim_i]]`.  Returns `(src_strides, dst_strides)`. -/
def Transpose.strides (src_shape : Shape) (perm : List Nat) : List Nat × List Nat :=
  let rank := src_shape.length
  let r := (List.range rank).reverse.foldl
    (fun (st : List Nat × List Nat × Nat × Nat) dim_i =>
      (st.1.set dim_i st.2.2.1,
       st.2.1.set dim_i st.2.2.2,
       st.2.2.1 * src_shape.getD dim_i 0,
       st.2.2.2 * src_shape.getD (perm.getD dim_i 0) 0))
    (List.replicate rank 0, List.replicate rank 0, 1, 1)
  (r.1, r.2.1)

/-- Inner loop of `Transpose::Execute`: decomposes `dst_i` along the destination strides
and accumulates the source offset. The state is `(t, src_i)`. -/
def Transpose.srcIndex (src_strides dst_strides perm : List Nat) (rank dst_i : Nat) : Nat :=
  ((List.range rank).foldl
    (fun (st : Nat × Nat) dim_i =>
      let q := st.1 / dst_strides.getD dim_i 0
      (st.1 - q * dst_strides.getD dim_i 0,
       st.2 + q * src_strides.getD (perm.getD dim_i 0) 0))
    (dst_i, 0)).2

/-- Embedding of `Transpose::Execute`. -/
def Transpose.Execute {T : Type} [Inhabited T] (src_buffer dst_buffer : List T)
    (src_shape : Shape) (perm : List Nat) : Status × List T :=
  let rank := src_shape.length
  let st := Transpose.strides src_shape perm
  let dst := (List.range dst_buffer.length).foldl
    (fun dst dst_i =>
      dst.set dst_i (src_buffer.getD (Transpose.srcIndex st.1 st.2 perm rank dst_i) default))
    dst_buffer
  (Status.ok, dst)

/-! ## Tile -/

/-- Stride loop of `Tile::Execute`: row-major strides of the source and destination
shapes over `rank = dst_shape.size()` dimensions. Returns `(src_strides, dst_strides)`. -/
def Tile.strides (src_shape dst_shape : Shape) : List Nat × List Nat :=
  let rank := dst_shape.length
  let r := (List.range rank).reverse.foldl
    (fun (st : List Nat × List Nat × Nat × Nat) dim_i =>
      (st.1.set dim_i st.2.2.1,
       st.2.1.set dim_i st.2.2.2,
       st.2.2.1 * src_shape.getD dim_i 0,
       st.2.2.2 * dst_shape.getD dim_i 0))
    (List.replicate rank 0, List.replicate rank 0, 1, 1)
  (r.1, r.2.1)

/-- Inner loop of `Tile::Execute`; the state is `(t, src_i)`. -/
def Tile.srcIndex (src_strides dst_strides : List Nat) (src_shape : Shape)
    (rank dst_i : Nat) : Nat :=
  ((List.range rank).foldl
    (fun (st : Nat × Nat) dim_i =>
      (st.1 % dst_strides.getD dim_i 0,
       st.2 + st.1 / dst_strides.getD dim_i 0 % src_shape.getD dim_i 0
                * src_strides.getD dim_i 0))
    (dst_i, 0)).2

/-- Embedding of `Tile::Execute`. -/
def Tile.Execute {T : Type} [Inhabited T] (src_buffer dst_buffer : List T)
    (src_shape dst_shape : Shape) : Status × List T :=
  let rank := dst_shape.length
  let st := Tile.strides src_shape dst_shape
  let dst := (List.range dst_buffer.length).foldl
    (fun dst dst_i =>
      dst.set dst_i (src_buffer.getD (Tile.srcIndex st.1 st.2 src_shape rank dst_i) default))
    dst_buffer
  (Status.ok, dst)

/-! ## Copy -/

/-- Embedding of `std::memcpy(dst + dst_offset, src + src_offset, length)`. -/
def memcpy (dst : List UInt8) (dst_offset : Nat) (src : List UInt8) (src_offset : Nat)
    (length : Nat) : List UInt8 :=
  (List.range length).foldl
    (fun d b => d.set (dst_offset + b) (src.getD (src_offset + b) default)) dst

/-- Embedding of `impl::ComputeCopyStrides`: byte strides of a row-major array, the
innermost one being `element_size`. -/
def impl.ComputeCopyStrides (shape : Shape) (element_size : Nat) : List Nat :=
  let n := if shape.isEmpty then 1 else shape.length
  let strides := (List.replicate n 0).set (n - 1) element_size
  (List.range (shape.length - 1)).reverse.foldl
    (fun st i => st.set i (st.getD (i + 1) 0 * shape.getD (i + 1) 0)) strides

/-- Embedding of `impl::CopyRegion`. A span is a buffer with the offset of the span's
first byte in it, so that `subspan(k)` adds `k` to the offset and `subspan(1)` of an
index vector is its tail. Returns the destination buffer after the copy. -/
def impl.CopyRegion (src_buffer : List UInt8) (src_base : Nat) (src_strides : List Nat)
    (src_indices : List Nat) (dst_buffer : List UInt8) (dst_base : Nat)
    (dst_strides : List Nat) (dst_indices : List Nat) (lengths : List Nat) : List UInt8 :=
  match lengths with
  | l0 :: l1 :: ls =>
    (List.range l0).foldl
      (fun dst i =>
        let src_offset := src_strides.getD 0 0 * (src_indices.getD 0 0 + i)
        let dst_offset := dst_strides.getD 0 0 * (dst_indices.getD 0 0 + i)
        impl.CopyRegion src_buffer (src_base + src_offset) src_strides.tail
          src_indices.tail dst (dst_base + dst_offset) dst_strides.tail dst_indices.tail
          (l1 :: ls))
      dst_buffer
  | _ =>
    let src_offset := src_indices.getD 0 0 * src_strides.getD 0 0
    let dst_offset := dst_indices.getD 0 0 * dst_strides.getD 0 0
    let length := dst_strides.getD 0 0 * lengths.getD 0 0
    memcpy dst_buffer (dst_base + dst_offset) src_buffer (src_base + src_offset) length

/-- Embedding of `Copy::Execute<element_size>`. -/
def Copy.Execute (element_size : Nat) (src_buffer : List UInt8) (src_shape : Shape)
    (src_indices : List Nat) (dst_buffer : List UInt8) (dst_shape : Shape)
    (dst_indices : List Nat) (lengths : List Nat) : Status × List UInt8 :=
  let src_strides := impl.ComputeCopyStrides src_shape element_size
  let dst_strides := impl.ComputeCopyStrides dst_shape element_size
  (Status.ok,
   impl.CopyRegion src_buffer 0 src_strides src_indices dst_buffer 0 dst_strides
     dst_indices lengths)

/-! ## Pad -/

/-- Loop of `impl::IncrementShapeIndex`, entered with `i + 1` positions left to visit:
position `i` is incremented; the loop returns when the new value is below `shape[i]`,
otherwise the position is reset to `0` and the loop goes on with `i - 1`. -/
def impl.IncrementShapeIndex.loop (shape : Shape) : Nat → List Int → List Int
  | 0, indices => indices
  | i + 1, indices =>
    let indices1 := indices.set i (indices.getD i 0 + 1)
    if indices1.getD i 0 < (shape.getD i 0 : Int) then indices1
    else impl.IncrementShapeIndex.loop shape i (indices1.set i 0)

/-- Embedding of `impl::IncrementShapeIndex`. -/
def impl.IncrementShapeIndex (indices : List Int) (shape : Shape) : List Int :=
  impl.IncrementShapeIndex.loop shape indices.length indices

/-- Embedding of `impl::IsPadding`; `%` of the source truncates toward zero (`Int.tmod`).
A remainder by zero, which arises for an interior padding of `-1` and is undefined in the
source, is the dividend here. -/
def impl.IsPadding (indices : List Int) (shape : Shape)
    (edge_padding_low edge_padding_high interior_padding : List Int) : Bool :=
  (List.range indices.length).any (fun i =>
    let index := indices.getD i 0
    decide (index < edge_padding_low.getD i 0) ||
    decide (index ≥ (shape.getD i 0 : Int) - edge_padding_high.getD i 0) ||
    decide (Int.tmod (index - edge_padding_low.getD i 0) (interior_padding.getD i 0 + 1) ≠ 0))

/-- One iteration of the `while` loop of `Pad::Execute`, writing position `dst_ptr`.
The state is `(src_ptr, dst_indices, dst_buffer)`. -/
def Pad.step {T : Type} [Inhabited T] (src_buffer : List T) (padding_value : T)
    (dst_shape : Shape) (edge_padding_low edge_padding_high interior_padding : List Int)
    (st : Nat × List Int × List T) (dst_ptr : Nat) : Nat × List Int × List T :=
  if impl.IsPadding st.2.1 dst_shape edge_padding_low edge_padding_high interior_padding then
    (st.1, impl.IncrementShapeIndex st.2.1 dst_shape, st.2.2.set dst_ptr padding_value)
  else
    (st.1 + 1, impl.IncrementShapeIndex st.2.1 dst_shape,
     st.2.2.set dst_ptr (src_buffer.getD st.1 default))

/-- Embedding of `Pad::Execute`. -/
def Pad.Execute {T : Type} [Inhabited T] (src_buffer padding_value_buffer dst_buffer : List T)
    (src_shape dst_shape : Shape)
    (edge_padding_low edge_padding_high interior_padding : List Int) : Status × List T :=
  if padding_value_buffer.length ≠ 1 then
    (Status.invalidArgument, dst_buffer)
  else
    let padding_value := padding_value_buffer.headD default
    let dst_indices : List Int := List.replicate src_shape.length 0
    let st := (List.range dst_buffer.length).foldl
      (Pad.step src_buffer padding_value dst_shape edge_padding_low edge_padding_high
        interior_padding)
      (0, dst_indices, dst_buffer)
    (Status.ok, st.2.2)

/-- Destination shape of a padding: `d[i] = low[i] + high[i] + s[i] + max(s[i]-1, 0) * interior[i]`. -/
def padShape : Shape → List Nat → List Nat → List Nat → Shape
  | s :: ss, l :: ls, h :: hs, t :: ts =>
    (l + h + s + max (s - 1) 0 * t) :: padShape ss ls hs ts
  | _, _, _, _ => []

/-- Destination multi-index of the source multi-index `k`: `j[i] = low[i] + k[i] * (interior[i] + 1)`. -/
def padIndex : List Nat → List Nat → List Nat → List Nat
  | k :: ks, l :: ls, t :: ts => (l + k * (t + 1)) :: padIndex ks ls ts
  | _, _, _ => []

/-! ## Reductions -/

/-- Embedding of `impl::SumKernel`. -/
def impl.SumKernel {T : Type} [Add T] (value0 value1 : T) : T := value0 + value1

/-- Embedding of `impl::MinKernel`; `std::min(a, b)` is `b < a ? b : a`. -/
def impl.MinKernel {T : Type} [LT T] [DecidableRel (fun (a b : T) => a < b)]
    (value0 value1 : T) : T :=
  if value1 < value0 then value1 else value0

/-- Embedding of `impl::MaxKernel`; `std::max(a, b)` is `a < b ? b : a`. -/
def impl.MaxKernel {T : Type} [LT T] [DecidableRel (fun (a b : T) => a < b)]
    (value0 value1 : T) : T :=
  if value0 < value1 then value1 else value0

/-- Base case of `impl::ReduceDimension`: the destination offset derived from the
source indices by removing the reduced dimensions. -/
def impl.ReduceDimension.dstIndex (src_shape : Shape) (reduce_dims : List Nat)
    (dst_strides : List Nat) (src_indices : List Nat) : Nat :=
  let dst_size := src_shape.length - reduce_dims.length
  let dst_indices := (List.range src_indices.length).foldl
    (fun (acc : List Nat) i =>
      if i ∈ reduce_dims then acc else acc ++ [src_indices.getD i 0]) []
  (List.range dst_indices.length).foldl
    (fun dst_i i => dst_i + dst_indices.getD i 0 * dst_strides.getD (dst_size - 1 - i) 0) 0

/-- Embedding of `impl::ReduceDimension<T, KernelImpl>`. The first argument after the
fixed ones is `dim + 1`, so that `0` is the base case `dim < 0`. The state is
`(dst_buffer, src_indices)`, both of which the source mutates in place. -/
def impl.ReduceDimension {T : Type} [Inhabited T] (kernel : T → T → T) (src_buffer : List T)
    (src_shape : Shape) (reduce_dims : List Nat) (dst_strides : List Nat) :
    Nat → List T × List Nat → Nat → Nat → List T × List Nat
  | 0, st, flat_src_i, _ =>
    let dst_i := impl.ReduceDimension.dstIndex src_shape reduce_dims dst_strides st.2
    (st.1.set dst_i (kernel (st.1.getD dst_i default) (src_buffer.getD flat_src_i default)),
     st.2)
  | dim + 1, st, flat_src_i, src_stride =>
    (List.range (src_shape.getD dim 0)).foldl
      (fun st dim_i =>
        impl.ReduceDimension kernel src_buffer src_shape reduce_dims dst_strides dim
          (st.1, st.2.set dim dim_i) (flat_src_i + dim_i * src_stride)
          (src_stride * src_shape.getD dim 0))
      st

/-- Embedding of `impl::GenericReduce<T, KernelImpl>`. -/
def impl.GenericReduce {T : Type} [Inhabited T] (kernel : T → T → T)
    (src_buffer init_buffer dst_buffer : List T) (dimension : Nat)
    (src_shape dst_shape : Shape) : Status × List T :=
  let dst0 := List.replicate dst_buffer.length (init_buffer.getD 0 default)
  let dst_rank := dst_shape.length
  let r := (List.range dst_rank).reverse.foldl
    (fun (st : List Nat × Nat) dim_i => (st.1 ++ [st.2], st.2 * dst_shape.getD dim_i 0))
    ([], 1)
  let dst_strides := r.1
  let src_indices := List.replicate src_shape.length 0
  let res := impl.ReduceDimension kernel src_buffer src_shape [dimension] dst_strides
    src_shape.length (dst0, src_indices) 0 1
  (Status.ok, res.1)

/-- Embedding of `ReduceSum::Execute`. -/
def ReduceSum.Execute {T : Type} [Inhabited T] [Add T]
    (src_buffer init_buffer dst_buffer : List T) (dimension : Nat)
    (src_shape dst_shape : Shape) : Status × List T :=
  impl.GenericReduce impl.SumKernel src_buffer init_buffer dst_buffer dimension
    src_shape dst_shape

/-- Embedding of `ReduceMin::Execute`. -/
def ReduceMin.Execute {T : Type} [Inhabited T] [LT T] [DecidableRel (fun (a b : T) => a < b)]
    (src_buffer init_buffer dst_buffer : List T) (dimension : Nat)
    (src_shape dst_shape : Shape) : Status × List T :=
  impl.GenericReduce impl.MinKernel src_buffer init_buffer dst_buffer dimension
    src_shape dst_shape

/-- Embedding of `ReduceMax::Execute`. -/
def ReduceMax.Execute {T : Type} [Inhabited T] [LT T] [DecidableRel (fun (a b : T) => a < b)]
    (src_buffer init_buffer dst_buffer : List T) (dimension : Nat)
    (src_shape dst_shape : Shape) : Status × List T :=
  impl.GenericReduce impl.MaxKernel src_buffer init_buffer dst_buffer dimension
    src_shape dst_shape


/-! ## Reverse -/

/-- Stride loop of `Reverse::Execute`: row-major strides of `src_shape`. -/
def Reverse.strides (src_shape : Shape) : List Nat :=
  let rank := src_shape.length
  ((List.range rank).reverse.foldl
    (fun (st : List Nat × Nat) dim_i =>
      (st.1.set dim_i st.2, st.2 * src_shape.getD dim_i 0))
    (List.replicate rank 0, 1)).1

/-- Inner loop of `Reverse::Execute`; the state is `(t, src_i)`. The set `dims_set` built
from `dimensions` is queried by membership in the list. -/
def Reverse.srcIndex (strides : List Nat) (src_shape : Shape) (dimensions : List Nat)
    (rank dst_i : Nat) : Nat :=
  ((List.range rank).foldl
    (fun (st : Nat × Nat) dim_i =>
      let q := st.1 / strides.getD dim_i 0
      let do_reverse := decide (dim_i ∈ dimensions)
      (st.1 - q * strides.getD dim_i 0,
       st.2 + (if do_reverse then src_shape.getD dim_i 0 - 1 - q else q)
                * strides.getD dim_i 0))
    (dst_i, 0)).2

/-- Embedding of `Reverse::Execute`. -/
def Reverse.Execute {T : Type} [Inhabited T] (src_buffer dst_buffer : List T)
    (src_shape : Shape) (dimensions : List Nat) : Status × List T :=
  let rank := src_shape.length
  let strides := Reverse.strides src_shape
  let dst := (List.range dst_buffer.length).foldl
    (fun dst dst_i =>
      dst.set dst_i
        (src_buffer.getD (Reverse.srcIndex strides src_shape dimensions rank dst_i) default))
    dst_buffer
  (Status.ok, dst)

/-! ## Comparisons, Select, Clamp -/

/-- Conversion of a C++ `bool` to `uint8_t`: `true` is `1`, `false` is `0`. -/
def boolToByte (b : Bool) : UInt8 := if b then 1 else 0

/-- Embedding of `CompareEQ::Execute`. -/
def CompareEQ.Execute {T : Type} [Inhabited T] [DecidableEq T] (lhs_buffer rhs_buffer : List T)
    (dst_buffer : List UInt8) : Status × List UInt8 :=
  (Status.ok, (List.range dst_buffer.length).foldl
    (fun dst i =>
      dst.set i (boolToByte (decide (lhs_buffer.getD i default = rhs_buffer.getD i default))))
    dst_buffer)

/-- Embedding of `CompareNE::Execute`. -/
def CompareNE.Execute {T : Type} [Inhabited T] [DecidableEq T] (lhs_buffer rhs_buffer : List T)
    (dst_buffer : List UInt8) : Status × List UInt8 :=
  (Status.ok, (List.range dst_buffer.length).foldl
    (fun dst i =>
      dst.set i (boolToByte (decide (lhs_buffer.getD i default ≠ rhs_buffer.getD i default))))
    dst_buffer)

/-- Embedding of `CompareLT::Execute`. -/
def CompareLT.Execute {T : Type} [Inhabited T] [LT T] [DecidableRel (fun (a b : T) => a < b)]
    (lhs_buffer rhs_buffer : List T) (dst_buffer : List UInt8) : Status × List UInt8 :=
  (Status.ok, (List.range dst_buffer.length).foldl
    (fun dst i =>
      dst.set i (boolToByte (decide (lhs_buffer.getD i default < rhs_buffer.getD i default))))
    dst_buffer)

/-- Embedding of `CompareLE::Execute`. -/
def CompareLE.Execute {T : Type} [Inhabited T] [LE T] [DecidableRel (fun (a b : T) => a ≤ b)]
    (lhs_buffer rhs_buffer : List T) (dst_buffer : List UInt8) : Status × List UInt8 :=
  (Status.ok, (List.range dst_buffer.length).foldl
    (fun dst i =>
      dst.set i (boolToByte (decide (lhs_buffer.getD i default ≤ rhs_buffer.getD i default))))
    dst_buffer)

/-- Embedding of `CompareGT::Execute`. -/
def CompareGT.Execute {T : Type} [Inhabited T] [LT T] [DecidableRel (fun (a b : T) => a < b)]
    (lhs_buffer rhs_buffer : List T) (dst_buffer : List UInt8) : Status × List UInt8 :=
  (Status.ok, (List.range dst_buffer.length).foldl
    (fun dst i =>
      dst.set i (boolToByte (decide (lhs_buffer.getD i default > rhs_buffer.getD i default))))
    dst_buffer)

/-- Embedding of `CompareGE::Execute`. -/
def CompareGE.Execute {T : Type} [Inhabited T] [LE T] [DecidableRel (fun (a b : T) => a ≤ b)]
    (lhs_buffer rhs_buffer : List T) (dst_buffer : List UInt8) : Status × List UInt8 :=
  (Status.ok, (List.range dst_buffer.length).foldl
    (fun dst i =>
      dst.set i (boolToByte (decide (lhs_buffer.getD i default ≥ rhs_buffer.getD i default))))
    dst_buffer)

/-- Embedding of `Select::Execute`; a condition byte is true when it is not zero. -/
def Select.Execute {T : Type} [Inhabited T] (cond_buffer : List UInt8)
    (lhs_buffer rhs_buffer dst_buffer : List T) : Status × List T :=
  (Status.ok, (List.range dst_buffer.length).foldl
    (fun dst i =>
      dst.set i
        (if cond_buffer.getD i default ≠ 0 then lhs_buffer.getD i default
         else rhs_buffer.getD i default))
    dst_buffer)

/-- Embedding of `Clamp::Execute`: `src <= min ? min : src >= max ? max : src`. -/
def Clamp.Execute {T : Type} [Inhabited T] [LE T] [DecidableRel (fun (a b : T) => a ≤ b)]
    (src_buffer min_buffer max_buffer dst_buffer : List T) : Status × List T :=
  (Status.ok, (List.range dst_buffer.length).foldl
    (fun dst i =>
      let src := src_buffer.getD i default
      let min := min_buffer.getD i default
      let max := max_buffer.getD i default
      dst.set i (if src ≤ min then min else if src ≥ max then max else src))
    dst_buffer)

/-! ## Broadcast -/

/-- Embedding of `Broadcast::Execute`: every destination element becomes `src_buffer[0]`. -/
def Broadcast.Execute {T : Type} [Inhabited T] (src_buffer dst_buffer : List T) :
    Status × List T :=
  (Status.ok, (List.range dst_buffer.length).foldl
    (fun dst i => dst.set i (src_buffer.getD 0 default)) dst_buffer)

/-! ## Elementwise arithmetic -/

/-- Embedding of `Add::Execute`; `+` is the addition of the element type. -/
def Add.Execute {T : Type} [Inhabited T] [Add T] (lhs_buffer rhs_buffer dst_buffer : List T) :
    Status × List T :=
  (Status.ok, (List.range dst_buffer.length).foldl
    (fun dst i => dst.set i (lhs_buffer.getD i default + rhs_buffer.getD i default))
    dst_buffer)

/-- Embedding of `Sub::Execute`. -/
def Sub.Execute {T : Type} [Inhabited T] [Sub T] (lhs_buffer rhs_buffer dst_buffer : List T) :
    Status × List T :=
  (Status.ok, (List.range dst_buffer.length).foldl
    (fun dst i => dst.set i (lhs_buffer.getD i default - rhs_buffer.getD i default))
    dst_buffer)

/-- Embedding of `Mul::Execute`. -/
def Mul.Execute {T : Type} [Inhabited T] [Mul T] (lhs_buffer rhs_buffer dst_buffer : List T) :
    Status × List T :=
  (Status.ok, (List.range dst_buffer.length).foldl
    (fun dst i => dst.set i (lhs_buffer.getD i default * rhs_buffer.getD i default))
    dst_buffer)

/-- Embedding of `MulAdd::Execute`: `a_buffer[i] + (b_buffer[i] * c_buffer[i])`. -/
def MulAdd.Execute {T : Type} [Inhabited T] [Add T] [Mul T]
    (a_buffer b_buffer c_buffer dst_buffer : List T) : Status × List T :=
  (Status.ok, (List.range dst_buffer.length).foldl
    (fun dst i =>
      dst.set i (a_buffer.getD i default + (b_buffer.getD i default * c_buffer.getD i default)))
    dst_buffer)

/-- An integer element type of the kernels: its width in bits and whether it is signed.
A value of the type is the integer it denotes. -/
structure IntType where
  bits : Nat
  isSigned : Bool
  deriving DecidableEq, Repr

/-- Least value of an integer type. -/
def IntType.minValue (t : IntType) : Int :=
  if t.isSigned then -(2 ^ (t.bits - 1)) else 0

/-- Greatest value of an integer type. -/
def IntType.maxValue (t : IntType) : Int :=
  if t.isSigned then 2 ^ (t.bits - 1) - 1 else 2 ^ t.bits - 1

/-- Conversion of an integer to an integer type: the value of the type that is congruent
to it modulo `2 ^ bits`. -/
def IntType.convert (t : IntType) (x : Int) : Int :=
  if t.isSigned then (x + 2 ^ (t.bits - 1)) % 2 ^ t.bits - 2 ^ (t.bits - 1)
  else x % 2 ^ t.bits

/-- The C++ expression `lhs / rhs` on two values of an integer type, stored back into the
type. Operands narrower than `int` (32 bits) are promoted to `int`; the quotient is
truncated toward zero. `none` is undefined behaviour: a zero divisor, or a quotient that
the type of the operation cannot represent (the least value of a signed type of at least
32 bits divided by `-1`). -/
def IntType.div (t : IntType) (lhs rhs : Int) : Option Int :=
  if rhs = 0 then none
  else if t.isSigned ∧ 32 ≤ t.bits ∧ lhs = t.minValue ∧ rhs = -1 then none
  else some (t.convert (Int.tdiv lhs rhs))

/-- Embedding of `Div::Execute` for the integer element type `t`. The loop stops with
`none` at the first index whose division is undefined behaviour. -/
def Div.Execute (t : IntType) (lhs_buffer rhs_buffer dst_buffer : List Int) :
    Option (Status × List Int) :=
  ((List.range dst_buffer.length).foldl
    (fun (st : Option (List Int)) i =>
      match st with
      | none => none
      | some dst =>
        (t.div (lhs_buffer.getD i default) (rhs_buffer.getD i default)).map
          (fun q => dst.set i q))
    (some dst_buffer)).map (fun dst => (Status.ok, dst))

/-! ## Auxiliary definitions used in the proofs -/

/-- Row-major element strides of a shape: `strides[i] = ∏_{m > i} dims[m]`. -/
def rowStrides : List Nat → List Nat
  | [] => []
  | _ :: ds => ds.prod :: rowStrides ds

/-- Weighted sum `∑ a[i] * b[i]`. -/
def dot (a b : List Nat) : Nat := (List.zipWith (fun x y => x * y) a b).sum

/-- Row-major byte strides of a shape for elements of `e` bytes. -/
def byteStrides (e : Nat) (shape : List Nat) : List Nat :=
  (rowStrides shape).map (fun x => e * x)

/-- Byte offset, in a row-major buffer of `e`-byte elements of shape `shape`, of byte `b`
of the element at multi-index `idx + k`. -/
def regionOffset (e : Nat) (shape idx k : List Nat) (b : Nat) : Nat :=
  e * flatIndex shape (List.zipWith (fun x y => x + y) idx k) + b

/-- What a region copy must achieve: `R` is `dst` with the bytes of the region
`di + [0, L)` of the destination block at `db` replaced by the bytes of the region
`si + [0, L)` of the source block at `sb`, every other byte being kept. -/
def CopyRegionSpec (e : Nat) (src : List UInt8) (sb : Nat) (ss si : List Nat)
    (dst : List UInt8) (db : Nat) (ds di L : List Nat) (R : List UInt8) : Prop :=
  R.length = dst.length ∧
  (∀ p, (¬ ∃ k b, InBox k L ∧ b < e ∧ p = db + regionOffset e ds di k b) →
    R.getD p default = dst.getD p default) ∧
  (∀ k b, InBox k L → b < e →
    R.getD (db + regionOffset e ds di k b) default
      = src.getD (sb + regionOffset e ss si k b) default)

/-- The test `impl::IsPadding` applies on one axis. -/
def padAxis (index : Int) (dim : Nat) (lo hi it : Int) : Bool :=
  decide (index < lo) || decide (index ≥ (dim : Int) - hi) ||
    decide (Int.tmod (index - lo) (it + 1) ≠ 0)

/-- The destination offset `m` of a padding with non-negative amounts is not a padding
position according to `impl::IsPadding`. -/
abbrev notPadding (s low high interior : List Nat) (m : Nat) : Prop :=
  impl.IsPadding ((unflatIndex (padShape s low high interior) m).map Int.ofNat)
    (padShape s low high interior) (low.map Int.ofNat) (high.map Int.ofNat)
    (interior.map Int.ofNat) = false

/-- Index tuples of the first `n` dimensions of `s` in the order in which the loop nest of
`impl::ReduceDimension` visits them: the last dimension is the outermost loop. -/
def tuples (s : List Nat) : Nat → List (List Nat)
  | 0 => [[]]
  | n + 1 => (List.range (s.getD n 0)).flatMap (fun x => (tuples s n).map (fun lo => lo ++ [x]))

/-- Effect of the base case of `impl::ReduceDimension` at the source multi-index `i` when
the reduced dimension is `dim` and the destination has shape `d`. -/
def applyVisit {T : Type} [Inhabited T] (kernel : T → T → T) (src : List T) (s d : List Nat)
    (dim : Nat) (dst : List T) (i : List Nat) : List T :=
  dst.set (flatIndex d (i.eraseIdx dim))
    (kernel (dst.getD (flatIndex d (i.eraseIdx dim)) default)
      (src.getD (flatIndex s i) default))

/-- Source multi-index of `Reverse` for the destination multi-index `j`: coordinate `i`
is `d[i] - 1 - j[i]` where the flag of the axis is set and `j[i]` elsewhere. -/
def revIdx : List Nat → List Nat → List Bool → List Nat
  | j :: js, d :: ds, f :: fs => (if f then d - 1 - j else j) :: revIdx js ds fs
  | _, _, _ => []


/-- Log of the walk of a reduction of a source of shape `s` along `dim`:
`impl::GenericReduce` run with the combine operator that appends the source element to the
destination element, on the source whose element at linear index `i` is the one-element
list `[i]`, with the empty list as initial value. Element `p` of the result lists, in
order, the source linear indices at which the combine operator was applied to destination
element `p`. -/
def reductionLog (s : Shape) (dim : Nat) (dst_buffer : List (List Nat)) : List (List Nat) :=
  (impl.GenericReduce (fun acc x => acc ++ x) ((List.range s.prod).map (fun i => [i])) [[]]
    dst_buffer dim s (s.eraseIdx dim)).2

/-- A floating-point element value as far as the comparisons of the kernels see it: NaN or
a number (an integer here, which a binary floating-point type of enough precision
represents exactly). -/
inductive FloatValue where
  | nan
  | num (x : Int)
  deriving DecidableEq, Repr

/-- The comparison `a < b` of two floating-point values: as in IEEE 754 it is false when
one of them is NaN. -/
def FloatValue.lt : FloatValue → FloatValue → Bool
  | FloatValue.num x, FloatValue.num y => decide (x < y)
  | _, _ => false

/-- The comparison `a <= b` of two floating-point values: as in IEEE 754 it is false when
one of them is NaN. -/
def FloatValue.le : FloatValue → FloatValue → Bool
  | FloatValue.num x, FloatValue.num y => decide (x ≤ y)
  | _, _ => false

instance : Inhabited FloatValue := ⟨FloatValue.num 0⟩

instance : LT FloatValue := ⟨fun a b => FloatValue.lt a b = true⟩

instance : LE FloatValue := ⟨fun a b => FloatValue.le a b = true⟩

instance : DecidableRel (fun (a b : FloatValue) => a < b) :=
  fun a b => inferInstanceAs (Decidable (FloatValue.lt a b = true))

instance : DecidableRel (fun (a b : FloatValue) => a ≤ b) :=
  fun a b => inferInstanceAs (Decidable (FloatValue.le a b = true))

end iree.hal.kernels

namespace iree

/-! ## Loader of verified buffers (`iree/base/flatbuffer_util.h`)

Objects that the source reaches through pointers live in an explicit `World`, which every
operation takes and returns. A root pointer is an address (`none` is `nullptr`). -/

/-- Modelled from the spec: kind carried by a failed `Status`, after the error taxonomy
"invalid-argument", "verification-failure", "resource-failure", "internal"; the header
includes `iree/base/status.h` for the declaration. -/
inductive StatusCode where
  | invalidArgument
  | verificationFailure
  | resourceFailure
  | internal
  deriving DecidableEq, Repr

/-- Modelled from the spec: `iree::Status` of `iree/base/status.h`, the result of a
fallible operation that returns no value, "a result carrying a kind". -/
inductive Status where
  | ok
  | failure (code : StatusCode)
  deriving DecidableEq, Repr

/-- Modelled from the spec: `StatusOr<T>` of `iree/base/status.h`, "a discriminated
success/failure outcome": either a failure or a value. -/
abbrev StatusOr (α : Type) := Except StatusCode α

/-- A `std::function<void()>` stored as release action of a handle.
`action id` is a callback supplied by the caller, `deleteBuffer` the lambda that deletes
the owned copy of a moved-in container, `keepAlive block` the lambda of `CreateShareGroup`
that captures a `shared_ptr` whose control block is `block`, `empty` no callback. -/
inductive Deleter where
  | empty
  | action (id : Nat)
  | deleteBuffer
  | keepAlive (block : Nat)
  deriving DecidableEq, Repr

/-- Fields of `FlatBufferFileBase`: `root_ptr_` and `deleter_`. -/
structure FlatBufferFile where
  root_ptr : Option Nat
  deleter : Deleter
  deriving DecidableEq, Repr

/-- Control block of a `std::shared_ptr<FlatBufferFile<T>>` with the object it manages. -/
structure SharedBlock where
  use_count : Nat
  file : Option FlatBufferFile
  deriving DecidableEq, Repr

/-- State that the loader operations act on: the control blocks of the shared pointers,
the release actions that have run (oldest first) and the number of calls of a verifier
function. -/
structure World where
  shared : List SharedBlock
  released : List Deleter
  verifier_calls : Nat
  deriving DecidableEq, Repr

/-- Collaborators outside this repository: the structural verifier of the serialization
library behind `VerifierFnT`, the resolution of the root table of a buffer and the file
system. -/
structure Externals where
  verifier_fn : Option String → List UInt8 → Bool
  root_of : List UInt8 → Nat
  read_file : String → Option (List UInt8)

/-- A freshly allocated `new FlatBufferFile<T>`: null root pointer, no release action. -/
def FlatBufferFile.new : FlatBufferFile := { root_ptr := none, deleter := Deleter.empty }

/-- Embedding of `FlatBufferFile<T>::root()`. -/
def FlatBufferFile.root (file : FlatBufferFile) : Option Nat := file.root_ptr

/-- Modelled from the spec: the body of `~FlatBufferFileBase()`, which is not in the header.
The header says of it that the provided deleter "will be called when the FlatBufferFile is
destructed", the spec that the release action "runs at destruction": a stored callback is
invoked once, which is recorded in `released`; the body of the `keepAlive` lambda is
`(void)shared_file;` and has no effect. -/
def FlatBufferFileBase.invokeDeleter (file : FlatBufferFile) (w : World) : World :=
  match file.deleter with
  | Deleter.action id => { w with released := w.released ++ [Deleter.action id] }
  | Deleter.deleteBuffer => { w with released := w.released ++ [Deleter.deleteBuffer] }
  | Deleter.keepAlive _ => w
  | Deleter.empty => w

/-- Destruction of a `std::function`: its captures are destroyed, which for the
`keepAlive` lambda releases the captured `shared_ptr` through `release`. -/
def Deleter.destroyCaptures (release : Nat → World → World) (d : Deleter) (w : World) : World :=
  match d with
  | Deleter.keepAlive block => release block w
  | _ => w

/-- Destructor of a `std::shared_ptr` with control block `block`: the use count drops by
one, and the managed handle is destroyed when it reaches zero (its destructor body runs,
then its members are destroyed). The first argument bounds the depth of nested
destructions. -/
def SharedPtr.releaseFuel : Nat → Nat → World → World
  | 0, _, w => w
  | fuel + 1, block, w =>
    match w.shared[block]? with
    | none => w
    | some blk =>
      if blk.use_count ≤ 1 then
        let w1 := { w with shared := w.shared.set block { use_count := 0, file := none } }
        match blk.file with
        | none => w1
        | some f =>
          Deleter.destroyCaptures (SharedPtr.releaseFuel fuel) f.deleter
            (FlatBufferFileBase.invokeDeleter f w1)
      else
        { w with shared :=
            w.shared.set block { use_count := blk.use_count - 1, file := blk.file } }

/-- Destructor of a `std::shared_ptr`; a destruction can nest at most once per control
block. -/
def SharedPtr.release (block : Nat) (w : World) : World :=
  SharedPtr.releaseFuel (w.shared.length + 1) block w

/-- Copy of a `std::shared_ptr` with control block `block`: the use count grows by one. -/
def SharedPtr.copy (block : Nat) (w : World) : World :=
  match w.shared[block]? with
  | none => w
  | some blk =>
    { w with shared :=
        w.shared.set block { use_count := blk.use_count + 1, file := blk.file } }

/-- Destruction of a `std::function` that is not stored in a handle. -/
def Deleter.destroy (d : Deleter) (w : World) : World :=
  Deleter.destroyCaptures SharedPtr.release d w

/-- Destruction of a handle held by a `std::unique_ptr`: the destructor body runs, then
the member `deleter_` is destroyed. -/
def FlatBufferFile.destroy (file : FlatBufferFile) (w : World) : World :=
  Deleter.destroy file.deleter (FlatBufferFileBase.invokeDeleter file w)

/-- Destruction of handles one after the other, in the order of the list. -/
def FlatBufferFile.destroyAll (files : List FlatBufferFile) (w : World) : World :=
  files.foldl (fun w file => FlatBufferFile.destroy file w) w

/-- Modelled from the spec: the body of `FlatBufferFileBase::Create`, which is not in the
header. The spec: "wrap an already-verified, caller-owned root; release_action runs at
destruction. No verification performed". The conditions of a failure are not given: the
status that the call reports is the argument `outcome`; on a failure nothing is stored and
the callback, passed by value, is destroyed. -/
def FlatBufferFileBase.Create (outcome : Status) (root_ptr : Option Nat) (deleter : Deleter)
    (self : FlatBufferFile) (w : World) : Status × FlatBufferFile × World :=
  match outcome with
  | Status.ok => (Status.ok, { root_ptr := root_ptr, deleter := deleter }, w)
  | Status.failure code => (Status.failure code, self, Deleter.destroy deleter w)

/-- Modelled from the spec: the body of `FlatBufferFileBase::FromBuffer`, which is not in
the header. The spec: "verify `byte_range` against `identifier` and the expected root type's
structural schema; on success, store the root pointer and keep `release_action` to run at
destruction; on failure, run no release action (no ownership was taken) and report a
verification error". -/
def FlatBufferFileBase.FromBuffer (ext : Externals) (identifier : Option String)
    (buffer_data : List UInt8) (deleter : Deleter) (self : FlatBufferFile) (w : World) :
    Status × FlatBufferFile × World :=
  let w1 := { w with verifier_calls := w.verifier_calls + 1 }
  if ext.verifier_fn identifier buffer_data then
    (Status.ok, { root_ptr := some (ext.root_of buffer_data), deleter := deleter }, w1)
  else
    (Status.failure StatusCode.verificationFailure, self, Deleter.destroy deleter w1)

/-- Modelled from the spec: the body of `FlatBufferFileBase::WrapBuffer`, which is not in
the header: as `FromBuffer` for memory that stays owned by the caller, so that no release
action is kept. -/
def FlatBufferFileBase.WrapBuffer (ext : Externals) (identifier : Option String)
    (buffer_data : List UInt8) (self : FlatBufferFile) (w : World) :
    Status × FlatBufferFile × World :=
  FlatBufferFileBase.FromBuffer ext identifier buffer_data Deleter.empty self w

/-- Modelled from the spec: the body of `FlatBufferFileBase::FromString`, which is not in
the header. The spec: "same as WrapExternal but the loader itself becomes the owner (for
vector/string variants, ownership is transferred in and the release action frees the
moved-in container)". -/
def FlatBufferFileBase.FromString (ext : Externals) (identifier : Option String)
    (buffer_data : List UInt8) (self : FlatBufferFile) (w : World) :
    Status × FlatBufferFile × World :=
  FlatBufferFileBase.FromBuffer ext identifier buffer_data Deleter.deleteBuffer self w

/-- Modelled from the spec: the body of `FlatBufferFileBase::LoadFile`, which is not in the
header. The spec: "map the file at `path` into memory [...] and verify as above; failure to
open/map/verify is reported, not fatal". The release action of a mapped file releases the
mapping. -/
def FlatBufferFileBase.LoadFile (ext : Externals) (identifier : Option String) (path : String)
    (self : FlatBufferFile) (w : World) : Status × FlatBufferFile × World :=
  match ext.read_file path with
  | none => (Status.failure StatusCode.resourceFailure, self, w)
  | some buffer_data =>
    FlatBufferFileBase.FromBuffer ext identifier buffer_data Deleter.deleteBuffer self w

/-- Body shared by the static factory functions of `FlatBufferFile<T>`: allocate a handle,
run the step of the base class on it, return its failure (`RETURN_IF_ERROR`, which
destroys the handle held by the local `unique_ptr`) or the handle. -/
def FlatBufferFile.build (step : FlatBufferFile → World → Status × FlatBufferFile × World)
    (w : World) : StatusOr FlatBufferFile × World :=
  let flat_buffer_file := FlatBufferFile.new
  match step flat_buffer_file w with
  | (Status.failure code, file, w1) => (Except.error code, FlatBufferFile.destroy file w1)
  | (Status.ok, file, w1) => (Except.ok file, w1)

/-- Embedding of `FlatBufferFile<T>::Create`. -/
def FlatBufferFile.Create (outcome : Status) (root : Option Nat) (deleter : Deleter)
    (w : World) : StatusOr FlatBufferFile × World :=
  FlatBufferFile.build (FlatBufferFileBase.Create outcome root deleter) w

/-- Embedding of `FlatBufferFile<T>::FromBuffer(identifier, buffer_data, deleter)`. -/
def FlatBufferFile.FromBuffer (ext : Externals) (identifier : Option String)
    (buffer_data : List UInt8) (deleter : Deleter) (w : World) :
    StatusOr FlatBufferFile × World :=
  FlatBufferFile.build (FlatBufferFileBase.FromBuffer ext identifier buffer_data deleter) w

/-- Embedding of `FlatBufferFile<T>::FromBuffer(identifier, std::vector<uint8_t>)`: the
vector is moved to the heap and the release action deletes it. -/
def FlatBufferFile.FromBufferVector (ext : Externals) (identifier : Option String)
    (buffer_data : List UInt8) (w : World) : StatusOr FlatBufferFile × World :=
  FlatBufferFile.FromBuffer ext identifier buffer_data Deleter.deleteBuffer w

/-- Embedding of `FlatBufferFile<T>::WrapBuffer`. -/
def FlatBufferFile.WrapBuffer (ext : Externals) (identifier : Option String)
    (buffer_data : List UInt8) (w : World) : StatusOr FlatBufferFile × World :=
  FlatBufferFile.build (FlatBufferFileBase.WrapBuffer ext identifier buffer_data) w

/-- Embedding of `FlatBufferFile<T>::FromString`. -/
def FlatBufferFile.FromString (ext : Externals) (identifier : Option String)
    (buffer_data : List UInt8) (w : World) : StatusOr FlatBufferFile × World :=
  FlatBufferFile.build (FlatBufferFileBase.FromString ext identifier buffer_data) w

/-- Embedding of `FlatBufferFile<T>::LoadFile`. -/
def FlatBufferFile.LoadFile (ext : Externals) (identifier : Option String) (path : String)
    (w : World) : StatusOr FlatBufferFile × World :=
  FlatBufferFile.build (FlatBufferFileBase.LoadFile ext identifier path) w

/-- One iteration of the loop of `CreateShareGroup`. The state is the failure that left
the loop, if any, the list built so far and the world. -/
def FlatBufferFile.CreateShareGroup.step (outcome : Nat → Status) (root : Option Nat)
    (block : Nat) (st : Option StatusCode × List FlatBufferFile × World) (i : Nat) :
    Option StatusCode × List FlatBufferFile × World :=
  match st.1 with
  | some _ => st
  | none =>
    match FlatBufferFile.Create (outcome i) root (Deleter.keepAlive block)
        (SharedPtr.copy block st.2.2) with
    | (Except.error code, w1) => (some code, st.2.1, w1)
    | (Except.ok new_file, w1) => (none, st.2.1 ++ [new_file], w1)

/-- Embedding of `FlatBufferFile<T>::CreateShareGroup`. `outcome i` is the status that the
`i`-th call of `FlatBufferFileBase::Create` reports. The handle `file` moves into a new
control block; each iteration copies the shared pointer into the lambda given to `Create`;
on return the local list (on a failure) and the local shared pointer are destroyed. -/
def FlatBufferFile.CreateShareGroup (outcome : Nat → Status) (file : FlatBufferFile)
    (count : Int) (w : World) : StatusOr (List FlatBufferFile) × World :=
  let block := w.shared.length
  let w0 := { w with shared := w.shared ++ [{ use_count := 1, file := some file }] }
  let st := (List.range count.toNat).foldl
    (FlatBufferFile.CreateShareGroup.step outcome file.root block) (none, [], w0)
  match st.1 with
  | some code =>
    (Except.error code, SharedPtr.release block (FlatBufferFile.destroyAll st.2.1 st.2.2))
  | none => (Except.ok st.2.1, SharedPtr.release block st.2.2)

end iree

namespace iree

/-! ## Auxiliary definitions used in the proofs about the loader -/

/-- Result that a factory function owes to its caller for the outcome `r` of the step of
the base class: the failure of the step, or the handle that the step filled. -/
def propagate (r : Status × FlatBufferFile × World) : StatusOr FlatBufferFile :=
  match r.1 with
  | Status.failure code => Except.error code
  | Status.ok => Except.ok r.2.1

/-- World `w` with one more control block, which manages `file` with use count `k`. -/
def withBlock (w : World) (k : Nat) (file : FlatBufferFile) : World :=
  { w with shared := w.shared ++ [{ use_count := k, file := some file }] }

/-- World `w` with one more control block, whose object has been destroyed. -/
def withDeadBlock (w : World) : World :=
  { w with shared := w.shared ++ [{ use_count := 0, file := none }] }

end iree

namespace iree.hal

/-! ## Executable format identifiers (`iree/hal/executable_format.h`) -/

/-- `ExecutableFormat` is `uint32_t`: a natural number below `2 ^ 32`. -/
abbrev ExecutableFormat := Nat

/-- The `char` array of a string literal: the codes of its characters and the final
`'\0'`. -/
def literalChars (s : String) : List Nat := s.toList.map Char.toNat ++ [0]

/-- Embedding of `MakeExecutableFormatID`. The array `four_cc` holds the codes of its
characters. A `char` with a code below 128 is promoted to the `int` of that code whether
`char` is signed or not; the shifts and the ors are those of `int`, and the result is
converted to `uint32_t`. -/
def MakeExecutableFormatID (four_cc : List Nat) : ExecutableFormat :=
  ((four_cc.getD 0 0 <<< 24) ||| (four_cc.getD 1 0 <<< 16) ||| (four_cc.getD 2 0 <<< 8) |||
    four_cc.getD 3 0) % 2 ^ 32

/-- Undefined (or unknown) format. -/
def kExecutableFormatUnspecified : ExecutableFormat :=
  MakeExecutableFormatID (literalChars "    ")

/-- MLIR text form. -/
def kExecutableFormatMlir : ExecutableFormat := MakeExecutableFormatID (literalChars "MLIR")

/-- IREE v0 bytecode. -/
def kExecutableFormatIreeBytecode : ExecutableFormat :=
  MakeExecutableFormatID (literalChars "IREE")

/-- SPIR-V executable in FlatBuffer format. -/
def kExecutableFormatSpirV : ExecutableFormat := MakeExecutableFormatID (literalChars "SPVE")

end iree.hal

namespace mlir.iree_compiler

/-! ## Lowering of output bindings (`iree/compiler/Transforms/Interpreter/MakeExecutableABI.cpp`) -/

/-- The cases of the type of the stored value that `replaceStoreOutputOp` tells apart. -/
inductive SrcType where
  | memRef
  | tensor
  | intOrIndexOrFloat
  | other
  deriving DecidableEq, Repr

/-- A ranked MLIR `ShapedType` as far as the pass looks at it: the sizes of its dimensions,
which are `int64_t`; the size of a dynamic dimension is negative. -/
structure ShapedType where
  shape : List Int
  deriving DecidableEq, Repr

/-- Number of dimensions of a shaped type. -/
def ShapedType.getRank (t : ShapedType) : Nat := t.shape.length

/-- Size of dimension `i` of a shaped type. -/
def ShapedType.getDimSize (t : ShapedType) (i : Nat) : Int := t.shape.getD i 0

/-- No dimension of the shaped type is dynamic. -/
def ShapedType.hasStaticShape (t : ShapedType) : Bool := t.shape.all (fun d => decide (0 ≤ d))

/-- The conversion `static_cast<int32_t>` of an `int64_t`: the value of `int32_t` congruent
to the argument modulo `2 ^ 32`. -/
def static_cast_int32 (x : Int) : Int := (x + 2 ^ 31) % 2 ^ 32 - 2 ^ 31

/-- Operations that the builder inserts in front of a `store_output` op. Operands that are
results of constant ops are given by the values of the constant. -/
inductive Op where
  | tensorToMemRef
  | constant (values : List Int)
  | copy (src_indices dst_indices lengths : List Int)
  | store
  deriving DecidableEq, Repr

/-- Errors that `replaceStoreOutputOp` emits. -/
inductive Failure where
  | dynamicOutput
  | unsupportedSrcType
  deriving DecidableEq, Repr

/-- Embedding of `replaceStoreOutputOp`: the operations created for a `store_output` whose
stored value has a type of the case `srcType` and whose destination has the type `dst`,
or the error emitted. A tensor source is cast to a memref and copied into the destination
with `rank` zero start indices on both sides and the lengths `shapeValues`. -/
def replaceStoreOutputOp (srcType : SrcType) (dst : ShapedType) : Except Failure (List Op) :=
  match srcType with
  | SrcType.memRef => Except.ok []
  | SrcType.tensor =>
    if !dst.hasStaticShape then Except.error Failure.dynamicOutput
    else
      let rank := if dst.getRank ≠ 0 then dst.getRank else 1
      let zeroValues : List Int := List.replicate rank 0
      let shapeValues : List Int :=
        if dst.getRank > 0 then
          (List.range dst.getRank).foldl
            (fun sv i => sv.set i (static_cast_int32 (dst.getDimSize i)))
            (List.replicate rank 0)
        else (List.replicate rank 0).set 0 1
      Except.ok [Op.tensorToMemRef, Op.constant zeroValues, Op.constant shapeValues,
        Op.copy zeroValues zeroValues shapeValues]
  | SrcType.intOrIndexOrFloat => Except.ok [Op.store]
  | SrcType.other => Except.error Failure.unsupportedSrcType

end mlir.iree_compiler

namespace iree.hal.kernels

/-! ## Theorems -/

/-! ### Loops that write a buffer front to back -/

theorem foldl_set_range {α : Type} (f : Nat → α) (n : Nat) (dst : List α) (h : n ≤ dst.length) :
    (List.range n).foldl (fun d i => d.set i (f i)) dst
      = (List.range n).map f ++ dst.drop n := by
  induction n with
  | zero => simp
  | succ n ih =>
    rw [List.range_succ, List.foldl_append, ih (by omega)]
    have hlen : ((List.range n).map f).length = n := by simp
    have hn : n < dst.length := by omega
    simp only [List.foldl_cons, List.foldl_nil, List.map_append, List.map_cons, List.map_nil]
    rw [List.set_append, if_neg (by omega), hlen, Nat.sub_self, List.drop_eq_getElem_cons hn]
    simp only [List.set_cons_zero, List.append_assoc, List.singleton_append]

theorem foldl_set_range_full {α : Type} (f : Nat → α) (dst : List α) :
    (List.range dst.length).foldl (fun d i => d.set i (f i)) dst
      = (List.range dst.length).map f := by
  rw [foldl_set_range f dst.length dst le_rfl]
  simp


/-! ### Strides, row-major offsets and Transpose -/

theorem set_replicate_succ_append (k a : Nat) (X : List Nat) :
    (List.replicate (k + 1) 0 ++ X).set k a = List.replicate k 0 ++ a :: X := by
  rw [List.replicate_succ', List.append_assoc, List.set_append, if_neg (by simp)]
  simp

theorem strides_loop (A B : Nat → Nat) (j : Nat) : ∀ k,
    (List.range' k j).reverse.foldl
      (fun (st : List Nat × List Nat × Nat × Nat) dim_i =>
        (st.1.set dim_i st.2.2.1, st.2.1.set dim_i st.2.2.2,
         st.2.2.1 * A dim_i, st.2.2.2 * B dim_i))
      (List.replicate (k + j) 0, List.replicate (k + j) 0, 1, 1)
    = (List.replicate k 0 ++ rowStrides ((List.range' k j).map A),
       List.replicate k 0 ++ rowStrides ((List.range' k j).map B),
       ((List.range' k j).map A).prod, ((List.range' k j).map B).prod) := by
  induction j with
  | zero => intro k; simp [rowStrides]
  | succ j ih =>
    intro k
    have h := ih (k + 1)
    rw [show k + 1 + j = k + (j + 1) by omega] at h
    rw [List.range'_succ, List.reverse_cons, List.foldl_append, h]
    simp only [List.foldl_cons, List.foldl_nil, List.map_cons, rowStrides, List.prod_cons,
      set_replicate_succ_append]
    simp [Nat.mul_comm]

theorem map_getD_range (l : List Nat) :
    (List.range' 0 l.length).map (fun m => l.getD m 0) = l := by
  apply List.ext_getElem
  · simp
  · intro i h1 h2
    simp at h1
    simp [List.getElem?_eq_getElem h1]


theorem Transpose_strides_eq (s : Shape) (perm : List Nat) (hlen : perm.length = s.length) :
    Transpose.strides s perm = (rowStrides s, rowStrides (permuteShape s perm)) := by
  unfold Transpose.strides
  have h := strides_loop (fun m => s.getD m 0) (fun m => s.getD (perm.getD m 0) 0) s.length 0
  simp only [Nat.zero_add, List.replicate_zero, List.nil_append] at h
  simp only [List.range_eq_range']
  rw [h, map_getD_range]
  have h2 : (List.range' 0 s.length).map (fun m => s.getD (perm.getD m 0) 0)
      = permuteShape s perm := by
    unfold permuteShape
    rw [← hlen]
    apply List.ext_getElem
    · simp
    · intro i h1 h2
      simp at h2
      simp [List.getElem?_eq_getElem h2]
  rw [h2]

theorem InBox.length_eq {j d : List Nat} (h : InBox j d) : j.length = d.length :=
  List.Forall₂.length_eq h

theorem flatIndex_lt : ∀ {d j : List Nat}, InBox j d → flatIndex d j < d.prod := by
  intro d j h
  induction h with
  | nil => simp [flatIndex]
  | @cons i d is ds hid _ ih =>
    simp only [flatIndex, List.prod_cons]
    calc i * ds.prod + flatIndex ds is < i * ds.prod + ds.prod := by omega
      _ = (i + 1) * ds.prod := by ring
      _ ≤ d * ds.prod := Nat.mul_le_mul_right _ hid

theorem flatIndex_eq_dot : ∀ (d j : List Nat), flatIndex d j = dot j (rowStrides d) := by
  intro d
  induction d with
  | nil => intro j; cases j <;> simp [flatIndex, dot, rowStrides]
  | cons d ds ih =>
    intro j
    cases j with
    | nil => simp [flatIndex, dot]
    | cons i is =>
      have := ih is
      simp only [flatIndex, rowStrides, dot, List.zipWith_cons_cons, List.sum_cons] at *
      omega

theorem rowStrides_length (d : List Nat) : (rowStrides d).length = d.length := by
  induction d with
  | nil => rfl
  | cons d ds ih => simp [rowStrides, ih]

theorem decomp_loop : ∀ {J D : List Nat}, InBox J D → ∀ (W : List Nat), W.length = D.length →
    ∀ acc : Nat,
    (List.zip (rowStrides D) W).foldl
      (fun (st : Nat × Nat) (p : Nat × Nat) => (st.1 - st.1 / p.1 * p.1, st.2 + st.1 / p.1 * p.2))
      (flatIndex D J, acc) = (0, acc + dot J W) := by
  intro J D h
  induction h with
  | nil => intro W _ acc; simp [rowStrides, flatIndex, dot]
  | @cons i d is ds hid hbox ih =>
    intro W hW acc
    cases W with
    | nil => simp at hW
    | cons w ws =>
      have hf := flatIndex_lt hbox
      have hpos : 0 < ds.prod := by omega
      have hq : (i * ds.prod + flatIndex ds is) / ds.prod = i := by
        rw [Nat.add_comm, Nat.add_mul_div_right _ _ hpos, Nat.div_eq_of_lt hf]; simp
      simp only [rowStrides, flatIndex, List.zip_cons_cons, List.foldl_cons, hq]
      rw [Nat.add_sub_cancel_left, ih ws (by simpa using hW)]
      simp [dot, Nat.add_assoc]

theorem map_range_zip (a b : List Nat) (r : Nat) (ha : a.length = r) (hb : b.length = r) :
    (List.range r).map (fun k => (a.getD k 0, b.getD k 0)) = a.zip b := by
  apply List.ext_getElem
  · simp [ha, hb]
  · intro i h1 h2
    simp at h1
    simp [List.getElem?_eq_getElem (show i < a.length by omega),
      List.getElem?_eq_getElem (show i < b.length by omega)]

theorem Transpose_srcIndex_eq_dot (sstr dstr perm : List Nat) {J D : List Nat} (hJ : InBox J D)
    (hd : dstr = rowStrides D) (hp : perm.length = D.length) :
    Transpose.srcIndex sstr dstr perm D.length (flatIndex D J)
      = dot J (perm.map (fun p => sstr.getD p 0)) := by
  unfold Transpose.srcIndex
  have hmap : (List.range D.length).map
        (fun k => (dstr.getD k 0, sstr.getD (perm.getD k 0) 0))
      = dstr.zip (perm.map (fun p => sstr.getD p 0)) := by
    rw [← map_range_zip dstr _ D.length (by rw [hd, rowStrides_length]) (by simpa using hp)]
    apply List.map_congr_left
    intro k hk
    simp at hk
    simp [List.getElem?_eq_getElem (show k < perm.length by omega)]
  have h := decomp_loop hJ (perm.map (fun p => sstr.getD p 0)) (by simpa using hp) 0
  rw [← hd, ← hmap, List.foldl_map] at h
  simp only [Nat.zero_add] at h
  exact congrArg Prod.snd h


theorem dot_eq_sum_range (a b : List Nat) (r : Nat) (ha : a.length = r) (hb : b.length = r) :
    dot a b = ((List.range r).map (fun m => a.getD m 0 * b.getD m 0)).sum := by
  unfold dot
  congr 1
  apply List.ext_getElem
  · simp [ha, hb]
  · intro i h1 h2
    simp at h2
    simp [List.getElem?_eq_getElem (show i < a.length by omega),
      List.getElem?_eq_getElem (show i < b.length by omega)]

theorem eq_map_getD_of_forall (perm I J : List Nat) (hJ : J.length = perm.length)
    (hij : ∀ k, k < perm.length → I.getD (perm.getD k 0) 0 = J.getD k 0) :
    J = perm.map (fun p => I.getD p 0) := by
  apply List.ext_getElem
  · simp [hJ]
  · intro k h1 h2
    simp at h2
    have := hij k h2
    simp [List.getElem?_eq_getElem h2, List.getElem?_eq_getElem h1] at this
    simp [this]

theorem dot_perm (perm I J str : List Nat) (r : Nat) (hperm : perm.Perm (List.range r))
    (hI : I.length = r) (hstr : str.length = r) (hJ : J.length = r)
    (hij : ∀ k, k < r → I.getD (perm.getD k 0) 0 = J.getD k 0) :
    dot J (perm.map (fun p => str.getD p 0)) = dot I str := by
  have hpl : perm.length = r := by simpa using hperm.length_eq
  have hJe := eq_map_getD_of_forall perm I J (by omega) (by rw [hpl]; exact hij)
  rw [dot_eq_sum_range I str r hI hstr, hJe]
  unfold dot
  rw [List.zipWith_map, List.zipWith_same]
  exact (hperm.map _).sum_eq

theorem Transpose_srcIndex_flat (s : Shape) (perm : List Nat)
    (hperm : perm.Perm (List.range s.length)) (j i : List Nat)
    (hj : InBox j (permuteShape s perm)) (hi : i.length = s.length)
    (hij : ∀ k, k < s.length → i.getD (perm.getD k 0) 0 = j.getD k 0) :
    Transpose.srcIndex (Transpose.strides s perm).1 (Transpose.strides s perm).2 perm s.length
      (flatIndex (permuteShape s perm) j) = flatIndex s i := by
  have hpl : perm.length = s.length := by simpa using hperm.length_eq
  have hdl : (permuteShape s perm).length = s.length := by simp [permuteShape, hpl]
  rw [Transpose_strides_eq s perm hpl]
  have h := Transpose_srcIndex_eq_dot (rowStrides s) (rowStrides (permuteShape s perm)) perm hj rfl
    (by rw [hdl, hpl])
  rw [hdl] at h
  rw [h, flatIndex_eq_dot]
  exact dot_perm perm i j (rowStrides s) s.length hperm hi (rowStrides_length s)
    (by rw [hj.length_eq, hdl]) hij


theorem inBox_iff_getD (j d : List Nat) :
    InBox j d ↔ j.length = d.length ∧ ∀ k, k < d.length → j.getD k 0 < d.getD k 0 := by
  unfold InBox
  rw [List.forall₂_iff_get]
  constructor
  · rintro ⟨hl, h⟩
    refine ⟨hl, fun k hk => ?_⟩
    have := h k (by omega) hk
    rw [List.getD_eq_getElem _ _ hk, List.getD_eq_getElem _ _ (show k < j.length by omega)]
    simpa using this
  · rintro ⟨hl, h⟩
    refine ⟨hl, fun k hk1 hk2 => ?_⟩
    have := h k hk2
    rw [List.getD_eq_getElem _ _ hk2, List.getD_eq_getElem _ _ hk1] at this
    simpa using this

theorem unflatIndex_spec : ∀ (s : Shape) (n : Nat), n < s.prod →
    InBox (unflatIndex s n) s ∧ flatIndex s (unflatIndex s n) = n := by
  intro s
  induction s with
  | nil => intro n _; simp_all [unflatIndex, flatIndex, InBox]
  | cons d ds ih =>
    intro n hn
    simp only [List.prod_cons] at hn
    have hpos : 0 < ds.prod := by
      rcases Nat.eq_zero_or_pos ds.prod with h | h
      · simp [h] at hn
      · exact h
    have h1 : n / ds.prod < d := by
      rw [Nat.div_lt_iff_lt_mul hpos]; exact hn
    have h2 := ih (n % ds.prod) (Nat.mod_lt _ hpos)
    refine ⟨List.Forall₂.cons h1 h2.1, ?_⟩
    simp only [unflatIndex, flatIndex, h2.2]
    rw [Nat.mul_comm]; exact Nat.div_add_mod n ds.prod

theorem flatIndex_unflat_of_inBox : ∀ {j d : List Nat}, InBox j d →
    unflatIndex d (flatIndex d j) = j := by
  intro j d h
  induction h with
  | nil => simp [unflatIndex]
  | @cons i d is ds hid hbox ih =>
    have hf := flatIndex_lt hbox
    have hpos : 0 < ds.prod := by omega
    simp only [flatIndex, unflatIndex]
    rw [Nat.add_comm, Nat.add_mul_div_right _ _ hpos, Nat.div_eq_of_lt hf,
      Nat.add_mul_mod_self_right, Nat.mod_eq_of_lt hf, ih]
    simp

theorem permuteShape_prod (s : Shape) (perm : List Nat)
    (hperm : perm.Perm (List.range s.length)) : (permuteShape s perm).prod = s.prod := by
  unfold permuteShape
  rw [(hperm.map _).prod_eq]
  have := map_getD_range s
  rw [← List.range_eq_range'] at this
  rw [this]

theorem perm_mem_lt {perm : List Nat} {r : Nat} (hperm : perm.Perm (List.range r)) {p : Nat} :
    p ∈ perm ↔ p < r := by
  rw [hperm.mem_iff]; simp

theorem perm_getD_lt {perm : List Nat} {r : Nat} (hperm : perm.Perm (List.range r)) {k : Nat}
    (hk : k < r) : perm.getD k 0 < r := by
  have hpl : perm.length = r := by simpa using hperm.length_eq
  rw [List.getD_eq_getElem _ _ (by omega)]
  exact (perm_mem_lt hperm).1 (List.getElem_mem _)

theorem perm_getD_indexOf {perm : List Nat} {r : Nat} (hperm : perm.Perm (List.range r))
    {m : Nat} (hm : m < r) : perm.indexOf m < r ∧ perm.getD (perm.indexOf m) 0 = m := by
  have hpl : perm.length = r := by simpa using hperm.length_eq
  have hmem : m ∈ perm := (perm_mem_lt hperm).2 hm
  have hlt : perm.indexOf m < perm.length := List.indexOf_lt_length.2 hmem
  refine ⟨by omega, ?_⟩
  rw [List.getD_eq_getElem _ _ hlt]
  exact List.getElem_indexOf hlt

theorem perm_indexOf_getD {perm : List Nat} {r : Nat} (hperm : perm.Perm (List.range r))
    {k : Nat} (hk : k < r) : perm.indexOf (perm.getD k 0) = k := by
  have hpl : perm.length = r := by simpa using hperm.length_eq
  have hnd : perm.Nodup := hperm.nodup_iff.2 (List.nodup_range r)
  rw [List.getD_eq_getElem _ _ (by omega)]
  exact List.indexOf_getElem hnd k (by omega)

theorem inversePerm_length (perm : List Nat) : (inversePerm perm).length = perm.length := by
  simp [inversePerm]

theorem inversePerm_getD {perm : List Nat} {r : Nat} (hperm : perm.Perm (List.range r))
    {k : Nat} (hk : k < r) : (inversePerm perm).getD k 0 = perm.indexOf k := by
  have hpl : perm.length = r := by simpa using hperm.length_eq
  unfold inversePerm
  rw [List.getD_eq_getElem _ _ (by simp; omega)]
  simp

theorem inversePerm_perm {perm : List Nat} {r : Nat} (hperm : perm.Perm (List.range r)) :
    (inversePerm perm).Perm (List.range r) := by
  have hpl : perm.length = r := by simpa using hperm.length_eq
  have hnd : (inversePerm perm).Nodup := by
    unfold inversePerm
    apply List.Nodup.map_on _ (List.nodup_range _)
    intro x hx y hy hxy
    simp [hpl] at hx hy
    exact (List.indexOf_inj ((perm_mem_lt hperm).2 hx) ((perm_mem_lt hperm).2 hy)).1 hxy
  apply (List.subperm_of_subset hnd ?_).perm_of_length_le
  · simp [inversePerm_length, hpl]
  · intro x hx
    unfold inversePerm at hx
    simp only [List.mem_map, List.mem_range] at hx
    obtain ⟨m, hm, rfl⟩ := hx
    simp only [List.mem_range]
    exact (perm_getD_indexOf hperm (by omega)).1

theorem permuteShape_length (s : Shape) (perm : List Nat) :
    (permuteShape s perm).length = perm.length := by
  simp [permuteShape]

theorem permuteShape_getD (s : Shape) (perm : List Nat) {k : Nat} (hk : k < perm.length) :
    (permuteShape s perm).getD k 0 = s.getD (perm.getD k 0) 0 := by
  unfold permuteShape
  rw [List.getD_eq_getElem _ _ (by simpa using hk), List.getD_eq_getElem _ _ hk]
  simp

theorem permuteShape_inverse (s : Shape) (perm : List Nat)
    (hperm : perm.Perm (List.range s.length)) :
    permuteShape (permuteShape s perm) (inversePerm perm) = s := by
  have hpl : perm.length = s.length := by simpa using hperm.length_eq
  apply List.ext_getElem
  · simp [permuteShape_length, inversePerm_length, hpl]
  · intro k h1 h2
    have e1 := permuteShape_getD (permuteShape s perm) (inversePerm perm)
      (k := k) (by rw [inversePerm_length]; omega)
    rw [inversePerm_getD hperm h2,
      permuteShape_getD s perm (by rw [hpl]; exact (perm_getD_indexOf hperm h2).1),
      (perm_getD_indexOf hperm h2).2, List.getD_eq_getElem _ _ h1,
      List.getD_eq_getElem _ _ h2] at e1
    exact e1


theorem Transpose_Execute_eq {T : Type} [Inhabited T] (src dst : List T) (s : Shape)
    (perm : List Nat) :
    Transpose.Execute src dst s perm = (Status.ok, (List.range dst.length).map (fun n =>
      src.getD (Transpose.srcIndex (Transpose.strides s perm).1 (Transpose.strides s perm).2
        perm s.length n) default)) := by
  unfold Transpose.Execute
  simp only []
  rw [foldl_set_range_full]

theorem inBox_of_perm (s : Shape) (perm : List Nat) (hperm : perm.Perm (List.range s.length))
    (j i : List Nat) (hj : InBox j (permuteShape s perm)) (hi : i.length = s.length)
    (hij : ∀ k, k < s.length → i.getD (perm.getD k 0) 0 = j.getD k 0) : InBox i s := by
  have hpl : perm.length = s.length := by simpa using hperm.length_eq
  rw [inBox_iff_getD] at hj ⊢
  refine ⟨hi, fun m hm => ?_⟩
  obtain ⟨hk, hkm⟩ := perm_getD_indexOf hperm hm
  have h1 := hj.2 (perm.indexOf m) (by rw [permuteShape_length, hpl]; exact hk)
  rw [permuteShape_getD s perm (by omega), ← hij _ hk, hkm] at h1
  exact h1

/-- C9. After `Transpose::Execute` on a source of shape `s` with a permutation `perm` of
the axes, the destination read as a row-major array of shape `d[k] = s[perm[k]]` holds at
every multi-index `j` the source element at the multi-index `i` with `i[perm[k]] = j[k]`;
the source read is in bounds and the call succeeds. -/
theorem Transpose_Execute_permutes_axes {T : Type} [Inhabited T] (src dst : List T)
    (s : Shape) (perm : List Nat) (hperm : perm.Perm (List.range s.length))
    (hsrc : src.length = s.prod) (hdst : dst.length = s.prod)
    (j i : List Nat) (hj : InBox j (permuteShape s perm)) (hi : i.length = s.length)
    (hij : ∀ k, k < s.length → i.getD (perm.getD k 0) 0 = j.getD k 0) :
    (Transpose.Execute src dst s perm).1 = Status.ok ∧
    flatIndex s i < src.length ∧
    (Transpose.Execute src dst s perm).2[flatIndex (permuteShape s perm) j]?
      = src[flatIndex s i]? := by
  have hib := inBox_of_perm s perm hperm j i hj hi hij
  have hlt : flatIndex (permuteShape s perm) j < dst.length := by
    rw [hdst, ← permuteShape_prod s perm hperm]; exact flatIndex_lt hj
  have hlt2 : flatIndex s i < src.length := by rw [hsrc]; exact flatIndex_lt hib
  rw [Transpose_Execute_eq]
  refine ⟨rfl, hlt2, ?_⟩
  simp only [List.getElem?_map, List.getElem?_range hlt, Option.map_some']
  rw [Transpose_srcIndex_flat s perm hperm j i hj hi hij, List.getD_eq_getElem _ _ hlt2,
    List.getElem?_eq_getElem hlt2]

theorem Transpose_srcIndex_roundtrip (s : Shape) (perm : List Nat)
    (hperm : perm.Perm (List.range s.length)) (n : Nat) (hn : n < s.prod) :
    let d := permuteShape s perm
    let inv := inversePerm perm
    let m := Transpose.srcIndex (Transpose.strides d inv).1 (Transpose.strides d inv).2 inv
      d.length n
    m < s.prod ∧
    Transpose.srcIndex (Transpose.strides s perm).1 (Transpose.strides s perm).2 perm
      s.length m = n := by
  intro d inv m
  have hpl : perm.length = s.length := by simpa using hperm.length_eq
  have hdl : d.length = s.length := by rw [permuteShape_length, hpl]
  have hinv : inv.Perm (List.range d.length) := by rw [hdl]; exact inversePerm_perm hperm
  obtain ⟨ha, hfa⟩ := unflatIndex_spec s n hn
  have hds : permuteShape d inv = s := permuteShape_inverse s perm hperm
  have hal : (unflatIndex s n).length = s.length := ha.length_eq
  -- the multi-index of the intermediate buffer
  let b := perm.map (fun p => (unflatIndex s n).getD p 0)
  have hbl : b.length = d.length := by simp [b, hdl, hpl]
  have hbk : ∀ k, k < s.length → b.getD k 0 = (unflatIndex s n).getD (perm.getD k 0) 0 := by
    intro k hk
    simp only [b]
    rw [List.getD_eq_getElem _ _ (by simpa [hpl] using hk)]
    simp [List.getElem?_eq_getElem (show k < perm.length by omega)]
  have hb : InBox b d := by
    rw [inBox_iff_getD]
    refine ⟨hbl, fun k hk => ?_⟩
    rw [hdl] at hk
    rw [hbk k hk, permuteShape_getD s perm (by omega)]
    exact ((inBox_iff_getD _ _).1 ha).2 _ (perm_getD_lt hperm hk)
  have h2 : m = flatIndex d b := by
    have := Transpose_srcIndex_flat d inv hinv (unflatIndex s n) b (by rw [hds]; exact ha) hbl
      (by
        intro k hk
        rw [hdl] at hk
        rw [inversePerm_getD hperm hk, hbk _ (perm_getD_indexOf hperm hk).1,
          (perm_getD_indexOf hperm hk).2])
    rw [hds, hfa] at this
    exact this
  have h1 := Transpose_srcIndex_flat s perm hperm b (unflatIndex s n) hb hal
    (fun k hk => (hbk k hk).symm)
  refine ⟨?_, ?_⟩
  · rw [h2, ← permuteShape_prod s perm hperm]; exact flatIndex_lt hb
  · rw [h2, h1, hfa]

/-- C1. Transposing a buffer of shape `s` by a permutation `perm` of the axes and then
transposing the result, of shape `d[k] = s[perm[k]]`, by the inverse permutation gives
back the buffer element for element. Proved for every rank, hence for every rank `≤ 4`. -/
theorem Transpose_Execute_inverse_roundtrip {T : Type} [Inhabited T] (X dst1 dst2 : List T)
    (s : Shape) (perm : List Nat) (hperm : perm.Perm (List.range s.length))
    (hX : X.length = s.prod) (h1 : dst1.length = s.prod) (h2 : dst2.length = s.prod) :
    (Transpose.Execute (Transpose.Execute X dst1 s perm).2 dst2 (permuteShape s perm)
      (inversePerm perm)).2 = X := by
  rw [Transpose_Execute_eq, Transpose_Execute_eq]
  apply List.ext_getElem
  · simp [h2, hX]
  · intro n hn1 hn2
    have hn : n < s.prod := by omega
    obtain ⟨hm, hr⟩ := Transpose_srcIndex_roundtrip s perm hperm n hn
    simp only [List.getElem_map, List.getElem_range]
    rw [List.getD_eq_getElem _ _ (by simpa [h1] using hm)]
    simp only [List.getElem_map, List.getElem_range]
    rw [hr, List.getD_eq_getElem _ _ hn2]


/-! ### Tile -/

theorem Tile_strides_eq (s d : Shape) (hlen : s.length = d.length) :
    Tile.strides s d = (rowStrides s, rowStrides d) := by
  unfold Tile.strides
  have h := strides_loop (fun m => s.getD m 0) (fun m => d.getD m 0) d.length 0
  simp only [Nat.zero_add, List.replicate_zero, List.nil_append] at h
  simp only [List.range_eq_range']
  rw [h, map_getD_range, ← hlen, map_getD_range]

theorem tile_loop : ∀ {J D : List Nat}, InBox J D → ∀ (S W : List Nat), S.length = D.length →
    W.length = D.length → ∀ acc : Nat,
    (List.zip (rowStrides D) (List.zip S W)).foldl
      (fun (st : Nat × Nat) (p : Nat × Nat × Nat) =>
        (st.1 % p.1, st.2 + st.1 / p.1 % p.2.1 * p.2.2))
      (flatIndex D J, acc) = (0, acc + dot (List.zipWith (fun x y => x % y) J S) W) := by
  intro J D h
  induction h with
  | nil => intro S W _ _ acc; simp [rowStrides, flatIndex, dot]
  | @cons i d is ds hid hbox ih =>
    intro S W hS hW acc
    cases W with
    | nil => simp at hW
    | cons w ws =>
      cases S with
      | nil => simp at hS
      | cons x xs =>
        have hf := flatIndex_lt hbox
        have hpos : 0 < ds.prod := by omega
        have hq : (i * ds.prod + flatIndex ds is) / ds.prod = i := by
          rw [Nat.add_comm, Nat.add_mul_div_right _ _ hpos, Nat.div_eq_of_lt hf]; simp
        have hm : (i * ds.prod + flatIndex ds is) % ds.prod = flatIndex ds is := by
          rw [Nat.add_comm, Nat.add_mul_mod_self_right, Nat.mod_eq_of_lt hf]
        simp only [rowStrides, flatIndex, List.zip_cons_cons, List.foldl_cons, hq, hm]
        rw [ih xs ws (by simpa using hS) (by simpa using hW)]
        simp [dot, Nat.add_assoc]

theorem map_range_zip3 (a b c : List Nat) (r : Nat) (ha : a.length = r) (hb : b.length = r)
    (hc : c.length = r) :
    (List.range r).map (fun k => (a.getD k 0, b.getD k 0, c.getD k 0))
      = a.zip (b.zip c) := by
  apply List.ext_getElem
  · simp [ha, hb, hc]
  · intro i h1 h2
    simp at h1
    simp [List.getElem?_eq_getElem (show i < a.length by omega),
      List.getElem?_eq_getElem (show i < b.length by omega),
      List.getElem?_eq_getElem (show i < c.length by omega)]

theorem Tile_srcIndex_flat (s d : Shape) (hlen : s.length = d.length) (j : List Nat)
    (hj : InBox j d) :
    Tile.srcIndex (Tile.strides s d).1 (Tile.strides s d).2 s d.length (flatIndex d j)
      = flatIndex s (List.zipWith (fun x y => x % y) j s) := by
  rw [Tile_strides_eq s d hlen]
  unfold Tile.srcIndex
  have h := tile_loop hj s (rowStrides s) hlen (by rw [rowStrides_length, hlen]) 0
  rw [← map_range_zip3 (rowStrides d) s (rowStrides s) d.length (rowStrides_length d) hlen
    (by rw [rowStrides_length, hlen]), List.foldl_map] at h
  simp only [Nat.zero_add] at h
  rw [flatIndex_eq_dot s]
  exact congrArg Prod.snd h

theorem inBox_mod (j s : List Nat) (hlen : j.length = s.length) (hs : ∀ x ∈ s, 1 ≤ x) :
    InBox (List.zipWith (fun x y => x % y) j s) s := by
  induction j generalizing s with
  | nil =>
    cases s with
    | nil => exact List.Forall₂.nil
    | cons x xs => simp at hlen
  | cons i is ih =>
    cases s with
    | nil => simp at hlen
    | cons x xs =>
      simp only [List.zipWith_cons_cons]
      refine List.Forall₂.cons (Nat.mod_lt _ (hs x (by simp))) (ih xs (by simpa using hlen) ?_)
      intro y hy
      exact hs y (by simp [hy])

theorem Tile_Execute_eq {T : Type} [Inhabited T] (src dst : List T) (s d : Shape) :
    Tile.Execute src dst s d = (Status.ok, (List.range dst.length).map (fun n =>
      src.getD (Tile.srcIndex (Tile.strides s d).1 (Tile.strides s d).2 s d.length n)
        default)) := by
  unfold Tile.Execute
  simp only []
  rw [foldl_set_range_full]

/-- C10. After `Tile::Execute` with a source shape `s` whose sizes are all `≥ 1` and a
destination shape `d` of the same rank, the destination element at the row-major
multi-index `j` is the source element at the multi-index with coordinates `j[i] mod s[i]`;
the source read is in bounds and the call succeeds. In particular the source `[1,2]` of
shape `[2]` tiled into the shape `[4]` gives `[1,2,1,2]`. -/
theorem Tile_Execute_mod {T : Type} [Inhabited T] (src dst : List T) (s d : Shape)
    (hs : ∀ x ∈ s, 1 ≤ x) (hlen : s.length = d.length)
    (hsrc : src.length = s.prod) (hdst : dst.length = d.prod)
    (j : List Nat) (hj : InBox j d) :
    ((Tile.Execute src dst s d).1 = Status.ok ∧
     flatIndex s (List.zipWith (fun x y => x % y) j s) < src.length ∧
     (Tile.Execute src dst s d).2[flatIndex d j]?
       = src[flatIndex s (List.zipWith (fun x y => x % y) j s)]?) ∧
    (∀ a b c e : Int, Tile.Execute [1, 2] [a, b, c, e] [2] [4] = (Status.ok, [1, 2, 1, 2])) := by
  have hlt : flatIndex d j < dst.length := by rw [hdst]; exact flatIndex_lt hj
  have hlt2 : flatIndex s (List.zipWith (fun x y => x % y) j s) < src.length := by
    rw [hsrc]; exact flatIndex_lt (inBox_mod j s (by rw [hj.length_eq, hlen]) hs)
  refine ⟨?_, fun a b c e => by
    simp [Tile.Execute, Tile.strides, Tile.srcIndex, List.range, List.range.loop]⟩
  rw [Tile_Execute_eq]
  refine ⟨rfl, hlt2, ?_⟩
  simp only [List.getElem?_map, List.getElem?_range hlt, Option.map_some']
  rw [Tile_srcIndex_flat s d hlen j hj, List.getD_eq_getElem _ _ hlt2,
    List.getElem?_eq_getElem hlt2]


/-! ### Copy -/

theorem memcpy_length (dst src : List UInt8) (o so len : Nat) :
    (memcpy dst o src so len).length = dst.length := by
  unfold memcpy
  induction len with
  | zero => simp
  | succ n ih => rw [List.range_succ, List.foldl_append]; simpa using ih

theorem memcpy_succ (dst src : List UInt8) (o so n : Nat) :
    memcpy dst o src so (n + 1)
      = (memcpy dst o src so n).set (o + n) (src.getD (so + n) default) := by
  unfold memcpy
  rw [List.range_succ, List.foldl_append]
  rfl

theorem getD_set_eq {α : Type} (l : List α) (i : Nat) (a d : α) (h : i < l.length) :
    (l.set i a).getD i d = a := by
  rw [List.getD_eq_getElem _ _ (by simpa using h)]
  simp

theorem getD_set_ne {α : Type} (l : List α) (i j : Nat) (a d : α) (h : i ≠ j) :
    (l.set i a).getD j d = l.getD j d := by
  simp [List.getD_eq_getElem?_getD, List.getElem?_set_ne h]

theorem memcpy_getD_out (dst src : List UInt8) (o so len p : Nat)
    (hp : p < o ∨ o + len ≤ p) :
    (memcpy dst o src so len).getD p default = dst.getD p default := by
  induction len with
  | zero => simp [memcpy]
  | succ n ih =>
    rw [memcpy_succ, getD_set_ne _ _ _ _ _ (by omega), ih (by omega)]

theorem memcpy_getD_in (dst src : List UInt8) (o so len t : Nat) (ht : t < len)
    (hlen : o + len ≤ dst.length) :
    (memcpy dst o src so len).getD (o + t) default = src.getD (so + t) default := by
  induction len with
  | zero => omega
  | succ n ih =>
    rw [memcpy_succ]
    by_cases h : t = n
    · subst h
      rw [getD_set_eq _ _ _ _ (by rw [memcpy_length]; omega)]
    · rw [getD_set_ne _ _ _ _ _ (by omega), ih (by omega) (by omega)]

theorem copyStrides_loop (A : Nat → Nat) (e : Nat) (j : Nat) : ∀ k,
    (List.range' k j).reverse.foldl
      (fun (st : List Nat) i => st.set i (st.getD (i + 1) 0 * A (i + 1)))
      ((List.replicate (k + j + 1) 0).set (k + j) e)
    = List.replicate k 0 ++ byteStrides e ((List.range' k (j + 1)).map A) := by
  induction j with
  | zero =>
    intro k
    have := set_replicate_succ_append k e []
    simp only [List.append_nil] at this
    simp [byteStrides, rowStrides, this]
  | succ j ih =>
    intro k
    have h := ih (k + 1)
    rw [show k + 1 + j + 1 = k + (j + 1) + 1 by omega, show k + 1 + j = k + (j + 1) by omega] at h
    rw [List.range'_succ k (j + 1), List.range'_succ k j, List.reverse_cons, List.foldl_append, h]
    simp only [List.foldl_cons, List.foldl_nil]
    rw [List.range'_succ (k + 1) j]
    simp only [List.map_cons, byteStrides, rowStrides, List.prod_cons]
    rw [set_replicate_succ_append]
    have hg : (List.replicate (k + 1) 0 ++
        (e * ((List.range' (k + 1 + 1) j).map A).prod) ::
          List.map (fun x => e * x) (rowStrides ((List.range' (k + 1 + 1) j).map A))).getD
          (k + 1) 0 = e * ((List.range' (k + 1 + 1) j).map A).prod := by
      rw [List.getD_eq_getElem?_getD, List.getElem?_append_right (by simp)]
      simp
    rw [hg]
    simp only [List.cons.injEq, List.append_cancel_left_eq, and_true]
    ring

theorem ComputeCopyStrides_eq (shape : Shape) (e : Nat) (h : shape ≠ []) :
    impl.ComputeCopyStrides shape e = byteStrides e shape := by
  unfold impl.ComputeCopyStrides
  have hne : shape.isEmpty = false := by cases shape <;> simp_all
  have hpos : 0 < shape.length := List.length_pos.2 h
  simp only [hne, Bool.false_eq_true, if_false]
  have hl := copyStrides_loop (fun m => shape.getD m 0) e (shape.length - 1) 0
  simp only [Nat.zero_add, List.replicate_zero, List.nil_append] at hl
  rw [show shape.length - 1 + 1 = shape.length by omega, map_getD_range] at hl
  rw [List.range_eq_range']
  exact hl


theorem block_unique (M a c r r' : Nat) (hr : r < M) (hr' : r' < M)
    (h : M * a + r = M * c + r') : a = c := by
  rcases Nat.lt_trichotomy a c with hlt | heq | hgt
  · have := Nat.mul_le_mul_left M (show a + 1 ≤ c from hlt)
    rw [Nat.mul_add, Nat.mul_one] at this
    omega
  · exact heq
  · have := Nat.mul_le_mul_left M (show c + 1 ≤ a from hgt)
    rw [Nat.mul_add, Nat.mul_one] at this
    omega

theorem inBox_add : ∀ {k L : List Nat}, InBox k L → ∀ (idx shape : List Nat),
    idx.length = L.length →
    List.Forall₂ (fun a d => a ≤ d) (List.zipWith (fun x y => x + y) idx L) shape →
    InBox (List.zipWith (fun x y => x + y) idx k) shape := by
  intro k L h
  induction h with
  | nil =>
    intro idx shape hl hf
    cases idx with
    | nil => simpa [InBox] using hf
    | cons a as => simp at hl
  | @cons k0 l0 ks ls hk _ ih =>
    intro idx shape hl hf
    cases idx with
    | nil => simp at hl
    | cons a as =>
      simp only [List.zipWith_cons_cons] at hf ⊢
      cases hf with
      | cons h0 hrest =>
        exact List.Forall₂.cons (by omega) (ih as _ (by simpa using hl) hrest)

theorem regionOffset_lt (e : Nat) {k L : List Nat} (hk : InBox k L) (idx shape : List Nat)
    (hl : idx.length = L.length)
    (hf : List.Forall₂ (fun a d => a ≤ d) (List.zipWith (fun x y => x + y) idx L) shape)
    (b : Nat) (hb : b < e) : regionOffset e shape idx k b < e * shape.prod := by
  have h := flatIndex_lt (inBox_add hk idx shape hl hf)
  unfold regionOffset
  calc e * flatIndex shape (List.zipWith (fun x y => x + y) idx k) + b
      < e * flatIndex shape (List.zipWith (fun x y => x + y) idx k) + e := by omega
    _ = e * (flatIndex shape (List.zipWith (fun x y => x + y) idx k) + 1) := by ring
    _ ≤ e * shape.prod := Nat.mul_le_mul_left e h

theorem regionOffset_cons (e d0 j0 k0 b : Nat) (ds di k : List Nat) :
    regionOffset e (d0 :: ds) (j0 :: di) (k0 :: k) b
      = e * ds.prod * (j0 + k0) + regionOffset e ds di k b := by
  simp only [regionOffset, List.zipWith_cons_cons, flatIndex]
  ring

theorem byteStrides_cons (e d : Nat) (ds : List Nat) :
    byteStrides e (d :: ds) = e * ds.prod :: byteStrides e ds := by
  simp [byteStrides, rowStrides]

theorem CopyRegion_cons_cons (src : List UInt8) (sb : Nat) (sstr si : List Nat)
    (dst : List UInt8) (db : Nat) (dstr di : List Nat) (l0 l1 : Nat) (ls : List Nat) :
    impl.CopyRegion src sb sstr si dst db dstr di (l0 :: l1 :: ls)
      = (List.range l0).foldl
          (fun dst i =>
            impl.CopyRegion src (sb + sstr.getD 0 0 * (si.getD 0 0 + i)) sstr.tail si.tail dst
              (db + dstr.getD 0 0 * (di.getD 0 0 + i)) dstr.tail di.tail (l1 :: ls))
          dst := by
  rw [impl.CopyRegion]

theorem CopyRegion_single (src : List UInt8) (sb : Nat) (sstr si : List Nat)
    (dst : List UInt8) (db : Nat) (dstr di : List Nat) (l0 : Nat) :
    impl.CopyRegion src sb sstr si dst db dstr di [l0]
      = memcpy dst (db + di.getD 0 0 * dstr.getD 0 0) src (sb + si.getD 0 0 * sstr.getD 0 0)
          (dstr.getD 0 0 * l0) := by
  rw [impl.CopyRegion]
  · rfl
  · intro a b c h; simp at h


theorem inBox_single (k : List Nat) (l0 : Nat) : InBox k [l0] ↔ ∃ k0, k = [k0] ∧ k0 < l0 := by
  unfold InBox
  constructor
  · intro h
    cases h with
    | cons h0 hr =>
      cases hr
      exact ⟨_, rfl, h0⟩
  · rintro ⟨k0, rfl, h⟩
    exact List.Forall₂.cons h List.Forall₂.nil

theorem inBox_cons_iff (k : List Nat) (l0 : Nat) (L : List Nat) :
    InBox k (l0 :: L) ↔ ∃ k0 k', k = k0 :: k' ∧ k0 < l0 ∧ InBox k' L := by
  unfold InBox
  constructor
  · intro h
    cases h with
    | cons h0 hr => exact ⟨_, _, rfl, h0, hr⟩
  · rintro ⟨k0, k', rfl, h, h'⟩
    exact List.Forall₂.cons h h'

theorem CopyRegion_spec_base (e : Nat) (src : List UInt8) (l0 i0 j0 s0 d0 : Nat)
    (hd : j0 + l0 ≤ d0) (sb : Nat) (dst : List UInt8) (db : Nat)
    (hdb : db + e * [d0].prod ≤ dst.length) :
    CopyRegionSpec e src sb [s0] [i0] dst db [d0] [j0] [l0]
      (impl.CopyRegion src sb (byteStrides e [s0]) [i0] dst db (byteStrides e [d0]) [j0] [l0]) := by
  rw [CopyRegion_single]
  simp only [byteStrides, rowStrides, List.prod_nil, List.map_cons, List.map_nil, Nat.mul_one,
    List.getD_cons_zero, List.prod_cons] at hdb ⊢
  have hle : e * (j0 + l0) ≤ e * d0 := Nat.mul_le_mul_left e hd
  have hoff : ∀ k0 b, regionOffset e [d0] [j0] [k0] b = j0 * e + (e * k0 + b) := by
    intro k0 b
    simp only [regionOffset, List.zipWith_cons_cons, List.zipWith_nil_right, flatIndex,
      List.prod_nil]
    ring
  have hoffs : ∀ k0 b, regionOffset e [s0] [i0] [k0] b = i0 * e + (e * k0 + b) := by
    intro k0 b
    simp only [regionOffset, List.zipWith_cons_cons, List.zipWith_nil_right, flatIndex,
      List.prod_nil]
    ring
  have hin : db + j0 * e + e * l0 ≤ dst.length := by
    have : e * (j0 + l0) = j0 * e + e * l0 := by ring
    omega
  refine ⟨memcpy_length _ _ _ _ _, ?_, ?_⟩
  · intro p hp
    apply memcpy_getD_out
    by_contra hcon
    push_neg at hcon
    apply hp
    have hepos : 0 < e := by
      rcases Nat.eq_zero_or_pos e with h | h
      · subst h; omega
      · exact h
    refine ⟨[(p - (db + j0 * e)) / e], (p - (db + j0 * e)) % e, ?_, Nat.mod_lt _ hepos, ?_⟩
    · rw [inBox_single]
      refine ⟨_, rfl, ?_⟩
      rw [Nat.div_lt_iff_lt_mul hepos, Nat.mul_comm l0 e]
      omega
    · rw [hoff, Nat.div_add_mod]
      omega
  · intro k b hk hb
    rw [inBox_single] at hk
    obtain ⟨k0, rfl, hk0⟩ := hk
    rw [hoff, hoffs, ← Nat.add_assoc, ← Nat.add_assoc sb]
    apply memcpy_getD_in _ _ _ _ _ _ _ hin
    calc e * k0 + b < e * k0 + e := by omega
      _ = e * (k0 + 1) := by ring
      _ ≤ e * l0 := Nat.mul_le_mul_left e hk0


theorem CopyRegion_spec (e : Nat) (src : List UInt8) : ∀ (L ss si ds di : List Nat), L ≠ [] →
    si.length = L.length → di.length = L.length →
    List.Forall₂ (fun a d => a ≤ d) (List.zipWith (fun x y => x + y) si L) ss →
    List.Forall₂ (fun a d => a ≤ d) (List.zipWith (fun x y => x + y) di L) ds →
    ∀ (sb : Nat) (dst : List UInt8) (db : Nat), db + e * ds.prod ≤ dst.length →
    CopyRegionSpec e src sb ss si dst db ds di L
      (impl.CopyRegion src sb (byteStrides e ss) si dst db (byteStrides e ds) di L) := by
  intro L
  induction L with
  | nil => intro _ _ _ _ h; exact absurd rfl h
  | cons l0 L' ih =>
    intro ss si ds di _ hsi hdi hs hd sb dst db hdb
    obtain ⟨i0, si', rfl⟩ : ∃ i0 si', si = i0 :: si' := by
      cases si with
      | nil => simp at hsi
      | cons a as => exact ⟨a, as, rfl⟩
    obtain ⟨j0, di', rfl⟩ : ∃ j0 di', di = j0 :: di' := by
      cases di with
      | nil => simp at hdi
      | cons a as => exact ⟨a, as, rfl⟩
    simp only [List.zipWith_cons_cons] at hs hd
    simp only [List.length_cons, Nat.add_right_cancel_iff] at hsi hdi
    cases hs with
    | @cons _ s0 _ ss' hs0 hs' =>
    cases hd with
    | @cons _ d0 _ ds' hd0 hd' =>
    cases L' with
    | nil =>
      have e1 : si' = [] := List.length_eq_zero.1 hsi
      have e2 : di' = [] := List.length_eq_zero.1 hdi
      subst e1 e2
      simp only [List.zipWith_nil_left] at hs' hd'
      cases hs'
      cases hd'
      exact CopyRegion_spec_base e src l0 i0 j0 s0 d0 hd0 sb dst db hdb
    | cons l1 ls =>
      rw [CopyRegion_cons_cons]
      simp only [byteStrides_cons, List.getD_cons_zero, List.tail_cons]
      have hblk : ∀ t, t < l0 → db + e * ds'.prod * (j0 + t) + e * ds'.prod ≤ dst.length := by
        intro t ht
        have h1 : e * ds'.prod * (j0 + t + 1) ≤ e * ds'.prod * d0 :=
          Nat.mul_le_mul_left _ (by omega)
        have h2 : e * (d0 :: ds').prod = e * ds'.prod * d0 := by
          simp only [List.prod_cons]; ring
        have h3 : e * ds'.prod * (j0 + t + 1) = e * ds'.prod * (j0 + t) + e * ds'.prod := by ring
        omega
      have inv : ∀ t, t ≤ l0 →
          ((List.range t).foldl
            (fun dst i =>
              impl.CopyRegion src (sb + e * ss'.prod * (i0 + i)) (byteStrides e ss') si' dst
                (db + e * ds'.prod * (j0 + i)) (byteStrides e ds') di' (l1 :: ls)) dst).length
            = dst.length ∧
          (∀ p, (¬ ∃ k0 k' b, k0 < t ∧ InBox k' (l1 :: ls) ∧ b < e ∧
              p = db + regionOffset e (d0 :: ds') (j0 :: di') (k0 :: k') b) →
            ((List.range t).foldl
              (fun dst i =>
                impl.CopyRegion src (sb + e * ss'.prod * (i0 + i)) (byteStrides e ss') si' dst
                  (db + e * ds'.prod * (j0 + i)) (byteStrides e ds') di' (l1 :: ls)) dst).getD
              p default = dst.getD p default) ∧
          (∀ k0 k' b, k0 < t → InBox k' (l1 :: ls) → b < e →
            ((List.range t).foldl
              (fun dst i =>
                impl.CopyRegion src (sb + e * ss'.prod * (i0 + i)) (byteStrides e ss') si' dst
                  (db + e * ds'.prod * (j0 + i)) (byteStrides e ds') di' (l1 :: ls)) dst).getD
              (db + regionOffset e (d0 :: ds') (j0 :: di') (k0 :: k') b) default
            = src.getD (sb + regionOffset e (s0 :: ss') (i0 :: si') (k0 :: k') b) default) := by
        intro t
        induction t with
        | zero =>
          intro _
          refine ⟨rfl, fun p _ => rfl, fun k0 k' b h => absurd h (Nat.not_lt_zero _)⟩
        | succ t iht =>
          intro ht
          obtain ⟨ha, hb, hc⟩ := iht (by omega)
          rw [List.range_succ, List.foldl_append]
          simp only [List.foldl_cons, List.foldl_nil]
          generalize hcur : (List.range t).foldl
            (fun dst i =>
              impl.CopyRegion src (sb + e * ss'.prod * (i0 + i)) (byteStrides e ss') si' dst
                (db + e * ds'.prod * (j0 + i)) (byteStrides e ds') di' (l1 :: ls)) dst = cur
            at ha hb hc
          obtain ⟨ra, rb, rc⟩ := ih ss' si' ds' di' (by simp) hsi hdi hs' hd'
            (sb + e * ss'.prod * (i0 + t)) cur (db + e * ds'.prod * (j0 + t))
            (by rw [ha]; exact hblk t (by omega))
          refine ⟨by rw [ra, ha], ?_, ?_⟩
          · intro p hp
            rw [rb p, hb p]
            · rintro ⟨k0, k', b, hk0, hk', hb', rfl⟩
              exact hp ⟨k0, k', b, by omega, hk', hb', rfl⟩
            · rintro ⟨k', b, hk', hb', rfl⟩
              apply hp
              refine ⟨t, k', b, by omega, hk', hb', ?_⟩
              rw [regionOffset_cons]; omega
          · intro k0 k' b hk0 hk' hb'
            rw [regionOffset_cons, regionOffset_cons]
            by_cases hkt : k0 = t
            · subst hkt
              have := rc k' b hk' hb'
              rw [← Nat.add_assoc, ← Nat.add_assoc sb]
              exact this
            · have hlt : k0 < t := by omega
              rw [rb]
              · have := hc k0 k' b hlt hk' hb'
                rw [regionOffset_cons, regionOffset_cons] at this
                exact this
              · rintro ⟨k'', b'', hk'', hb'', heq⟩
                have r1 := regionOffset_lt e hk' di' ds' hdi hd' b hb'
                have r2 := regionOffset_lt e hk'' di' ds' hdi hd' b'' hb''
                apply hkt
                have := block_unique (e * ds'.prod) (j0 + k0) (j0 + t) _ _ r1 r2 (by omega)
                omega
      obtain ⟨ha, hb, hc⟩ := inv l0 le_rfl
      refine ⟨ha, ?_, ?_⟩
      · intro p hp
        apply hb
        rintro ⟨k0, k', b, hk0, hk', hb', rfl⟩
        exact hp ⟨k0 :: k', b, List.Forall₂.cons hk0 hk', hb', rfl⟩
      · intro k b hk hb'
        rw [inBox_cons_iff] at hk
        obtain ⟨k0, k', rfl, hk0, hk'⟩ := hk
        exact hc k0 k' b hk0 hk' hb'


theorem forall₂_length_of_zipWith {idx L shape : List Nat} (hl : idx.length = L.length)
    (hf : List.Forall₂ (fun a d => a ≤ d) (List.zipWith (fun x y => x + y) idx L) shape) :
    shape.length = L.length := by
  have := hf.length_eq
  simp only [List.length_zipWith, hl, Nat.min_self] at this
  exact this.symm

theorem Copy_Execute_spec (e : Nat) (src dst : List UInt8)
    (src_shape dst_shape src_indices dst_indices lengths : List Nat)
    (hr : 1 ≤ lengths.length)
    (hsi : src_indices.length = lengths.length) (hdi : dst_indices.length = lengths.length)
    (hs : List.Forall₂ (fun a d => a ≤ d)
      (List.zipWith (fun x y => x + y) src_indices lengths) src_shape)
    (hd : List.Forall₂ (fun a d => a ≤ d)
      (List.zipWith (fun x y => x + y) dst_indices lengths) dst_shape)
    (hdst : dst.length = e * dst_shape.prod) :
    CopyRegionSpec e src 0 src_shape src_indices dst 0 dst_shape dst_indices lengths
      (Copy.Execute e src src_shape src_indices dst dst_shape dst_indices lengths).2 := by
  have hne : lengths ≠ [] := by
    intro h; rw [h] at hr; simp at hr
  have hsl := forall₂_length_of_zipWith hsi hs
  have hdl := forall₂_length_of_zipWith hdi hd
  have hsne : src_shape ≠ [] := by
    intro h; rw [h] at hsl; simp at hsl; omega
  have hdne : dst_shape ≠ [] := by
    intro h; rw [h] at hdl; simp at hdl; omega
  unfold Copy.Execute
  simp only [ComputeCopyStrides_eq _ _ hsne, ComputeCopyStrides_eq _ _ hdne]
  exact CopyRegion_spec e src lengths src_shape src_indices dst_shape dst_indices hne hsi hdi
    hs hd 0 dst 0 (by omega)

/-- C2. For a region that fits both shapes (rank `r ≥ 1`, `src_indices[d] + lengths[d] ≤
src_shape[d]` and `dst_indices[d] + lengths[d] ≤ dst_shape[d]` on every axis), after
`Copy::Execute<e>` byte `b < e` of the destination element at the row-major multi-index
`dst_indices + k` is byte `b` of the source element at `src_indices + k`, for every offset
vector `k` below `lengths`; both accesses are in bounds and the call returns success. -/
theorem Copy_Execute_copies_region (e : Nat) (src dst : List UInt8)
    (src_shape dst_shape src_indices dst_indices lengths : List Nat)
    (hr : 1 ≤ lengths.length)
    (hsi : src_indices.length = lengths.length) (hdi : dst_indices.length = lengths.length)
    (hs : List.Forall₂ (fun a d => a ≤ d)
      (List.zipWith (fun x y => x + y) src_indices lengths) src_shape)
    (hd : List.Forall₂ (fun a d => a ≤ d)
      (List.zipWith (fun x y => x + y) dst_indices lengths) dst_shape)
    (hsrc : src.length = e * src_shape.prod) (hdst : dst.length = e * dst_shape.prod)
    (k : List Nat) (hk : InBox k lengths) (b : Nat) (hb : b < e) :
    (Copy.Execute e src src_shape src_indices dst dst_shape dst_indices lengths).1 = Status.ok ∧
    e * flatIndex src_shape (List.zipWith (fun x y => x + y) src_indices k) + b < src.length ∧
    (Copy.Execute e src src_shape src_indices dst dst_shape dst_indices lengths).2[
        e * flatIndex dst_shape (List.zipWith (fun x y => x + y) dst_indices k) + b]?
      = src[e * flatIndex src_shape (List.zipWith (fun x y => x + y) src_indices k) + b]? := by
  obtain ⟨hlen, _, hc⟩ := Copy_Execute_spec e src dst src_shape dst_shape src_indices
    dst_indices lengths hr hsi hdi hs hd hdst
  have h1 := regionOffset_lt e hk src_indices src_shape hsi hs b hb
  have h2 := regionOffset_lt e hk dst_indices dst_shape hdi hd b hb
  have h := hc k b hk hb
  simp only [regionOffset, Nat.zero_add] at h h1 h2
  refine ⟨rfl, by omega, ?_⟩
  rw [List.getD_eq_getElem _ _ (by omega), List.getD_eq_getElem _ _ (by omega)] at h
  rw [List.getElem?_eq_getElem (by omega), List.getElem?_eq_getElem (by omega), h]

theorem zipWith_add_replicate_zero : ∀ (k : List Nat),
    List.zipWith (fun x y => x + y) (List.replicate k.length 0) k = k := by
  intro k
  induction k with
  | nil => rfl
  | cons a as ih => simp [List.replicate_succ, ih]

theorem forall₂_le_refl : ∀ (l : List Nat), List.Forall₂ (fun a d => a ≤ d) l l := by
  intro l
  induction l with
  | nil => exact List.Forall₂.nil
  | cons a as ih => exact List.Forall₂.cons le_rfl ih

theorem Copy_Execute_full (e : Nat) (src dst : List UInt8) (shape : List Nat)
    (hr : 1 ≤ shape.length) (hsrc : src.length = e * shape.prod)
    (hdst : dst.length = e * shape.prod) :
    (Copy.Execute e src shape (List.replicate shape.length 0) dst shape
      (List.replicate shape.length 0) shape).2 = src := by
  have hz : List.Forall₂ (fun a d => a ≤ d)
      (List.zipWith (fun x y => x + y) (List.replicate shape.length 0) shape) shape := by
    rw [zipWith_add_replicate_zero]; exact forall₂_le_refl shape
  obtain ⟨hlen, _, hc⟩ := Copy_Execute_spec e src dst shape shape
    (List.replicate shape.length 0) (List.replicate shape.length 0) shape hr (by simp) (by simp)
    hz hz hdst
  apply List.ext_getElem
  · rw [hlen, hdst, hsrc]
  · intro p h1 h2
    have hp : p < e * shape.prod := by omega
    have hepos : 0 < e := by
      rcases Nat.eq_zero_or_pos e with h | h
      · subst h; omega
      · exact h
    have hq : p / e < shape.prod := by
      rw [Nat.div_lt_iff_lt_mul hepos, Nat.mul_comm]; exact hp
    obtain ⟨hbox, hflat⟩ := unflatIndex_spec shape (p / e) hq
    have h := hc (unflatIndex shape (p / e)) (p % e) hbox (Nat.mod_lt _ hepos)
    have hkl : (unflatIndex shape (p / e)).length = shape.length := hbox.length_eq
    have hz2 : List.zipWith (fun x y => x + y) (List.replicate shape.length 0)
        (unflatIndex shape (p / e)) = unflatIndex shape (p / e) := by
      rw [← hkl]; exact zipWith_add_replicate_zero _
    simp only [regionOffset, Nat.zero_add] at h
    rw [hz2, hflat, Nat.div_add_mod] at h
    rw [List.getD_eq_getElem _ _ h1, List.getD_eq_getElem _ _ h2] at h
    exact h

theorem Copy_Execute_rank0_eq (e : Nat) (src dst : List UInt8) :
    Copy.Execute e src [] [0] dst [] [0] [1] = Copy.Execute e src [1] [0] dst [1] [0] [1] := by
  rfl

/-- C3. For every shape, of any rank and so of every rank `≤ 6`, and buffers `A`, `B`,
`C` of `product(shape)` elements of `e` bytes each: copying the full-shape region from `A`
to `B` and then from `B` to `C` leaves `C` byte-identical to `A`. For a rank `≥ 1` the
start indices are the zero vector and the lengths are the shape. A shape of rank 0 has one
element; its full region is given, as the callers of `Copy` give it, by the start index
`[0]` and the length `[1]`, one entry for the single stride that
`impl::ComputeCopyStrides` computes for it. -/
theorem Copy_Execute_full_roundtrip (e : Nat) (A B C : List UInt8) (shape : List Nat)
    (hA : A.length = e * shape.prod) (hB : B.length = e * shape.prod)
    (hC : C.length = e * shape.prod) :
    (1 ≤ shape.length →
      (Copy.Execute e
        (Copy.Execute e A shape (List.replicate shape.length 0) B shape
          (List.replicate shape.length 0) shape).2
        shape (List.replicate shape.length 0) C shape (List.replicate shape.length 0) shape).2
        = A) ∧
    (shape = [] →
      (Copy.Execute e (Copy.Execute e A [] [0] B [] [0] [1]).2 [] [0] C [] [0] [1]).2 = A) := by
  constructor
  · intro hr
    rw [Copy_Execute_full e A B shape hr hA hB, Copy_Execute_full e A C shape hr hA hC]
  · intro hnil
    subst hnil
    have hA1 : A.length = e * ([1] : List Nat).prod := by simpa using hA
    have hB1 : B.length = e * ([1] : List Nat).prod := by simpa using hB
    have hC1 : C.length = e * ([1] : List Nat).prod := by simpa using hC
    have h1 := Copy_Execute_full e A B [1] (by decide) hA1 hB1
    have h2 := Copy_Execute_full e A C [1] (by decide) hA1 hC1
    simp only [List.length_cons, List.length_nil, Nat.zero_add, List.replicate_succ,
      List.replicate_zero] at h1 h2
    rw [Copy_Execute_rank0_eq e A B, h1, Copy_Execute_rank0_eq e A C, h2]


/-! ### Pad -/

theorem unflatIndex_length (d : Shape) : ∀ n, (unflatIndex d n).length = d.length := by
  induction d with
  | nil => intro n; rfl
  | cons d0 ds ih => intro n; simp [unflatIndex, ih]

theorem unflatIndex_snoc (ds : List Nat) (dx : Nat) : ∀ n, n < ds.prod * dx →
    unflatIndex (ds ++ [dx]) n = unflatIndex ds (n / dx) ++ [n % dx] := by
  induction ds with
  | nil =>
    intro n hn
    simp only [List.prod_nil, Nat.one_mul] at hn
    simp [unflatIndex, Nat.mod_eq_of_lt hn]
  | cons d0 ds ih =>
    intro n hn
    simp only [List.prod_cons] at hn
    have hpos : 0 < ds.prod * dx := by
      rcases Nat.eq_zero_or_pos (ds.prod * dx) with h | h
      · rw [Nat.mul_assoc, h] at hn; simp at hn
      · exact h
    have hp : (ds ++ [dx]).prod = ds.prod * dx := by simp
    rw [List.cons_append, unflatIndex, unflatIndex, hp, ih _ (Nat.mod_lt _ hpos),
      Nat.mod_mul_left_div_self, Nat.mod_mul_left_mod, Nat.div_div_eq_div_mul,
      Nat.mul_comm dx]
    rfl

theorem unflatIndex_zero (d : Shape) : unflatIndex d 0 = List.replicate d.length 0 := by
  induction d with
  | nil => rfl
  | cons d0 ds ih => simp [unflatIndex, ih, List.replicate_succ]

theorem incr_loop_append (ds ds2 : List Nat) (suf : List Int) : ∀ (i : Nat) (pre : List Int),
    i ≤ pre.length → i ≤ ds.length →
    impl.IncrementShapeIndex.loop (ds ++ ds2) i (pre ++ suf)
      = impl.IncrementShapeIndex.loop ds i pre ++ suf := by
  intro i
  induction i with
  | zero => intro pre _ _; rfl
  | succ i ih =>
    intro pre hp hd
    have hi : i < pre.length := hp
    have hid : i < ds.length := hd
    simp only [impl.IncrementShapeIndex.loop]
    have e1 : (pre ++ suf).getD i 0 = pre.getD i 0 := by
      simp [List.getD_eq_getElem?_getD, List.getElem?_append_left hi]
    have e2 : (ds ++ ds2).getD i 0 = ds.getD i 0 := by
      simp [List.getD_eq_getElem?_getD, List.getElem?_append_left hid]
    have e3 : ∀ v : Int, (pre ++ suf).set i v = pre.set i v ++ suf := by
      intro v; rw [List.set_append, if_pos hi]
    rw [e1, e2, e3, getD_set_eq _ _ _ _ hi]
    have e4 : ((pre.set i (pre.getD i 0 + 1)) ++ suf).getD i 0 = pre.getD i 0 + 1 := by
      rw [List.getD_eq_getElem?_getD, List.getElem?_append_left (by simpa using hi)]
      rw [← List.getD_eq_getElem?_getD, getD_set_eq _ _ _ _ hi]
    rw [e4]
    split
    · rfl
    · have e5 : (pre.set i (pre.getD i 0 + 1) ++ suf).set i 0
          = (pre.set i (pre.getD i 0 + 1)).set i 0 ++ suf := by
        rw [List.set_append, if_pos (by simpa using hi)]
      rw [e5, ih _ (by simp; omega) (by omega)]

theorem incr_loop_unflat (d : Shape) : ∀ n, n + 1 < d.prod →
    impl.IncrementShapeIndex.loop d d.length ((unflatIndex d n).map Int.ofNat)
      = (unflatIndex d (n + 1)).map Int.ofNat := by
  induction d using List.reverseRecOn with
  | nil => intro n h; simp at h
  | append_singleton ds dx ih =>
    intro n hn
    simp only [List.prod_append, List.prod_cons, List.prod_nil, Nat.mul_one] at hn
    have hdx : 0 < dx := by
      rcases Nat.eq_zero_or_pos dx with h | h
      · subst h; simp at hn
      · exact h
    have hlen : ((unflatIndex ds (n / dx)).map Int.ofNat).length = ds.length := by
      simp [unflatIndex_length]
    have hn1 : n < ds.prod * dx := by omega
    rw [unflatIndex_snoc ds dx n hn1, unflatIndex_snoc ds dx (n + 1) hn]
    simp only [List.length_append, List.length_cons, List.length_nil,
      Nat.zero_add, List.map_append, List.map_cons, List.map_nil, impl.IncrementShapeIndex.loop]
    have g1 : ((unflatIndex ds (n / dx)).map Int.ofNat ++ [Int.ofNat (n % dx)]).getD ds.length 0
        = Int.ofNat (n % dx) := by
      rw [List.getD_eq_getElem?_getD, List.getElem?_append_right (by omega), hlen]
      simp
    have g2 : (ds ++ [dx]).getD ds.length 0 = dx := by
      rw [List.getD_eq_getElem?_getD, List.getElem?_append_right (by omega)]
      simp
    have g3 : ∀ v : Int, ((unflatIndex ds (n / dx)).map Int.ofNat ++ [Int.ofNat (n % dx)]).set
        ds.length v = (unflatIndex ds (n / dx)).map Int.ofNat ++ [v] := by
      intro v
      rw [List.set_append, if_neg (by omega), hlen, Nat.sub_self]
      rfl
    rw [g1, g2, g3]
    have g4 : ((unflatIndex ds (n / dx)).map Int.ofNat ++ [Int.ofNat (n % dx) + 1]).getD
        ds.length 0 = Int.ofNat (n % dx) + 1 := by
      rw [List.getD_eq_getElem?_getD, List.getElem?_append_right (by omega), hlen]
      simp
    have g5 : ((unflatIndex ds (n / dx)).map Int.ofNat ++ [Int.ofNat (n % dx) + 1]).set
        ds.length 0 = (unflatIndex ds (n / dx)).map Int.ofNat ++ [0] := by
      rw [List.set_append, if_neg (by omega), hlen, Nat.sub_self]
      rfl
    rw [g4, g5]
    have hmod := Nat.mod_lt n hdx
    have hdm := Nat.div_add_mod n dx
    by_cases hc : n % dx + 1 < dx
    · have hlt : (Int.ofNat (n % dx) + 1 < (dx : Int)) := by
        simp only [Int.ofNat_eq_coe]; omega
      rw [if_pos hlt]
      obtain ⟨q1, q2⟩ := (Nat.div_mod_unique hdx (a := n + 1) (d := n / dx)
        (c := n % dx + 1)).2 ⟨by omega, hc⟩
      rw [q1, q2]
      simp
    · have hlt : ¬ (Int.ofNat (n % dx) + 1 < (dx : Int)) := by
        simp only [Int.ofNat_eq_coe]; omega
      rw [if_neg hlt]
      have hmul : dx * (n / dx + 1) = dx * (n / dx) + dx := by ring
      obtain ⟨q1, q2⟩ := (Nat.div_mod_unique hdx (a := n + 1) (d := n / dx + 1)
        (c := 0)).2 ⟨by omega, hdx⟩
      have hq : n / dx + 1 < ds.prod := by
        rw [← q1, Nat.div_lt_iff_lt_mul hdx]; exact hn
      rw [incr_loop_append ds [dx] [0] ds.length _ (by omega) le_rfl, ih _ hq, q1, q2]
      simp


theorem IsPadding_nil (d : Shape) (low high int : List Int) :
    impl.IsPadding [] d low high int = false := by
  simp [impl.IsPadding]

theorem IsPadding_cons (x : Int) (idx : List Int) (d0 : Nat) (d : Shape) (l h t : Int)
    (low high int : List Int) :
    impl.IsPadding (x :: idx) (d0 :: d) (l :: low) (h :: high) (t :: int)
      = (padAxis x d0 l h t || impl.IsPadding idx d low high int) := by
  simp only [impl.IsPadding, List.length_cons, List.range_succ_eq_map, List.any_cons,
    List.any_map, padAxis, List.getD_cons_zero]
  congr 1

theorem padAxis_eq_false_iff (x s0 l h t : Nat) :
    padAxis (x : Int) (l + h + s0 + max (s0 - 1) 0 * t) (l : Int) (h : Int) (t : Int) = false
      ↔ ∃ k0, k0 < s0 ∧ x = l + k0 * (t + 1) := by
  simp only [padAxis, Bool.or_eq_false_iff, decide_eq_false_iff_not, not_lt, ge_iff_le, not_le,
    not_not, Nat.max_zero]
  constructor
  · rintro ⟨⟨h1, h2⟩, h3⟩
    have hx : l ≤ x := by omega
    have e1 : (x : Int) - (l : Int) = ((x - l : Nat) : Int) := by omega
    have e2 : (t : Int) + 1 = ((t + 1 : Nat) : Int) := by omega
    rw [e1, e2, ← Int.ofNat_tmod] at h3
    have h3' : (x - l) % (t + 1) = 0 := by exact_mod_cast h3
    have hdm := Nat.div_add_mod (x - l) (t + 1)
    rw [h3', Nat.add_zero] at hdm
    refine ⟨(x - l) / (t + 1), ?_, ?_⟩
    · have h2' : x + h < l + h + s0 + (s0 - 1) * t := by
        have : ((x + h : Nat) : Int) < ((l + h + s0 + (s0 - 1) * t : Nat) : Int) := by
          push_cast
          push_cast at h2
          omega
        exact_mod_cast this
      rcases Nat.eq_zero_or_pos s0 with hs | hs
      · subst hs; simp at h2'; omega
      · obtain ⟨s1, rfl⟩ : ∃ s1, s0 = s1 + 1 := ⟨s0 - 1, by omega⟩
        simp only [Nat.add_sub_cancel] at h2'
        have h5 : (t + 1) * ((x - l) / (t + 1)) < (t + 1) * (s1 + 1) := by
          have : (t + 1) * (s1 + 1) = s1 * t + s1 + t + 1 := by ring
          omega
        exact Nat.lt_of_mul_lt_mul_left h5
    · rw [Nat.mul_comm]; omega
  · rintro ⟨k0, hk, rfl⟩
    obtain ⟨s1, rfl⟩ : ∃ s1, s0 = s1 + 1 := ⟨s0 - 1, by omega⟩
    simp only [Nat.add_sub_cancel]
    have hle : k0 * (t + 1) ≤ s1 * (t + 1) := Nat.mul_le_mul_right _ (by omega)
    have hexp : s1 * (t + 1) = s1 * t + s1 := by ring
    have hN : l + k0 * (t + 1) + h < l + h + (s1 + 1) + s1 * t := by omega
    refine ⟨⟨by exact_mod_cast Nat.le_add_right l _, ?_⟩, ?_⟩
    · have := Int.ofNat_lt.2 hN
      push_cast at this ⊢
      omega
    · have e1 : ((l + k0 * (t + 1) : Nat) : Int) - (l : Int) = ((k0 * (t + 1) : Nat) : Int) := by
        push_cast; omega
      have e2 : (t : Int) + 1 = ((t + 1 : Nat) : Int) := by omega
      rw [e1, e2, ← Int.ofNat_tmod]
      simp


theorem padIndex_axis_lt (s0 l h t k0 : Nat) (hk : k0 < s0) :
    l + k0 * (t + 1) + h < l + h + s0 + max (s0 - 1) 0 * t := by
  obtain ⟨s1, rfl⟩ : ∃ s1, s0 = s1 + 1 := ⟨s0 - 1, by omega⟩
  simp only [Nat.add_sub_cancel, Nat.max_zero]
  have hle : k0 * (t + 1) ≤ s1 * (t + 1) := Nat.mul_le_mul_right _ (by omega)
  have hexp : s1 * (t + 1) = s1 * t + s1 := by ring
  omega

theorem count_congr (p q : Nat → Prop) [DecidablePred p] [DecidablePred q] (n : Nat)
    (h : ∀ m, m < n → (p m ↔ q m)) : Nat.count p n = Nat.count q n := by
  induction n with
  | zero => simp
  | succ n ih =>
    rw [Nat.count_succ, Nat.count_succ, ih (fun m hm => h m (by omega))]
    simp only [h n (by omega)]

theorem count_false (n : Nat) : Nat.count (fun _ => False) n = 0 := by
  induction n with
  | zero => simp
  | succ n ih => rw [Nat.count_succ, ih]; simp

theorem count_axis (s0 l h t a : Nat) :
    Nat.count (fun x : Nat => padAxis (x : Int) (l + h + s0 + max (s0 - 1) 0 * t) (l : Int)
        (h : Int) (t : Int) = false) a
      = ((Finset.range s0).filter (fun k0 => l + k0 * (t + 1) < a)).card := by
  rw [Nat.count_eq_card_filter_range]
  symm
  apply Finset.card_bij (fun k0 _ => l + k0 * (t + 1))
  · intro k0 hk0
    simp only [Finset.mem_filter, Finset.mem_range] at hk0 ⊢
    exact ⟨hk0.2, (padAxis_eq_false_iff _ s0 l h t).2 ⟨k0, hk0.1, rfl⟩⟩
  · intro a1 _ a2 _ heq
    have : a1 * (t + 1) = a2 * (t + 1) := by omega
    exact Nat.eq_of_mul_eq_mul_right (by omega) this
  · intro x hx
    simp only [Finset.mem_filter, Finset.mem_range] at hx
    obtain ⟨k0, hk0, rfl⟩ := (padAxis_eq_false_iff x s0 l h t).1 hx.2
    exact ⟨k0, by simp only [Finset.mem_filter, Finset.mem_range]; exact ⟨hk0, hx.1⟩, rfl⟩

theorem count_axis_at (s0 l h t k : Nat) (hk : k ≤ s0) :
    Nat.count (fun x : Nat => padAxis (x : Int) (l + h + s0 + max (s0 - 1) 0 * t) (l : Int)
        (h : Int) (t : Int) = false) (l + k * (t + 1)) = k := by
  rw [count_axis]
  have : (Finset.range s0).filter (fun k0 => l + k0 * (t + 1) < l + k * (t + 1))
      = Finset.range k := by
    ext k0
    simp only [Finset.mem_filter, Finset.mem_range]
    constructor
    · rintro ⟨_, h2⟩
      have : k0 * (t + 1) < k * (t + 1) := by omega
      exact Nat.lt_of_mul_lt_mul_right this
    · intro h2
      have : k0 * (t + 1) < k * (t + 1) := Nat.mul_lt_mul_of_pos_right h2 (by omega)
      exact ⟨by omega, by omega⟩
  rw [this, Finset.card_range]

theorem count_axis_total (s0 l h t : Nat) :
    Nat.count (fun x : Nat => padAxis (x : Int) (l + h + s0 + max (s0 - 1) 0 * t) (l : Int)
        (h : Int) (t : Int) = false) (l + h + s0 + max (s0 - 1) 0 * t) = s0 := by
  rw [count_axis]
  have : (Finset.range s0).filter
      (fun k0 => l + k0 * (t + 1) < l + h + s0 + max (s0 - 1) 0 * t) = Finset.range s0 := by
    ext k0
    simp only [Finset.mem_filter, Finset.mem_range, and_iff_left_iff_imp]
    intro hk
    have := padIndex_axis_lt s0 l h t k0 hk
    omega
  rw [this, Finset.card_range]

theorem count_block (p q0 p' : Nat → Prop) [DecidablePred p] [DecidablePred q0]
    [DecidablePred p'] (P : Nat)
    (hp : ∀ a m', m' < P → (p (a * P + m') ↔ q0 a ∧ p' m')) :
    ∀ a f, f ≤ P → Nat.count p (a * P + f)
      = Nat.count q0 a * Nat.count p' P + (if q0 a then Nat.count p' f else 0) := by
  have hrow : ∀ a f, f ≤ P →
      Nat.count (fun m' => p (a * P + m')) f = if q0 a then Nat.count p' f else 0 := by
    intro a f hf
    by_cases hq : q0 a
    · rw [if_pos hq]
      exact count_congr _ _ f (fun m hm => by rw [hp a m (by omega)]; simp [hq])
    · rw [if_neg hq, ← count_false f]
      exact count_congr _ _ f (fun m hm => by rw [hp a m (by omega)]; simp [hq])
  have hG : ∀ a, Nat.count p (a * P) = Nat.count q0 a * Nat.count p' P := by
    intro a
    induction a with
    | zero => simp
    | succ a ih =>
      rw [Nat.succ_mul, Nat.count_add, ih, hrow a P le_rfl, Nat.count_succ]
      split <;> ring
  intro a f hf
  rw [Nat.count_add, hG, hrow a f hf]


theorem list_cons_of_length_succ {α : Type} {l : List α} {n : Nat} (h : l.length = n + 1) :
    ∃ a as, l = a :: as ∧ as.length = n := by
  cases l with
  | nil => simp at h
  | cons a as => exact ⟨a, as, rfl, by simpa using h⟩

theorem padShape_length : ∀ (s low high int : List Nat), low.length = s.length →
    high.length = s.length → int.length = s.length →
    (padShape s low high int).length = s.length := by
  intro s
  induction s with
  | nil => intro low high int _ _ _; simp [padShape]
  | cons s0 s' ih =>
    intro low high int hl hh hi
    obtain ⟨l, low', rfl, hl'⟩ := list_cons_of_length_succ hl
    obtain ⟨h, high', rfl, hh'⟩ := list_cons_of_length_succ hh
    obtain ⟨t, int', rfl, hi'⟩ := list_cons_of_length_succ hi
    simp [padShape, ih low' high' int' hl' hh' hi']

theorem IsPadding_eq_false_iff : ∀ (s low high int j : List Nat), low.length = s.length →
    high.length = s.length → int.length = s.length → j.length = s.length →
    (impl.IsPadding (j.map Int.ofNat) (padShape s low high int) (low.map Int.ofNat)
        (high.map Int.ofNat) (int.map Int.ofNat) = false
      ↔ ∃ k, InBox k s ∧ j = padIndex k low int) := by
  intro s
  induction s with
  | nil =>
    intro low high int j _ _ _ hj
    have : j = [] := List.length_eq_zero.1 hj
    subst this
    simp only [List.map_nil, IsPadding_nil, true_iff]
    exact ⟨[], List.Forall₂.nil, by simp [padIndex]⟩
  | cons s0 s' ih =>
    intro low high int j hl hh hi hj
    obtain ⟨l, low', rfl, hl'⟩ := list_cons_of_length_succ hl
    obtain ⟨h, high', rfl, hh'⟩ := list_cons_of_length_succ hh
    obtain ⟨t, int', rfl, hi'⟩ := list_cons_of_length_succ hi
    obtain ⟨x, j', rfl, hj'⟩ := list_cons_of_length_succ hj
    simp only [padShape, List.map_cons, IsPadding_cons, Bool.or_eq_false_iff, Int.ofNat_eq_coe]
    have h1 := padAxis_eq_false_iff x s0 l h t
    have h2 := ih low' high' int' j' hl' hh' hi' hj'
    simp only [Int.ofNat_eq_coe] at h2
    rw [h1, h2]
    constructor
    · rintro ⟨⟨k0, hk0, rfl⟩, ⟨k', hk', rfl⟩⟩
      exact ⟨k0 :: k', List.Forall₂.cons hk0 hk', by simp [padIndex]⟩
    · rintro ⟨k, hk, hjk⟩
      rw [inBox_cons_iff] at hk
      obtain ⟨k0, k', rfl, hk0, hk'⟩ := hk
      simp only [padIndex, List.cons.injEq] at hjk
      exact ⟨⟨k0, hk0, hjk.1⟩, ⟨k', hk', hjk.2⟩⟩

theorem inBox_padIndex : ∀ {k s : List Nat}, InBox k s → ∀ (low high int : List Nat),
    low.length = s.length → high.length = s.length → int.length = s.length →
    InBox (padIndex k low int) (padShape s low high int) := by
  intro k s hk
  induction hk with
  | nil => intro low high int _ _ _; simp [padIndex, padShape, InBox]
  | @cons k0 s0 k' s' hk0 _ ih =>
    intro low high int hl hh hi
    obtain ⟨l, low', rfl, hl'⟩ := list_cons_of_length_succ hl
    obtain ⟨h, high', rfl, hh'⟩ := list_cons_of_length_succ hh
    obtain ⟨t, int', rfl, hi'⟩ := list_cons_of_length_succ hi
    simp only [padIndex, padShape]
    have := padIndex_axis_lt s0 l h t k0 hk0
    exact List.Forall₂.cons (by omega) (ih low' high' int' hl' hh' hi')

theorem notPadding_cons (s0 l h t : Nat) (s' low' high' int' : List Nat) (a m' : Nat)
    (hm : m' < (padShape s' low' high' int').prod) :
    notPadding (s0 :: s') (l :: low') (h :: high') (t :: int')
        (a * (padShape s' low' high' int').prod + m')
      ↔ padAxis (a : Int) (l + h + s0 + max (s0 - 1) 0 * t) (l : Int) (h : Int) (t : Int) = false
        ∧ notPadding s' low' high' int' m' := by
  have hpos : 0 < (padShape s' low' high' int').prod := by omega
  have hq : (a * (padShape s' low' high' int').prod + m') / (padShape s' low' high' int').prod
      = a := by
    rw [Nat.add_comm, Nat.add_mul_div_right _ _ hpos, Nat.div_eq_of_lt hm]; simp
  have hr : (a * (padShape s' low' high' int').prod + m') % (padShape s' low' high' int').prod
      = m' := by
    rw [Nat.add_comm, Nat.add_mul_mod_self_right, Nat.mod_eq_of_lt hm]
  simp only [notPadding, padShape, unflatIndex, List.map_cons, IsPadding_cons,
    Bool.or_eq_false_iff, Int.ofNat_eq_coe, hq, hr]

theorem count_notPadding : ∀ (s low high int : List Nat), low.length = s.length →
    high.length = s.length → int.length = s.length →
    Nat.count (notPadding s low high int) (padShape s low high int).prod = s.prod ∧
    ∀ k, InBox k s →
      Nat.count (notPadding s low high int)
        (flatIndex (padShape s low high int) (padIndex k low int)) = flatIndex s k := by
  intro s
  induction s with
  | nil =>
    intro low high int hl hh hi
    have e1 : low = [] := List.length_eq_zero.1 hl
    have e2 : high = [] := List.length_eq_zero.1 hh
    have e3 : int = [] := List.length_eq_zero.1 hi
    subst e1 e2 e3
    refine ⟨?_, ?_⟩
    · decide
    · intro k hk
      cases hk
      simp [padIndex, flatIndex]
  | cons s0 s' ih =>
    intro low high int hl hh hi
    obtain ⟨l, low', rfl, hl'⟩ := list_cons_of_length_succ hl
    obtain ⟨h, high', rfl, hh'⟩ := list_cons_of_length_succ hh
    obtain ⟨t, int', rfl, hi'⟩ := list_cons_of_length_succ hi
    obtain ⟨iht, ihk⟩ := ih low' high' int' hl' hh' hi'
    have hblock := count_block
      (notPadding (s0 :: s') (l :: low') (h :: high') (t :: int'))
      (fun x : Nat => padAxis (x : Int) (l + h + s0 + max (s0 - 1) 0 * t) (l : Int)
        (h : Int) (t : Int) = false)
      (notPadding s' low' high' int') (padShape s' low' high' int').prod
      (fun a m' hm => notPadding_cons s0 l h t s' low' high' int' a m' hm)
    refine ⟨?_, ?_⟩
    · have := hblock (l + h + s0 + max (s0 - 1) 0 * t) 0 (Nat.zero_le _)
      simp only [Nat.add_zero, Nat.count_zero, ite_self] at this
      show Nat.count (notPadding (s0 :: s') (l :: low') (h :: high') (t :: int'))
          ((l + h + s0 + max (s0 - 1) 0 * t) * (padShape s' low' high' int').prod)
        = s0 * s'.prod
      rw [this, count_axis_total, iht]
    · intro k hk
      rw [inBox_cons_iff] at hk
      obtain ⟨k0, k', rfl, hk0, hk'⟩ := hk
      have hlt := flatIndex_lt (inBox_padIndex hk' low' high' int' hl' hh' hi')
      have := hblock (l + k0 * (t + 1))
        (flatIndex (padShape s' low' high' int') (padIndex k' low' int')) (by omega)
      show Nat.count (notPadding (s0 :: s') (l :: low') (h :: high') (t :: int'))
          ((l + k0 * (t + 1)) * (padShape s' low' high' int').prod
            + flatIndex (padShape s' low' high' int') (padIndex k' low' int'))
        = k0 * s'.prod + flatIndex s' k'
      rw [this, count_axis_at s0 l h t k0 (by omega), iht, ihk k' hk',
        if_pos ((padAxis_eq_false_iff _ s0 l h t).2 ⟨k0, hk0, rfl⟩)]


theorem Pad_loop {T : Type} [Inhabited T] (src : List T) (v : T) (s low high int : List Nat)
    (hl : low.length = s.length) (hh : high.length = s.length) (hi : int.length = s.length)
    (dst : List T) (hdst : dst.length = (padShape s low high int).prod) :
    ∀ n, n ≤ dst.length →
      ((List.range n).foldl
          (Pad.step src v (padShape s low high int) (low.map Int.ofNat) (high.map Int.ofNat)
            (int.map Int.ofNat))
          (0, List.replicate s.length 0, dst)).1 = Nat.count (notPadding s low high int) n ∧
      (n < dst.length →
        ((List.range n).foldl
          (Pad.step src v (padShape s low high int) (low.map Int.ofNat) (high.map Int.ofNat)
            (int.map Int.ofNat))
          (0, List.replicate s.length 0, dst)).2.1
          = (unflatIndex (padShape s low high int) n).map Int.ofNat) ∧
      ((List.range n).foldl
          (Pad.step src v (padShape s low high int) (low.map Int.ofNat) (high.map Int.ofNat)
            (int.map Int.ofNat))
          (0, List.replicate s.length 0, dst)).2.2.length = dst.length ∧
      ∀ m, m < n →
        ((List.range n).foldl
          (Pad.step src v (padShape s low high int) (low.map Int.ofNat) (high.map Int.ofNat)
            (int.map Int.ofNat))
          (0, List.replicate s.length 0, dst)).2.2.getD m default
          = if notPadding s low high int m
            then src.getD (Nat.count (notPadding s low high int) m) default else v := by
  intro n
  induction n with
  | zero =>
    intro _
    refine ⟨by simp, fun _ => ?_, rfl, fun m hm => absurd hm (Nat.not_lt_zero _)⟩
    simp only [List.range_zero, List.foldl_nil]
    rw [unflatIndex_zero, padShape_length s low high int hl hh hi]
    simp
  | succ n ih =>
    intro hn
    obtain ⟨h1, h2, h3, h4⟩ := ih (by omega)
    have h2' := h2 (by omega)
    rw [List.range_succ, List.foldl_append]
    simp only [List.foldl_cons, List.foldl_nil]
    generalize (List.range n).foldl
      (Pad.step src v (padShape s low high int) (low.map Int.ofNat) (high.map Int.ofNat)
        (int.map Int.ofNat)) (0, List.replicate s.length 0, dst) = st at h1 h2' h3 h4
    obtain ⟨c, idx, buf⟩ := st
    simp only at h1 h2' h3 h4
    subst h1 h2'
    have hincr : n + 1 < dst.length →
        impl.IncrementShapeIndex ((unflatIndex (padShape s low high int) n).map Int.ofNat)
          (padShape s low high int)
        = (unflatIndex (padShape s low high int) (n + 1)).map Int.ofNat := by
      intro hlt
      unfold impl.IncrementShapeIndex
      rw [List.length_map, unflatIndex_length]
      exact incr_loop_unflat _ n (by omega)
    have hnb : n < buf.length := by omega
    unfold Pad.step
    by_cases hp : notPadding s low high int n
    · have hp' : impl.IsPadding ((unflatIndex (padShape s low high int) n).map Int.ofNat)
          (padShape s low high int) (low.map Int.ofNat) (high.map Int.ofNat)
          (int.map Int.ofNat) = false := hp
      simp only [hp', Bool.false_eq_true, if_false]
      refine ⟨by rw [Nat.count_succ, if_pos hp], hincr, by simpa using h3, ?_⟩
      intro m hm
      by_cases hmn : m = n
      · subst hmn
        rw [getD_set_eq _ _ _ _ hnb, if_pos hp]
      · rw [getD_set_ne _ _ _ _ _ (by omega), h4 m (by omega)]
    · have hp' : impl.IsPadding ((unflatIndex (padShape s low high int) n).map Int.ofNat)
          (padShape s low high int) (low.map Int.ofNat) (high.map Int.ofNat)
          (int.map Int.ofNat) = true := by
        simpa [notPadding] using hp
      simp only [hp', if_true]
      refine ⟨by rw [Nat.count_succ, if_neg hp]; rfl, hincr, by simpa using h3, ?_⟩
      intro m hm
      by_cases hmn : m = n
      · subst hmn
        rw [getD_set_eq _ _ _ _ hnb, if_neg hp]
      · rw [getD_set_ne _ _ _ _ _ (by omega), h4 m (by omega)]

/-- C6. For a source of shape `s`, non-negative low, high and interior padding vectors of
the rank of `s`, the destination shape `d[i] = low[i] + high[i] + s[i] + max(s[i]-1, 0) *
interior[i]` and a one-element fill span, `Pad::Execute` returns success, the destination
element at `j[i] = low[i] + k[i] * (interior[i] + 1)` is the source element at `k` for every
`k` inside `s`, and every other destination element is the fill value. In particular the
source `[1,2,3]` padded with low 1, high 1, interior 0 and fill 0 gives `[0,1,2,3,0]`. -/
theorem Pad_Execute_spec {T : Type} [Inhabited T] (src dst : List T) (v : T)
    (s low high interior : List Nat)
    (hl : low.length = s.length) (hh : high.length = s.length)
    (hi : interior.length = s.length)
    (hsrc : src.length = s.prod) (hdst : dst.length = (padShape s low high interior).prod) :
    ((Pad.Execute src [v] dst s (padShape s low high interior) (low.map Int.ofNat)
        (high.map Int.ofNat) (interior.map Int.ofNat)).1 = Status.ok ∧
     (∀ k, InBox k s →
        (Pad.Execute src [v] dst s (padShape s low high interior) (low.map Int.ofNat)
          (high.map Int.ofNat) (interior.map Int.ofNat)).2[
            flatIndex (padShape s low high interior) (padIndex k low interior)]?
          = src[flatIndex s k]? ∧ flatIndex s k < src.length) ∧
     (∀ j, InBox j (padShape s low high interior) →
        (¬ ∃ k, InBox k s ∧ j = padIndex k low interior) →
        (Pad.Execute src [v] dst s (padShape s low high interior) (low.map Int.ofNat)
          (high.map Int.ofNat) (interior.map Int.ofNat)).2[
            flatIndex (padShape s low high interior) j]? = some v)) ∧
    (∀ a b c e f : Int,
      Pad.Execute [1, 2, 3] [0] [a, b, c, e, f] [3] [5] [1] [1] [0]
        = (Status.ok, [0, 1, 2, 3, 0])) := by
  refine ⟨?_, fun a b c e f => by
    simp [Pad.Execute, Pad.step, impl.IsPadding, impl.IncrementShapeIndex,
      impl.IncrementShapeIndex.loop, List.range, List.range.loop]⟩
  obtain ⟨_, _, hlen, hval⟩ := Pad_loop src v s low high interior hl hh hi dst hdst
    dst.length le_rfl
  have hdl := padShape_length s low high interior hl hh hi
  unfold Pad.Execute
  simp only [List.length_singleton, ne_eq, not_true_eq_false, if_false, List.headD_cons]
  refine ⟨trivial, ?_, ?_⟩
  · intro k hk
    have hjb := inBox_padIndex hk low high interior hl hh hi
    have hlt := flatIndex_lt hjb
    have hnp : notPadding s low high interior
        (flatIndex (padShape s low high interior) (padIndex k low interior)) := by
      show impl.IsPadding _ _ _ _ _ = false
      rw [flatIndex_unflat_of_inBox hjb]
      exact (IsPadding_eq_false_iff s low high interior _ hl hh hi
        (by rw [hjb.length_eq, hdl])).2 ⟨k, hk, rfl⟩
    have := hval _ (by omega : flatIndex (padShape s low high interior)
      (padIndex k low interior) < dst.length)
    rw [if_pos hnp, (count_notPadding s low high interior hl hh hi).2 k hk,
      List.getD_eq_getElem _ _ (by omega)] at this
    have hks : flatIndex s k < src.length := by rw [hsrc]; exact flatIndex_lt hk
    refine ⟨?_, hks⟩
    rw [List.getElem?_eq_getElem (by omega), this, List.getD_eq_getElem _ _ hks,
      List.getElem?_eq_getElem hks]
  · intro j hj hnk
    have hlt := flatIndex_lt hj
    have hnp : ¬ notPadding s low high interior (flatIndex (padShape s low high interior) j) := by
      show ¬ (impl.IsPadding _ _ _ _ _ = false)
      rw [flatIndex_unflat_of_inBox hj]
      intro hcon
      exact hnk ((IsPadding_eq_false_iff s low high interior _ hl hh hi
        (by rw [hj.length_eq, hdl])).1 hcon)
    have := hval _ (by omega : flatIndex (padShape s low high interior) j < dst.length)
    rw [if_neg hnp, List.getD_eq_getElem _ _ (by omega)] at this
    rw [List.getElem?_eq_getElem (by omega), this]


/-- C7. A call of `Pad::Execute` whose fill-value span has a length other than one (zero
elements or more than one) returns an invalid-argument failure and leaves the destination
span exactly as it was. -/
theorem Pad_Execute_bad_fill {T : Type} [Inhabited T] (src fill dst : List T)
    (src_shape dst_shape : Shape) (low high interior : List Int) (h : fill.length ≠ 1) :
    Pad.Execute src fill dst src_shape dst_shape low high interior
      = (Status.invalidArgument, dst) := by
  unfold Pad.Execute
  rw [if_pos h]

/-- C8. `Pad::Execute` does not reject negative padding. The call with the source
`[1, 2, 3]` of shape `[3]`, a one-element fill span, a destination of shape `[2]`, the low
edge padding `[-1]` and high and interior padding `[0]` returns success and writes the
first two source elements `[1, 2]`, where an invalid-argument failure is required. -/
theorem Pad_Execute_negative_low_accepted :
    Pad.Execute ([1, 2, 3] : List Int) [0] [9, 9] [3] [2] [-1] [0] [0]
      = (Status.ok, [1, 2]) := by
  decide


/-! ### Reductions -/

theorem reduce_strides_loop (A : Nat → Nat) (j : Nat) : ∀ k,
    (List.range' k j).reverse.foldl
      (fun (st : List Nat × Nat) dim_i => (st.1 ++ [st.2], st.2 * A dim_i)) ([], 1)
    = ((rowStrides ((List.range' k j).map A)).reverse, ((List.range' k j).map A).prod) := by
  induction j with
  | zero => intro k; simp [rowStrides]
  | succ j ih =>
    intro k
    rw [List.range'_succ, List.reverse_cons, List.foldl_append, ih (k + 1)]
    simp [rowStrides, Nat.mul_comm]

theorem reduce_strides_eq (d : Shape) :
    ((List.range d.length).reverse.foldl
      (fun (st : List Nat × Nat) dim_i => (st.1 ++ [st.2], st.2 * d.getD dim_i 0)) ([], 1)).1
    = (rowStrides d).reverse := by
  rw [List.range_eq_range', reduce_strides_loop (fun m => d.getD m 0) d.length 0,
    map_getD_range]

theorem dst_indices_loop (idx : List Nat) (dim : Nat) : ∀ n, n ≤ idx.length →
    (List.range n).foldl
      (fun (acc : List Nat) i => if i ∈ [dim] then acc else acc ++ [idx.getD i 0]) []
    = (idx.take n).eraseIdx dim := by
  intro n
  induction n with
  | zero => intro _; simp
  | succ n ih =>
    intro hn
    have hlt : n < idx.length := hn
    rw [List.range_succ, List.foldl_append, ih (by omega)]
    simp only [List.foldl_cons, List.foldl_nil, List.mem_singleton]
    have htake : idx.take (n + 1) = idx.take n ++ [idx.getD n 0] := by
      rw [List.take_succ, List.getElem?_eq_getElem hlt, List.getD_eq_getElem _ _ hlt]
      rfl
    have hlen : (idx.take n).length = n := by simp; omega
    rw [htake]
    by_cases h : n = dim
    · subst h
      rw [if_pos rfl, List.eraseIdx_append_of_length_le (by omega), hlen, Nat.sub_self,
        List.eraseIdx_of_length_le (by omega)]
      simp
    · rw [if_neg h]
      rcases Nat.lt_or_gt_of_ne h with h1 | h1
      · rw [List.eraseIdx_of_length_le (by omega), List.eraseIdx_of_length_le (by simp; omega)]
      · rw [List.eraseIdx_append_of_lt_length (by omega)]

theorem foldl_add_range (f : Nat → Nat) (m c : Nat) :
    (List.range m).foldl (fun acc i => acc + f i) c = c + ((List.range m).map f).sum := by
  induction m with
  | zero => simp
  | succ m ih =>
    rw [List.range_succ, List.foldl_append, ih]
    simp [Nat.add_assoc]

theorem dstIndex_eq (s d idx : List Nat) (dim : Nat) (hdim : dim < s.length)
    (hd : d.length = s.length - 1) (hidx : idx.length = s.length) :
    impl.ReduceDimension.dstIndex s [dim] (rowStrides d).reverse idx
      = flatIndex d (idx.eraseIdx dim) := by
  unfold impl.ReduceDimension.dstIndex
  simp only [List.length_singleton]
  rw [dst_indices_loop idx dim idx.length le_rfl, List.take_length, foldl_add_range,
    Nat.zero_add, flatIndex_eq_dot]
  have hel : (idx.eraseIdx dim).length = d.length := by
    rw [List.length_eraseIdx]
    simp [hidx, hdim, hd]
  rw [dot_eq_sum_range _ _ d.length hel (rowStrides_length d), hel]
  congr 1
  apply List.map_congr_left
  intro i hi
  simp only [List.mem_range] at hi
  congr 1
  have hrl := rowStrides_length d
  rw [List.getD_eq_getElem _ _ (by simp; omega), List.getD_eq_getElem _ _ (by omega),
    List.getElem_reverse]
  congr 1
  omega


theorem flatIndex_drop_succ (s idx : List Nat) (n x : Nat) (hn : n < s.length)
    (hidx : idx.length = s.length) :
    flatIndex (s.drop n) ((idx.set n x).drop n)
      = x * (s.drop (n + 1)).prod + flatIndex (s.drop (n + 1)) (idx.drop (n + 1)) := by
  have h1 : s.drop n = s[n] :: s.drop (n + 1) := List.drop_eq_getElem_cons hn
  have h2 : (idx.set n x).drop n = x :: idx.drop (n + 1) := by
    rw [List.drop_eq_getElem_cons (by simpa [hidx] using hn)]
    simp [List.drop_set_of_lt x idx (Nat.lt_succ_self n)]
  rw [h1, h2, flatIndex]

theorem prod_drop_succ (s : List Nat) (n : Nat) (hn : n < s.length) :
    (s.drop n).prod = (s.drop (n + 1)).prod * s.getD n 0 := by
  rw [List.drop_eq_getElem_cons hn, List.prod_cons, List.getD_eq_getElem _ _ hn, Nat.mul_comm]

theorem ReduceDimension_eq {T : Type} [Inhabited T] (kernel : T → T → T) (src : List T)
    (s d : List Nat) (dim : Nat) (hdim : dim < s.length) (hd : d.length = s.length - 1) :
    ∀ n, n ≤ s.length → ∀ (dst : List T) (idx : List Nat) (flat stride : Nat),
      idx.length = s.length → flat = flatIndex (s.drop n) (idx.drop n) →
      stride = (s.drop n).prod →
      (impl.ReduceDimension kernel src s [dim] (rowStrides d).reverse n (dst, idx) flat
          stride).1
        = ((tuples s n).map (fun lo => lo ++ idx.drop n)).foldl
            (applyVisit kernel src s d dim) dst ∧
      (impl.ReduceDimension kernel src s [dim] (rowStrides d).reverse n (dst, idx) flat
          stride).2.length = idx.length ∧
      (impl.ReduceDimension kernel src s [dim] (rowStrides d).reverse n (dst, idx) flat
          stride).2.drop n = idx.drop n := by
  intro n
  induction n with
  | zero =>
    intro _ dst idx flat stride hidx hflat _
    simp only [impl.ReduceDimension, tuples, List.drop_zero, List.map_cons, List.map_nil,
      List.nil_append, List.foldl_cons, List.foldl_nil, applyVisit, and_self, and_true]
    rw [dstIndex_eq s d idx dim hdim hd hidx, hflat]
    simp
  | succ n ih =>
    intro hn dst idx flat stride hidx hflat hstride
    have hlt : n < s.length := hn
    simp only [impl.ReduceDimension, tuples]
    -- invariant of the loop over `dim_i`
    have inv : ∀ t,
        ((List.range t).foldl
          (fun (st : List T × List Nat) dim_i =>
            impl.ReduceDimension kernel src s [dim] (rowStrides d).reverse n
              (st.1, st.2.set n dim_i) (flat + dim_i * stride) (stride * s.getD n 0))
          (dst, idx)).1
          = (((List.range t).flatMap
              (fun x => (tuples s n).map (fun lo => lo ++ [x]))).map
                (fun lo => lo ++ idx.drop (n + 1))).foldl (applyVisit kernel src s d dim) dst ∧
        ((List.range t).foldl
          (fun (st : List T × List Nat) dim_i =>
            impl.ReduceDimension kernel src s [dim] (rowStrides d).reverse n
              (st.1, st.2.set n dim_i) (flat + dim_i * stride) (stride * s.getD n 0))
          (dst, idx)).2.length = idx.length ∧
        ((List.range t).foldl
          (fun (st : List T × List Nat) dim_i =>
            impl.ReduceDimension kernel src s [dim] (rowStrides d).reverse n
              (st.1, st.2.set n dim_i) (flat + dim_i * stride) (stride * s.getD n 0))
          (dst, idx)).2.drop (n + 1) = idx.drop (n + 1) := by
      intro t
      induction t with
      | zero => simp
      | succ t iht =>
        obtain ⟨h1, h2, h3⟩ := iht
        rw [List.range_succ, List.foldl_append]
        simp only [List.foldl_cons, List.foldl_nil]
        generalize (List.range t).foldl
          (fun (st : List T × List Nat) dim_i =>
            impl.ReduceDimension kernel src s [dim] (rowStrides d).reverse n
              (st.1, st.2.set n dim_i) (flat + dim_i * stride) (stride * s.getD n 0))
          (dst, idx) = st at h1 h2 h3
        obtain ⟨cur, cidx⟩ := st
        simp only at h1 h2 h3
        have hcl : (cidx.set n t).length = s.length := by simp [h2, hidx]
        have hdrop : (cidx.set n t).drop n = t :: idx.drop (n + 1) := by
          rw [List.drop_eq_getElem_cons (by rw [hcl]; exact hlt)]
          simp [h3, List.drop_set_of_lt t cidx (Nat.lt_succ_self n)]
        obtain ⟨r1, r2, r3⟩ := ih (by omega) cur (cidx.set n t) (flat + t * stride)
          (stride * s.getD n 0) hcl
          (by
            rw [flatIndex_drop_succ s cidx n t hlt (by rw [h2, hidx]), h3, hflat, hstride]
            omega)
          (by rw [hstride, prod_drop_succ s n hlt])
        refine ⟨?_, by rw [r2, List.length_set, h2], ?_⟩
        · rw [r1, hdrop, h1, List.flatMap_append, List.map_append, List.foldl_append]
          simp [List.flatMap_cons, List.map_map, Function.comp_def]
        · have := congrArg (List.drop 1) r3
          rw [List.drop_drop, hdrop] at this
          simpa [Nat.add_comm] using this
    exact inv (s.getD n 0)


theorem foldl_applyVisit {T : Type} [Inhabited T] (kernel : T → T → T) (src : List T)
    (s d : List Nat) (dim : Nat) (V : List (List Nat)) : ∀ (dst : List T) (p : Nat),
    p < dst.length →
    (V.foldl (applyVisit kernel src s d dim) dst).length = dst.length ∧
    (V.foldl (applyVisit kernel src s d dim) dst).getD p default
      = ((V.filter (fun i => decide (flatIndex d (i.eraseIdx dim) = p))).map
          (fun i => src.getD (flatIndex s i) default)).foldl kernel (dst.getD p default) := by
  induction V with
  | nil => intro dst p _; simp
  | cons i V ih =>
    intro dst p hp
    simp only [List.foldl_cons]
    have hl : (applyVisit kernel src s d dim dst i).length = dst.length := by
      simp [applyVisit]
    obtain ⟨h1, h2⟩ := ih (applyVisit kernel src s d dim dst i) p (by omega)
    refine ⟨by rw [h1, hl], ?_⟩
    rw [h2]
    by_cases hip : flatIndex d (i.eraseIdx dim) = p
    · rw [List.filter_cons_of_pos (by simpa using hip)]
      simp only [List.map_cons, List.foldl_cons]
      congr 1
      unfold applyVisit
      rw [hip, getD_set_eq _ _ _ _ hp]
    · rw [List.filter_cons_of_neg (by simpa using hip)]
      congr 1
      unfold applyVisit
      rw [getD_set_ne _ _ _ _ _ hip]

theorem flatMap_range_single {α : Type} (f : Nat → List α) (y : Nat) : ∀ m, y < m →
    (∀ x, x ≠ y → f x = []) → (List.range m).flatMap f = f y := by
  intro m
  induction m with
  | zero => intro h; omega
  | succ m ih =>
    intro hy hf
    rw [List.range_succ, List.flatMap_append]
    simp only [List.flatMap_cons, List.flatMap_nil, List.append_nil]
    by_cases h : y = m
    · subst h
      have : (List.range y).flatMap f = [] := by
        rw [List.flatMap_eq_nil_iff]
        intro x hx
        simp only [List.mem_range] at hx
        exact hf x (by omega)
      rw [this, List.nil_append]
    · rw [ih (by omega) hf, hf m (fun hm => h hm.symm), List.append_nil]

theorem mem_tuples (s : List Nat) : ∀ n, n ≤ s.length → ∀ i, i ∈ tuples s n →
    InBox i (s.take n) := by
  intro n
  induction n with
  | zero =>
    intro _ i hi
    simp only [tuples, List.mem_singleton] at hi
    subst hi
    exact List.Forall₂.nil
  | succ n ih =>
    intro hn i hi
    have hlt : n < s.length := hn
    simp only [tuples, List.mem_flatMap, List.mem_range, List.mem_map] at hi
    obtain ⟨x, hx, lo, hlo, rfl⟩ := hi
    rw [List.take_succ, List.getElem?_eq_getElem hlt]
    rw [List.getD_eq_getElem _ _ hlt] at hx
    exact List.rel_append (ih (by omega) lo hlo) (List.Forall₂.cons hx List.Forall₂.nil)

theorem inBox_snoc {j d : List Nat} {c : Nat} (h : InBox j (d ++ [c])) :
    ∃ j' y, j = j' ++ [y] ∧ InBox j' d ∧ y < c := by
  have hl : j.length = d.length + 1 := by simpa using h.length_eq
  have h1 := List.forall₂_take_append j d [c] h
  have h2 := List.forall₂_drop_append j d [c] h
  have hsplit : j = j.take d.length ++ j.drop d.length := (List.take_append_drop _ _).symm
  generalize j.drop d.length = tl at h2 hsplit
  cases h2 with
  | cons hy hnil =>
    cases hnil
    exact ⟨j.take d.length, _, hsplit, h1, hy⟩

theorem tuples_filter_eq (s : List Nat) : ∀ n, n ≤ s.length → ∀ j, InBox j (s.take n) →
    (tuples s n).filter (fun i => decide (i = j)) = [j] := by
  intro n
  induction n with
  | zero =>
    intro _ j hj
    simp only [List.take_zero] at hj
    cases hj
    simp [tuples]
  | succ n ih =>
    intro hn j hj
    have hlt : n < s.length := hn
    rw [List.take_succ, List.getElem?_eq_getElem hlt] at hj
    obtain ⟨j', y, rfl, hj', hy⟩ := inBox_snoc hj
    simp only [tuples, List.filter_flatMap, List.filter_map]
    rw [flatMap_range_single _ y _ (by rw [List.getD_eq_getElem _ _ hlt]; exact hy)]
    · have : (tuples s n).filter
          ((fun i => decide (i = j' ++ [y])) ∘ fun lo => lo ++ [y])
          = (tuples s n).filter (fun i => decide (i = j')) := by
        apply List.filter_congr
        intro lo _
        simp
      rw [this, ih (by omega) j' hj']
      rfl
    · intro x hx
      rw [List.map_eq_nil_iff, List.filter_eq_nil_iff]
      intro lo _
      simp only [Function.comp, decide_eq_true_eq]
      intro heq
      have := List.append_inj' heq rfl
      simp only [List.cons.injEq, and_true] at this
      exact hx this.2


theorem insertIdx_append_of_le {α : Type} (k : α) : ∀ (n : Nat) (l l' : List α),
    n ≤ l.length → (l ++ l').insertIdx n k = l.insertIdx n k ++ l' := by
  intro n
  induction n with
  | zero => intro l l' _; simp [List.insertIdx_zero]
  | succ n ih =>
    intro l l' h
    cases l with
    | nil => simp at h
    | cons a l =>
      simp only [List.cons_append, List.insertIdx_succ_cons]
      rw [ih l l' (by simpa using h)]

theorem tuples_length (s : List Nat) : ∀ n, ∀ i, i ∈ tuples s n → i.length = n := by
  intro n
  induction n with
  | zero => intro i hi; simp only [tuples, List.mem_singleton] at hi; subst hi; rfl
  | succ n ih =>
    intro i hi
    simp only [tuples, List.mem_flatMap, List.mem_range, List.mem_map] at hi
    obtain ⟨x, _, lo, hlo, rfl⟩ := hi
    simp [ih lo hlo]

theorem tuples_filter_erase (s : List Nat) (dim : Nat) : ∀ n, dim < n → n ≤ s.length →
    ∀ j, InBox j ((s.take n).eraseIdx dim) →
    (tuples s n).filter (fun i => decide (i.eraseIdx dim = j))
      = (List.range (s.getD dim 0)).map (fun k => j.insertIdx dim k) := by
  intro n
  induction n with
  | zero => intro h; omega
  | succ n ih =>
    intro hdim hn j hj
    have hlt : n < s.length := hn
    have htl : (s.take n).length = n := by simp; omega
    rw [List.take_succ, List.getElem?_eq_getElem hlt] at hj
    simp only [Option.toList] at hj
    simp only [tuples, List.filter_flatMap, List.filter_map]
    by_cases hd : dim = n
    · subst hd
      rw [List.eraseIdx_append_of_length_le (by omega), htl, Nat.sub_self] at hj
      simp only [List.eraseIdx_cons_zero, List.append_nil] at hj
      have hjl : j.length = dim := by rw [hj.length_eq, htl]
      have hfun : (fun x => List.map (fun lo => lo ++ [x])
            (List.filter ((fun i => decide (i.eraseIdx dim = j)) ∘ fun lo => lo ++ [x])
              (tuples s dim)))
          = (fun x => [j.insertIdx dim x]) := by
        funext x
        have : (tuples s dim).filter
            ((fun i => decide (i.eraseIdx dim = j)) ∘ fun lo => lo ++ [x])
            = (tuples s dim).filter (fun i => decide (i = j)) := by
          apply List.filter_congr
          intro lo hlo
          have hll := tuples_length s dim lo hlo
          simp only [Function.comp]
          rw [List.eraseIdx_append_of_length_le (by omega), hll, Nat.sub_self]
          simp
        rw [this, tuples_filter_eq s dim (by omega) j hj]
        have := List.insertIdx_length_self j x
        rw [hjl] at this
        simp [this]
      rw [hfun]
      exact List.flatMap_pure_eq_map _ _
    · have hdn : dim < n := by omega
      rw [List.eraseIdx_append_of_lt_length (by omega)] at hj
      obtain ⟨j', y, rfl, hj', hy⟩ := inBox_snoc hj
      have hjl : j'.length = n - 1 := by
        rw [hj'.length_eq, List.length_eraseIdx, htl]; simp [hdn]
      rw [flatMap_range_single _ y _ (by rw [List.getD_eq_getElem _ _ hlt]; exact hy)]
      · have : (tuples s n).filter
            ((fun i => decide (i.eraseIdx dim = j' ++ [y])) ∘ fun lo => lo ++ [y])
            = (tuples s n).filter (fun i => decide (i.eraseIdx dim = j')) := by
          apply List.filter_congr
          intro lo hlo
          have hll := tuples_length s n lo hlo
          simp only [Function.comp]
          rw [List.eraseIdx_append_of_lt_length (by omega)]
          simp
        rw [this, ih hdn (by omega) j' hj', List.map_map]
        apply List.map_congr_left
        intro k _
        simp only [Function.comp]
        rw [insertIdx_append_of_le k dim j' [y] (by omega)]
      · intro x hx
        rw [List.map_eq_nil_iff, List.filter_eq_nil_iff]
        intro lo hlo
        have hll := tuples_length s n lo hlo
        simp only [Function.comp, decide_eq_true_eq]
        rw [List.eraseIdx_append_of_lt_length (by omega)]
        intro heq
        have := List.append_inj' heq rfl
        simp only [List.cons.injEq, and_true] at this
        exact hx this.2

theorem inBox_eraseIdx : ∀ {i s : List Nat}, InBox i s → ∀ dim,
    InBox (i.eraseIdx dim) (s.eraseIdx dim) := by
  intro i s h
  induction h with
  | nil => intro dim; exact List.Forall₂.nil
  | @cons a b as bs hab _ ih =>
    intro dim
    cases dim with
    | zero => assumption
    | succ dim => exact List.Forall₂.cons hab (ih dim)

theorem inBox_insertIdx : ∀ (dim : Nat) (s j : List Nat) (k : Nat), dim < s.length →
    InBox j (s.eraseIdx dim) → k < s.getD dim 0 → InBox (j.insertIdx dim k) s := by
  intro dim
  induction dim with
  | zero =>
    intro s j k hdim hj hk
    cases s with
    | nil => simp at hdim
    | cons s0 s' =>
      simp only [List.eraseIdx_cons_zero] at hj
      simp only [List.getD_cons_zero] at hk
      rw [List.insertIdx_zero]
      exact List.Forall₂.cons hk hj
  | succ dim ih =>
    intro s j k hdim hj hk
    cases s with
    | nil => simp at hdim
    | cons s0 s' =>
      simp only [List.eraseIdx_cons_succ] at hj
      simp only [List.getD_cons_succ] at hk
      cases hj with
      | cons h0 hrest =>
        rw [List.insertIdx_succ_cons]
        exact List.Forall₂.cons h0 (ih s' _ k (by simpa using hdim) hrest hk)

theorem flatIndex_inj {i j d : List Nat} (hi : InBox i d) (hj : InBox j d)
    (h : flatIndex d i = flatIndex d j) : i = j := by
  rw [← flatIndex_unflat_of_inBox hi, ← flatIndex_unflat_of_inBox hj, h]


theorem GenericReduce_spec {T : Type} [Inhabited T] (kernel : T → T → T) (src dst : List T)
    (v : T) (s : Shape) (dim : Nat) (hdim : dim < s.length)
    (hdst : dst.length = (s.eraseIdx dim).prod) (j : List Nat)
    (hj : InBox j (s.eraseIdx dim)) :
    (impl.GenericReduce kernel src [v] dst dim s (s.eraseIdx dim)).1 = Status.ok ∧
    (impl.GenericReduce kernel src [v] dst dim s (s.eraseIdx dim)).2.length = dst.length ∧
    (impl.GenericReduce kernel src [v] dst dim s (s.eraseIdx dim)).2.getD
        (flatIndex (s.eraseIdx dim) j) default
      = (List.range (s.getD dim 0)).foldl
          (fun acc k => kernel acc (src.getD (flatIndex s (j.insertIdx dim k)) default)) v := by
  have hd : (s.eraseIdx dim).length = s.length - 1 := by
    rw [List.length_eraseIdx]; simp [hdim]
  have hp : flatIndex (s.eraseIdx dim) j < (List.replicate dst.length v).length := by
    rw [List.length_replicate, hdst]; exact flatIndex_lt hj
  obtain ⟨r1, _, _⟩ := ReduceDimension_eq kernel src s (s.eraseIdx dim) dim hdim hd s.length
    le_rfl (List.replicate dst.length v) (List.replicate s.length 0) 0 1 (by simp)
    (by simp [flatIndex]) (by simp)
  have hmap : (tuples s s.length).map
      (fun lo => lo ++ (List.replicate s.length 0).drop s.length) = tuples s s.length := by
    simp
  rw [hmap] at r1
  obtain ⟨f1, f2⟩ := foldl_applyVisit kernel src s (s.eraseIdx dim) dim (tuples s s.length)
    (List.replicate dst.length v) _ hp
  have hfilt : (tuples s s.length).filter
      (fun i => decide (flatIndex (s.eraseIdx dim) (i.eraseIdx dim)
        = flatIndex (s.eraseIdx dim) j))
      = (tuples s s.length).filter (fun i => decide (i.eraseIdx dim = j)) := by
    apply List.filter_congr
    intro i hi
    have hib := mem_tuples s s.length le_rfl i hi
    rw [List.take_length] at hib
    have := inBox_eraseIdx hib dim
    simp only [decide_eq_decide]
    exact ⟨fun h => flatIndex_inj this hj h, fun h => by rw [h]⟩
  rw [hfilt, tuples_filter_erase s dim s.length hdim le_rfl j
    (by rw [List.take_length]; exact hj), List.map_map, List.foldl_map] at f2
  unfold impl.GenericReduce
  simp only [List.getD_cons_zero]
  rw [reduce_strides_eq, r1]
  refine ⟨trivial, by rw [f1, List.length_replicate], ?_⟩
  rw [f2, List.getD_eq_getElem _ _ hp]
  simp [Function.comp]


/-- C4. After `ReduceSum::Execute` on a source of shape `s` along the axis `dimension`,
with the destination shape `s` without that axis and a one-element init span `[v]`, the
destination element at the row-major multi-index `j` is `v + x_0 + x_1 + ...`, where
`x_k` is the source element at the multi-index obtained by inserting `k` into `j` at
position `dimension`, for `k = 0 .. s[dimension]-1` (added in this order, in the element
type); the source reads are in bounds and the call succeeds. In particular the source
`[1,2,3,4,5,6]` of shape `[2,3]` reduced along dimension 0 from init 0 gives `[5,7,9]`. -/
theorem ReduceSum_Execute_sums_axis {T : Type} [Inhabited T] [Add T] (src dst : List T)
    (v : T) (s : Shape) (dimension : Nat) (hdim : dimension < s.length)
    (hsrc : src.length = s.prod) (hdst : dst.length = (s.eraseIdx dimension).prod)
    (j : List Nat) (hj : InBox j (s.eraseIdx dimension)) :
    ((ReduceSum.Execute src [v] dst dimension s (s.eraseIdx dimension)).1 = Status.ok ∧
     (∀ k, k < s.getD dimension 0 → flatIndex s (j.insertIdx dimension k) < src.length) ∧
     (ReduceSum.Execute src [v] dst dimension s (s.eraseIdx dimension)).2[
         flatIndex (s.eraseIdx dimension) j]?
       = some ((List.range (s.getD dimension 0)).foldl
           (fun acc k => acc + src.getD (flatIndex s (j.insertIdx dimension k)) default) v)) ∧
    (∀ a b c : Int,
      ReduceSum.Execute [1, 2, 3, 4, 5, 6] [0] [a, b, c] 0 [2, 3] [3]
        = (Status.ok, [5, 7, 9])) := by
  refine ⟨?_, fun a b c => by
    simp [ReduceSum.Execute, impl.GenericReduce, impl.ReduceDimension,
      impl.ReduceDimension.dstIndex, impl.SumKernel, List.range, List.range.loop]⟩
  obtain ⟨g1, g2, g3⟩ := GenericReduce_spec (impl.SumKernel (T := T)) src dst v s dimension
    hdim hdst j hj
  have hlt : flatIndex (s.eraseIdx dimension) j < dst.length := by
    rw [hdst]; exact flatIndex_lt hj
  refine ⟨g1, ?_, ?_⟩
  · intro k hk
    rw [hsrc]
    exact flatIndex_lt (inBox_insertIdx dimension s j k hdim hj hk)
  · unfold ReduceSum.Execute
    rw [List.getElem?_eq_getElem (by rw [g2]; exact hlt),
      ← List.getD_eq_getElem _ default (by rw [g2]; exact hlt), g3]
    rfl

theorem insertIdx_eraseIdx_getD : ∀ (dim : Nat) (i : List Nat), dim < i.length →
    (i.eraseIdx dim).insertIdx dim (i.getD dim 0) = i := by
  intro dim
  induction dim with
  | zero =>
    intro i h
    cases i with
    | nil => simp at h
    | cons a as => simp [List.insertIdx_zero]
  | succ dim ih =>
    intro i h
    cases i with
    | nil => simp at h
    | cons a as =>
      simp only [List.eraseIdx_cons_succ, List.insertIdx_succ_cons, List.getD_cons_succ]
      rw [ih as (by simpa using h)]

theorem strides_loop_single (A : Nat → Nat) (j : Nat) : ∀ k,
    (List.range' k j).reverse.foldl
      (fun (st : List Nat × Nat) dim_i => (st.1.set dim_i st.2, st.2 * A dim_i))
      (List.replicate (k + j) 0, 1)
    = (List.replicate k 0 ++ rowStrides ((List.range' k j).map A),
       ((List.range' k j).map A).prod) := by
  induction j with
  | zero => intro k; simp [rowStrides]
  | succ j ih =>
    intro k
    have h := ih (k + 1)
    rw [show k + 1 + j = k + (j + 1) by omega] at h
    rw [List.range'_succ, List.reverse_cons, List.foldl_append, h]
    simp only [List.foldl_cons, List.foldl_nil, List.map_cons, rowStrides, List.prod_cons,
      set_replicate_succ_append]
    simp [Nat.mul_comm]

theorem Reverse_strides_eq (s : Shape) : Reverse.strides s = rowStrides s := by
  unfold Reverse.strides
  have h := strides_loop_single (fun m => s.getD m 0) s.length 0
  simp only [Nat.zero_add, List.replicate_zero, List.nil_append] at h
  simp only [List.range_eq_range']
  rw [h, map_getD_range]

theorem revIdx_length : ∀ (j d : List Nat) (f : List Bool), j.length = d.length →
    f.length = d.length → (revIdx j d f).length = d.length := by
  intro j
  induction j with
  | nil => intro d f hj _; simp [revIdx, ← hj]
  | cons a j ih =>
    intro d f hj hf
    cases d with
    | nil => simp at hj
    | cons b d =>
      cases f with
      | nil => simp at hf
      | cons c f =>
        simp [revIdx, ih d f (by simpa using hj) (by simpa using hf)]

theorem inBox_revIdx : ∀ {j d : List Nat}, InBox j d → ∀ (f : List Bool),
    f.length = d.length → InBox (revIdx j d f) d := by
  intro j d h
  induction h with
  | nil => intro f _; cases f <;> exact List.Forall₂.nil
  | @cons a b as bs hab _ ih =>
    intro f hf
    cases f with
    | nil => simp at hf
    | cons c f =>
      simp only [revIdx]
      refine List.Forall₂.cons ?_ (ih f (by simpa using hf))
      split <;> omega

theorem reverse_loop : ∀ {J D : List Nat}, InBox J D → ∀ (F : List Bool),
    F.length = D.length → ∀ acc : Nat,
    (List.zip (rowStrides D) (List.zip D F)).foldl
      (fun (st : Nat × Nat) (p : Nat × Nat × Bool) =>
        (st.1 - st.1 / p.1 * p.1,
         st.2 + (if p.2.2 then p.2.1 - 1 - st.1 / p.1 else st.1 / p.1) * p.1))
      (flatIndex D J, acc) = (0, acc + flatIndex D (revIdx J D F)) := by
  intro J D h
  induction h with
  | nil => intro F _ acc; simp [rowStrides, flatIndex, revIdx]
  | @cons i d is ds hid hbox ih =>
    intro F hF acc
    cases F with
    | nil => simp at hF
    | cons f fs =>
      have hf := flatIndex_lt hbox
      have hpos : 0 < ds.prod := by omega
      have hq : (i * ds.prod + flatIndex ds is) / ds.prod = i := by
        rw [Nat.add_comm, Nat.add_mul_div_right _ _ hpos, Nat.div_eq_of_lt hf]; simp
      simp only [rowStrides, flatIndex, List.zip_cons_cons, List.foldl_cons, hq, revIdx]
      rw [Nat.add_sub_cancel_left, ih fs (by simpa using hF)]
      simp [Nat.add_assoc]

theorem map_range_zip3b (a b : List Nat) (c : List Bool) (r : Nat) (ha : a.length = r)
    (hb : b.length = r) (hc : c.length = r) :
    (List.range r).map (fun k => (a.getD k 0, b.getD k 0, c.getD k false))
      = a.zip (b.zip c) := by
  apply List.ext_getElem
  · simp [ha, hb, hc]
  · intro i h1 h2
    simp at h1
    simp [List.getElem?_eq_getElem (show i < a.length by omega),
      List.getElem?_eq_getElem (show i < b.length by omega),
      List.getElem?_eq_getElem (show i < c.length by omega)]

theorem Reverse_srcIndex_flat (s : Shape) (dimensions : List Nat) (j : List Nat)
    (hj : InBox j s) :
    Reverse.srcIndex (Reverse.strides s) s dimensions s.length (flatIndex s j)
      = flatIndex s (revIdx j s ((List.range s.length).map (fun i => decide (i ∈ dimensions)))) := by
  rw [Reverse_strides_eq]
  unfold Reverse.srcIndex
  have hF : ((List.range s.length).map (fun i => decide (i ∈ dimensions))).length = s.length := by
    simp
  have h := reverse_loop hj _ hF 0
  rw [← map_range_zip3b (rowStrides s) s _ s.length (rowStrides_length s) rfl hF,
    List.foldl_map] at h
  simp only [Nat.zero_add] at h
  refine Eq.trans ?_ (congrArg Prod.snd h)
  congr 1
  apply List.foldl_ext
  intro st k hk
  simp only [List.mem_range] at hk
  have : ((List.range s.length).map (fun i => decide (i ∈ dimensions))).getD k false
      = decide (k ∈ dimensions) := by
    rw [List.getD_eq_getElem _ _ (by simpa using hk)]
    simp
  simp only [this]

theorem revIdx_getD : ∀ (j d : List Nat) (f : List Bool) (i : Nat), j.length = d.length →
    f.length = d.length → i < d.length →
    (revIdx j d f).getD i 0
      = if f.getD i false then d.getD i 0 - 1 - j.getD i 0 else j.getD i 0 := by
  intro j
  induction j with
  | nil => intro d f i hj _ hi; rw [← hj] at hi; simp at hi
  | cons a j ih =>
    intro d f i hj hf hi
    cases d with
    | nil => simp at hj
    | cons b d =>
      cases f with
      | nil => simp at hf
      | cons c f =>
        cases i with
        | zero => simp [revIdx]
        | succ i =>
          simp only [revIdx, List.getD_cons_succ]
          exact ih d f i (by simpa using hj) (by simpa using hf) (by simpa using hi)

theorem Reverse_Execute_eq {T : Type} [Inhabited T] (src dst : List T) (s : Shape)
    (dimensions : List Nat) :
    Reverse.Execute src dst s dimensions = (Status.ok, (List.range dst.length).map (fun n =>
      src.getD (Reverse.srcIndex (Reverse.strides s) s dimensions s.length n) default)) := by
  unfold Reverse.Execute
  simp only []
  rw [foldl_set_range_full]

/-- C11. After `Reverse::Execute` on a source of shape `s` with the list `dimensions` of
axes, the destination element at the row-major multi-index `j` is the source element at
the multi-index `k` with `k[i] = s[i] - 1 - j[i]` for every axis `i` that occurs in
`dimensions` and `k[i] = j[i]` for every other axis; the source read is in bounds and the
call succeeds. Entries of `dimensions` that are no axis of `s` have no effect, so the
statement needs no hypothesis on `dimensions`. -/
theorem Reverse_Execute_flips_axes {T : Type} [Inhabited T] (src dst : List T) (s : Shape)
    (dimensions : List Nat) (hsrc : src.length = s.prod) (hdst : dst.length = s.prod)
    (j k : List Nat) (hj : InBox j s) (hk : k.length = s.length)
    (hkj : ∀ i, i < s.length →
      k.getD i 0 = if i ∈ dimensions then s.getD i 0 - 1 - j.getD i 0 else j.getD i 0) :
    (Reverse.Execute src dst s dimensions).1 = Status.ok ∧
    flatIndex s k < src.length ∧
    (Reverse.Execute src dst s dimensions).2[flatIndex s j]? = src[flatIndex s k]? := by
  have hF : ((List.range s.length).map (fun i => decide (i ∈ dimensions))).length = s.length := by
    simp
  have hke : k = revIdx j s ((List.range s.length).map (fun i => decide (i ∈ dimensions))) := by
    apply List.ext_getElem
    · rw [hk, revIdx_length j s _ hj.length_eq hF]
    · intro i h1 h2
      have hi : i < s.length := by omega
      have e1 := revIdx_getD j s _ i hj.length_eq hF hi
      have hflag : ((List.range s.length).map (fun i => decide (i ∈ dimensions))).getD i false
          = decide (i ∈ dimensions) := by
        rw [List.getD_eq_getElem _ _ (by simpa using hi)]
        simp
      rw [List.getD_eq_getElem _ _ h2, hflag] at e1
      have e2 := hkj i hi
      rw [List.getD_eq_getElem _ _ h1] at e2
      rw [e1, e2]
      simp
  have hkb : InBox k s := by rw [hke]; exact inBox_revIdx hj _ hF
  have hlt : flatIndex s j < dst.length := by rw [hdst]; exact flatIndex_lt hj
  have hlt2 : flatIndex s k < src.length := by rw [hsrc]; exact flatIndex_lt hkb
  rw [Reverse_Execute_eq]
  refine ⟨rfl, hlt2, ?_⟩
  simp only [List.getElem?_map, List.getElem?_range hlt, Option.map_some']
  rw [Reverse_srcIndex_flat s dimensions j hj, ← hke, List.getD_eq_getElem _ _ hlt2,
    List.getElem?_eq_getElem hlt2]


/-! ### Comparisons, Select, Clamp -/

theorem elementwise_getElem? {α : Type} (f : Nat → α) (dst : List α) (i : Nat)
    (hi : i < dst.length) :
    ((List.range dst.length).foldl (fun d i => d.set i (f i)) dst)[i]? = some (f i) := by
  rw [foldl_set_range_full]
  simp [List.getElem?_range hi]

theorem getD_of_getElem? {α : Type} {l : List α} {i : Nat} {a d : α} (h : l[i]? = some a) :
    l.getD i d = a := by
  rw [List.getD_eq_getElem?_getD, h]
  rfl

/-- C19. `Select::Execute` writes at every index `i` of the destination `lhs[i]` when the
condition byte `cond[i]` is not zero (any non-zero byte) and `rhs[i]` when it is zero; the
call succeeds. -/
theorem Select_Execute_spec {T : Type} [Inhabited T] (cond : List UInt8) (lhs rhs dst : List T)
    (i : Nat) (c : UInt8) (a b : T) (hi : i < dst.length) (hc : cond[i]? = some c)
    (ha : lhs[i]? = some a) (hb : rhs[i]? = some b) :
    (Select.Execute cond lhs rhs dst).1 = Status.ok ∧
    (c ≠ 0 → (Select.Execute cond lhs rhs dst).2[i]? = some a) ∧
    (c = 0 → (Select.Execute cond lhs rhs dst).2[i]? = some b) := by
  have ec : cond.getD i default = c := getD_of_getElem? hc
  have ea : lhs.getD i default = a := getD_of_getElem? ha
  have eb : rhs.getD i default = b := getD_of_getElem? hb
  unfold Select.Execute
  refine ⟨rfl, ?_, ?_⟩
  · intro h
    simp only []
    rw [elementwise_getElem? _ dst i hi, ec, ea, if_pos h]
  · intro h
    simp only []
    rw [elementwise_getElem? _ dst i hi, ec, eb, if_neg (not_not.2 h)]

/-- C18. `Clamp::Execute` writes at every index `i` of the destination `min[i]` when
`src[i] ≤ min[i]`; otherwise `max[i]` when `src[i] ≥ max[i]`; otherwise `src[i]`. The
lower-bound test comes first, whatever the order of `min[i]` and `max[i]`; the call
succeeds. -/
theorem Clamp_Execute_spec {T : Type} [Inhabited T] [LE T]
    [DecidableRel (fun (a b : T) => a ≤ b)] (src min max dst : List T)
    (i : Nat) (x lo hi : T) (hidx : i < dst.length) (hx : src[i]? = some x)
    (hlo : min[i]? = some lo) (hhi : max[i]? = some hi) :
    (Clamp.Execute src min max dst).1 = Status.ok ∧
    (x ≤ lo → (Clamp.Execute src min max dst).2[i]? = some lo) ∧
    (¬ x ≤ lo → x ≥ hi → (Clamp.Execute src min max dst).2[i]? = some hi) ∧
    (¬ x ≤ lo → ¬ x ≥ hi → (Clamp.Execute src min max dst).2[i]? = some x) := by
  have ex : src.getD i default = x := getD_of_getElem? hx
  have el : min.getD i default = lo := getD_of_getElem? hlo
  have eh : max.getD i default = hi := getD_of_getElem? hhi
  unfold Clamp.Execute
  simp only []
  rw [elementwise_getElem? _ dst i hidx, ex, el, eh]
  refine ⟨trivial, ?_, ?_, ?_⟩
  · intro h; rw [if_pos h]
  · intro h1 h2; rw [if_neg h1, if_pos h2]
  · intro h1 h2; rw [if_neg h1, if_neg h2]


/-! ### Broadcast and elementwise arithmetic -/

theorem elementwise_length {α : Type} (f : Nat → α) (dst : List α) :
    ((List.range dst.length).foldl (fun d i => d.set i (f i)) dst).length = dst.length := by
  rw [foldl_set_range_full]
  simp

/-- C21. For a source span of exactly one element `x` and a destination span of any
length (zero included), `Broadcast::Execute` succeeds, keeps the length of the destination
and makes every destination element equal to `x`. -/
theorem Broadcast_Execute_fills {T : Type} [Inhabited T] (src dst : List T) (x : T)
    (hsrc : src = [x]) :
    (Broadcast.Execute src dst).1 = Status.ok ∧
    (Broadcast.Execute src dst).2.length = dst.length ∧
    (∀ y ∈ (Broadcast.Execute src dst).2, y = x) ∧
    (Broadcast.Execute src dst).2 = List.replicate dst.length x := by
  subst hsrc
  have h : (Broadcast.Execute [x] dst).2 = List.replicate dst.length x := by
    unfold Broadcast.Execute
    simp only
    rw [foldl_set_range_full]
    simp
  refine ⟨rfl, ?_, ?_, h⟩
  · rw [h, List.length_replicate]
  · intro y hy
    rw [h] at hy
    exact List.eq_of_mem_replicate hy

/-- C22. `MulAdd::Execute` writes at every index `i` of the destination
`a[i] + (b[i] * c[i])` in the arithmetic of the element type: the first operand is the
addend, the second and the third are multiplied. The call succeeds. -/
theorem MulAdd_Execute_spec {T : Type} [Inhabited T] [Add T] [Mul T]
    (as bs cs dst : List T) (i : Nat) (x y z : T) (hi : i < dst.length)
    (ha : as[i]? = some x) (hb : bs[i]? = some y) (hc : cs[i]? = some z) :
    (MulAdd.Execute as bs cs dst).1 = Status.ok ∧
    (MulAdd.Execute as bs cs dst).2[i]? = some (x + (y * z)) := by
  refine ⟨rfl, ?_⟩
  unfold MulAdd.Execute
  simp only
  rw [elementwise_getElem? _ dst i hi, getD_of_getElem? ha, getD_of_getElem? hb,
    getD_of_getElem? hc]

/-- C24, as the claim states it, fails: `Add::Execute` called with an `lhs` span of three
elements and `rhs` and destination spans of two elements returns success. -/
theorem Add_Execute_mismatch_accepted :
    ([1, 2, 3] : List Int).length ≠ ([0, 0] : List Int).length ∧
    Add.Execute ([1, 2, 3] : List Int) [10, 20] [0, 0] = (Status.ok, [11, 22]) := by
  constructor
  · decide
  · rfl

/-- C24, amended. The elementwise binary kernels `Add`, `Sub` and `Mul` do not compare the
lengths of their spans: called with `lhs` and `rhs` spans at least as long as the
destination span, of the same length or not, each returns success, keeps the length of the
destination and writes `op(lhs[i], rhs[i])` at every index `i` of the destination. -/
theorem elementwise_binary_no_length_check {T : Type} [Inhabited T] [Add T] [Sub T] [Mul T]
    (lhs rhs dst : List T) (hl : dst.length ≤ lhs.length) (hr : dst.length ≤ rhs.length) :
    ((Add.Execute lhs rhs dst).1 = Status.ok ∧
      (Add.Execute lhs rhs dst).2.length = dst.length ∧
      ∀ i (hi : i < dst.length),
        (Add.Execute lhs rhs dst).2[i]? = some (lhs[i] + rhs[i])) ∧
    ((Sub.Execute lhs rhs dst).1 = Status.ok ∧
      (Sub.Execute lhs rhs dst).2.length = dst.length ∧
      ∀ i (hi : i < dst.length),
        (Sub.Execute lhs rhs dst).2[i]? = some (lhs[i] - rhs[i])) ∧
    ((Mul.Execute lhs rhs dst).1 = Status.ok ∧
      (Mul.Execute lhs rhs dst).2.length = dst.length ∧
      ∀ i (hi : i < dst.length),
        (Mul.Execute lhs rhs dst).2[i]? = some (lhs[i] * rhs[i])) := by
  refine ⟨⟨rfl, ?_, ?_⟩, ⟨rfl, ?_, ?_⟩, ⟨rfl, ?_, ?_⟩⟩
  · exact elementwise_length _ dst
  · intro i hi
    unfold Add.Execute
    simp only
    rw [elementwise_getElem? _ dst i hi, List.getD_eq_getElem _ _ (by omega),
      List.getD_eq_getElem _ _ (by omega)]
  · exact elementwise_length _ dst
  · intro i hi
    unfold Sub.Execute
    simp only
    rw [elementwise_getElem? _ dst i hi, List.getD_eq_getElem _ _ (by omega),
      List.getD_eq_getElem _ _ (by omega)]
  · exact elementwise_length _ dst
  · intro i hi
    unfold Mul.Execute
    simp only
    rw [elementwise_getElem? _ dst i hi, List.getD_eq_getElem _ _ (by omega),
      List.getD_eq_getElem _ _ (by omega)]


/-! ### Reverse: involution and dependence on the set of axes -/

theorem revIdx_revIdx : ∀ {j d : List Nat}, InBox j d → ∀ (f : List Bool),
    f.length = d.length → revIdx (revIdx j d f) d f = j := by
  intro j d h
  induction h with
  | nil => intro f _; cases f <;> rfl
  | @cons a b as bs hab _ ih =>
    intro f hf
    cases f with
    | nil => simp at hf
    | cons c f =>
      simp only [List.length_cons, Nat.add_right_cancel_iff] at hf
      simp only [revIdx, ih f hf, List.cons.injEq, and_true]
      cases c
      · simp
      · simp only [if_true]
        omega

theorem Reverse_srcIndex_involutive (s : Shape) (dimensions : List Nat) (n : Nat)
    (hn : n < s.prod) :
    Reverse.srcIndex (Reverse.strides s) s dimensions s.length n < s.prod ∧
    Reverse.srcIndex (Reverse.strides s) s dimensions s.length
      (Reverse.srcIndex (Reverse.strides s) s dimensions s.length n) = n := by
  obtain ⟨hbox, hflat⟩ := unflatIndex_spec s n hn
  have hF : ((List.range s.length).map (fun i => decide (i ∈ dimensions))).length
      = s.length := by simp
  have h1 := Reverse_srcIndex_flat s dimensions (unflatIndex s n) hbox
  rw [hflat] at h1
  have hbox2 := inBox_revIdx hbox _ hF
  constructor
  · rw [h1]
    exact flatIndex_lt hbox2
  · rw [h1, Reverse_srcIndex_flat s dimensions _ hbox2, revIdx_revIdx hbox _ hF, hflat]

theorem Reverse_srcIndex_congr (strides : List Nat) (s : Shape) (d1 d2 : List Nat)
    (h : ∀ x, x ∈ d1 ↔ x ∈ d2) (rank n : Nat) :
    Reverse.srcIndex strides s d1 rank n = Reverse.srcIndex strides s d2 rank n := by
  unfold Reverse.srcIndex
  have hfun : (fun (i : Nat) => decide (i ∈ d1)) = (fun (i : Nat) => decide (i ∈ d2)) := by
    funext i
    exact decide_eq_decide.mpr (h i)
  simp only [congrFun hfun]

/-- C29. `Reverse::Execute` is an involution: for every shape `s`, every list
`dimensions` and every buffer `X` of `product(s)` elements, reversing `X` along
`dimensions` and reversing the result along the same `dimensions` gives `X` again; both
calls succeed. The statement needs no hypothesis on `dimensions`: entries that are no axis
of `s` have no effect. -/
theorem Reverse_Execute_involution {T : Type} [Inhabited T] (X dst1 dst2 : List T)
    (s : Shape) (dimensions : List Nat) (hX : X.length = s.prod)
    (h1 : dst1.length = s.prod) (h2 : dst2.length = s.prod) :
    (Reverse.Execute X dst1 s dimensions).1 = Status.ok ∧
    Reverse.Execute (Reverse.Execute X dst1 s dimensions).2 dst2 s dimensions
      = (Status.ok, X) := by
  refine ⟨rfl, ?_⟩
  rw [Reverse_Execute_eq X dst1, Reverse_Execute_eq _ dst2]
  simp only [Prod.mk.injEq, true_and]
  apply List.ext_getElem
  · simp [h2, hX]
  · intro n hn1 hn2
    have hn : n < s.prod := by rw [← hX]; exact hn2
    obtain ⟨hlt, hinv⟩ := Reverse_srcIndex_involutive s dimensions n hn
    rw [List.getElem_map, List.getElem_range, List.getD_eq_getElem _ _ (by simpa [h1] using hlt),
      List.getElem_map, List.getElem_range, hinv, List.getD_eq_getElem _ _ hn2]

/-- C30. `Reverse::Execute` depends on `dimensions` only through the set of its values:
two lists that contain the same values, in whatever order and however often, give the same
result for every shape and all buffers. In particular listing axis 1 twice reverses it
once: on the 2 x 3 array `[1, 2, 3, 4, 5, 6]` the lists `[1, 1]` and `[1]` both give
`[3, 2, 1, 6, 5, 4]`, not the source. -/
theorem Reverse_Execute_set_of_axes {T : Type} [Inhabited T] (src dst : List T) (s : Shape)
    (d1 d2 : List Nat) (h : ∀ x, x ∈ d1 ↔ x ∈ d2) :
    Reverse.Execute src dst s d1 = Reverse.Execute src dst s d2 ∧
    Reverse.Execute ([1, 2, 3, 4, 5, 6] : List Int) [0, 0, 0, 0, 0, 0] [2, 3] [1, 1]
      = (Status.ok, [3, 2, 1, 6, 5, 4]) ∧
    Reverse.Execute ([1, 2, 3, 4, 5, 6] : List Int) [0, 0, 0, 0, 0, 0] [2, 3] [1]
      = (Status.ok, [3, 2, 1, 6, 5, 4]) := by
  refine ⟨?_, by decide, by decide⟩
  rw [Reverse_Execute_eq, Reverse_Execute_eq]
  simp only [Reverse_srcIndex_congr _ s d1 d2 h]


/-! ### Copy: frame and absence of a bounds check -/

theorem getElem?_eq_of_getD_eq {α : Type} [Inhabited α] {l1 l2 : List α} {p : Nat}
    (hl : l1.length = l2.length) (h : l1.getD p default = l2.getD p default) :
    l1[p]? = l2[p]? := by
  by_cases hp : p < l1.length
  · rw [List.getD_eq_getElem _ _ hp, List.getD_eq_getElem _ _ (by omega)] at h
    rw [List.getElem?_eq_getElem hp, List.getElem?_eq_getElem (by omega), h]
  · rw [List.getElem?_eq_none (by omega), List.getElem?_eq_none (by omega)]

/-- C28. Frame of `Copy::Execute`: for a call of rank at least 1 whose region fits both
shapes, the destination keeps its length, and every destination byte that is not byte `b`
of an element `dst_indices + k`, `k` in `[0, lengths)`, of the destination region has
after the call the value that it had before. -/
theorem Copy_Execute_frame (e : Nat) (src dst : List UInt8)
    (src_shape dst_shape src_indices dst_indices lengths : List Nat)
    (hr : 1 ≤ lengths.length)
    (hsi : src_indices.length = lengths.length) (hdi : dst_indices.length = lengths.length)
    (hs : List.Forall₂ (fun a d => a ≤ d)
      (List.zipWith (fun x y => x + y) src_indices lengths) src_shape)
    (hd : List.Forall₂ (fun a d => a ≤ d)
      (List.zipWith (fun x y => x + y) dst_indices lengths) dst_shape)
    (hdst : dst.length = e * dst_shape.prod) (p : Nat)
    (hp : ¬ ∃ k b, InBox k lengths ∧ b < e ∧ p = regionOffset e dst_shape dst_indices k b) :
    (Copy.Execute e src src_shape src_indices dst dst_shape dst_indices lengths).2.length
      = dst.length ∧
    (Copy.Execute e src src_shape src_indices dst dst_shape dst_indices lengths).2[p]?
      = dst[p]? := by
  obtain ⟨hlen, hframe, _⟩ := Copy_Execute_spec e src dst src_shape dst_shape src_indices
    dst_indices lengths hr hsi hdi hs hd hdst
  refine ⟨hlen, getElem?_eq_of_getD_eq hlen (hframe p ?_)⟩
  rintro ⟨k, b, hk, hb, hpk⟩
  exact hp ⟨k, b, hk, hb, by omega⟩

/-- C25, as the claim states it, fails: the region does not fit the source shape `[2, 2]`
in its second dimension (`src_indices[1] + lengths[1] = 1 + 2 > 2`), and `Copy::Execute`
signals no failure. It reads the source bytes at the offsets 1 and 2, inside the four-byte
source span, writes the two bytes of the destination and returns success. -/
theorem Copy_Execute_unfit_region_accepted :
    ¬ (1 + 2 ≤ 2) ∧
    Copy.Execute 1 [1, 2, 3, 4] [2, 2] [0, 1] [9, 9] [1, 2] [0, 0] [1, 2]
      = (Status.ok, [2, 3]) := by
  constructor
  · decide
  · decide

/-- C25, amended. `Copy::Execute` does not compare the region with the shapes; that the
region fits is a precondition. For a call of rank at least 1 whose region fits both shapes,
on spans of the size of the shapes, it returns success and keeps the length of the
destination; the bytes that it writes are exactly the bytes of the destination region:
each of them lies inside the destination span and receives the byte of the source region
at the same position, which lies inside the source span, and every other destination byte
keeps its value. -/
theorem Copy_Execute_fitting_region (e : Nat) (src dst : List UInt8)
    (src_shape dst_shape src_indices dst_indices lengths : List Nat)
    (hr : 1 ≤ lengths.length)
    (hsi : src_indices.length = lengths.length) (hdi : dst_indices.length = lengths.length)
    (hs : List.Forall₂ (fun a d => a ≤ d)
      (List.zipWith (fun x y => x + y) src_indices lengths) src_shape)
    (hd : List.Forall₂ (fun a d => a ≤ d)
      (List.zipWith (fun x y => x + y) dst_indices lengths) dst_shape)
    (hsrc : src.length = e * src_shape.prod) (hdst : dst.length = e * dst_shape.prod) :
    (Copy.Execute e src src_shape src_indices dst dst_shape dst_indices lengths).1
      = Status.ok ∧
    (Copy.Execute e src src_shape src_indices dst dst_shape dst_indices lengths).2.length
      = dst.length ∧
    (∀ k b, InBox k lengths → b < e →
      regionOffset e src_shape src_indices k b < src.length ∧
      regionOffset e dst_shape dst_indices k b < dst.length ∧
      (Copy.Execute e src src_shape src_indices dst dst_shape dst_indices lengths).2[
          regionOffset e dst_shape dst_indices k b]?
        = src[regionOffset e src_shape src_indices k b]?) ∧
    (∀ p, (¬ ∃ k b, InBox k lengths ∧ b < e ∧
        p = regionOffset e dst_shape dst_indices k b) →
      (Copy.Execute e src src_shape src_indices dst dst_shape dst_indices lengths).2[p]?
        = dst[p]?) := by
  obtain ⟨hlen, hframe, hcopy⟩ := Copy_Execute_spec e src dst src_shape dst_shape src_indices
    dst_indices lengths hr hsi hdi hs hd hdst
  refine ⟨rfl, hlen, ?_, ?_⟩
  · intro k b hk hb
    have h1 : regionOffset e src_shape src_indices k b < src.length := by
      rw [hsrc]; exact regionOffset_lt e hk src_indices src_shape hsi hs b hb
    have h2 : regionOffset e dst_shape dst_indices k b < dst.length := by
      rw [hdst]; exact regionOffset_lt e hk dst_indices dst_shape hdi hd b hb
    refine ⟨h1, h2, ?_⟩
    have h := hcopy k b hk hb
    simp only [Nat.zero_add] at h
    rw [List.getD_eq_getElem _ _ (by omega), List.getD_eq_getElem _ _ h1] at h
    rw [List.getElem?_eq_getElem (by omega), List.getElem?_eq_getElem h1, h]
  · intro p hp
    refine getElem?_eq_of_getD_eq hlen (hframe p ?_)
    rintro ⟨k, b, hk, hb, hpk⟩
    exact hp ⟨k, b, hk, hb, by omega⟩


/-! ### Div on integer element types -/

theorem tdiv_sign_bounds (a b : Int) :
    (0 ≤ a * b → 0 ≤ Int.tdiv a b) ∧ (a * b ≤ 0 → Int.tdiv a b ≤ 0) := by
  rcases (by omega : a = 0 ∨ 0 < a ∨ a < 0) with ha | ha | ha
  · subst ha; simp
  · rcases (by omega : b = 0 ∨ 0 < b ∨ b < 0) with hb | hb | hb
    · subst hb; simp
    · refine ⟨fun _ => Int.tdiv_nonneg (by omega) (by omega), fun h => ?_⟩
      have := Int.mul_pos ha hb
      omega
    · refine ⟨fun h => ?_, fun _ => Int.tdiv_nonpos (by omega) (by omega)⟩
      have := Int.mul_neg_of_pos_of_neg ha hb
      omega
  · rcases (by omega : b = 0 ∨ 0 < b ∨ b < 0) with hb | hb | hb
    · subst hb; simp
    · have hq : Int.tdiv a b = -(Int.tdiv (-a) b) := by rw [Int.neg_tdiv, Int.neg_neg]
      have hnn : 0 ≤ Int.tdiv (-a) b := Int.tdiv_nonneg (by omega) (by omega)
      refine ⟨fun h => ?_, fun _ => by omega⟩
      have := Int.mul_neg_of_neg_of_pos ha hb
      omega
    · have hq : Int.tdiv a b = Int.tdiv (-a) (-b) := by rw [Int.neg_tdiv_neg]
      have hnn : 0 ≤ Int.tdiv (-a) (-b) := Int.tdiv_nonneg (by omega) (by omega)
      refine ⟨fun _ => by omega, fun h => ?_⟩
      have := Int.mul_pos_of_neg_of_neg ha hb
      omega

theorem natAbs_tdiv_eq (a b : Int) : (Int.tdiv a b).natAbs = a.natAbs / b.natAbs :=
  Int.natAbs_tdiv a b

theorem nat_div_eq_self {n k : Nat} (hn : 0 < n) (h : n / k = n) : k = 1 := by
  rcases Nat.lt_trichotomy k 1 with hk | hk | hk
  · have : k = 0 := by omega
    subst this
    simp at h
    omega
  · exact hk
  · have := Nat.div_lt_self hn hk
    omega

theorem two_pow_bits (bits : Nat) (h : 1 ≤ bits) :
    (2 : Int) ^ bits = 2 * 2 ^ (bits - 1) := by
  obtain ⟨n, rfl⟩ : ∃ n, bits = n + 1 := ⟨bits - 1, by omega⟩
  rw [Nat.add_sub_cancel, pow_succ]
  ring

theorem IntType_convert_of_inRange (t : IntType) (hbits : 1 ≤ t.bits) (x : Int)
    (h1 : t.minValue ≤ x) (h2 : x ≤ t.maxValue) : t.convert x = x := by
  unfold IntType.convert
  unfold IntType.minValue at h1
  unfold IntType.maxValue at h2
  have hpow := two_pow_bits t.bits hbits
  have hpos : (0 : Int) < 2 ^ (t.bits - 1) := by positivity
  cases hs : t.isSigned
  · simp only [hs, Bool.false_eq_true, if_false] at h1 h2 ⊢
    exact Int.emod_eq_of_lt h1 (by omega)
  · simp only [hs, if_true] at h1 h2 ⊢
    rw [Int.emod_eq_of_lt (by omega) (by omega)]
    omega

theorem tdiv_inRange (t : IntType) (a b : Int)
    (ha1 : t.minValue ≤ a) (ha2 : a ≤ t.maxValue) (hb1 : t.minValue ≤ b)
    (hov : ¬ (a = t.minValue ∧ b = -1)) :
    t.minValue ≤ Int.tdiv a b ∧ Int.tdiv a b ≤ t.maxValue := by
  have hnat := natAbs_tdiv_eq a b
  have hle : a.natAbs / b.natAbs ≤ a.natAbs := Nat.div_le_self _ _
  unfold IntType.minValue at ha1 hb1 hov ⊢
  unfold IntType.maxValue at ha2 ⊢
  have hpos : (0 : Int) < 2 ^ (t.bits - 1) := by positivity
  cases hs : t.isSigned
  · simp only [hs, Bool.false_eq_true, if_false] at ha1 ha2 hb1 ⊢
    have hq := Int.tdiv_nonneg ha1 hb1
    omega
  · simp only [hs, if_true] at ha1 ha2 hb1 hov ⊢
    refine ⟨by omega, ?_⟩
    by_contra hgt
    have hq : (Int.tdiv a b).natAbs = a.natAbs := by omega
    have hapos : 0 < a.natAbs := by omega
    rw [hq] at hnat
    have hb : b.natAbs = 1 := nat_div_eq_self hapos hnat.symm
    have ha : a = -(2 ^ (t.bits - 1)) := by omega
    rcases Int.natAbs_eq b with h | h
    · rw [hb] at h
      have hb1' : b = 1 := by simpa using h
      rw [hb1', Int.tdiv_one] at hgt
      omega
    · rw [hb] at h
      have hbm : b = -1 := by simpa using h
      exact hov ⟨ha, hbm⟩

theorem IntType_div_defined (t : IntType) (hbits : 1 ≤ t.bits) (a b : Int)
    (ha1 : t.minValue ≤ a) (ha2 : a ≤ t.maxValue) (hb1 : t.minValue ≤ b)
    (hb0 : b ≠ 0) (hov : ¬ (a = t.minValue ∧ b = -1)) :
    t.div a b = some (Int.tdiv a b) := by
  obtain ⟨h1, h2⟩ := tdiv_inRange t a b ha1 ha2 hb1 hov
  unfold IntType.div
  rw [if_neg hb0, if_neg (fun h => hov ⟨h.2.2.1, h.2.2.2⟩),
    IntType_convert_of_inRange t hbits _ h1 h2]

theorem Div_loop (t : IntType) (lhs rhs : List Int) (n : Nat)
    (hdef : ∀ i, i < n → t.div (lhs.getD i default) (rhs.getD i default)
      = some (Int.tdiv (lhs.getD i default) (rhs.getD i default))) :
    ∀ (dst : List Int),
      (List.range n).foldl
        (fun (st : Option (List Int)) i =>
          match st with
          | none => none
          | some dst =>
            (t.div (lhs.getD i default) (rhs.getD i default)).map (fun q => dst.set i q))
        (some dst)
      = some ((List.range n).foldl
          (fun d i => d.set i (Int.tdiv (lhs.getD i default) (rhs.getD i default))) dst) := by
  induction n with
  | zero => intro dst; rfl
  | succ m ih =>
    intro dst
    rw [List.range_succ, List.foldl_append, List.foldl_append,
      ih (fun i hi => hdef i (by omega))]
    simp only [List.foldl_cons, List.foldl_nil, hdef m (by omega), Option.map_some']

/-- C23. `Div::Execute` on an integer element type of at least one bit, signed or not:
for inputs of the length of the destination, whose elements are values of the type, with
no zero in `rhs` and no pair of the least value of the type divided by `-1`, the call is
defined and succeeds, keeps the length of the destination, and writes at every index `i`
the quotient `q` of `lhs[i]` by `rhs[i]` rounded toward zero: its magnitude is the floor of
the quotient of the magnitudes, `0 ≤ q` when the operands do not have opposite signs and
`q ≤ 0` when they do not have the same sign; it is the value `Int.tdiv lhs[i] rhs[i]`. For
example `-7 / 2 = -3` in a signed type of 32 bits. -/
theorem Div_Execute_truncates (t : IntType) (hbits : 1 ≤ t.bits) (lhs rhs dst : List Int)
    (hl : lhs.length = dst.length) (hr : rhs.length = dst.length)
    (hlr : ∀ x ∈ lhs, t.minValue ≤ x ∧ x ≤ t.maxValue)
    (hrr : ∀ y ∈ rhs, t.minValue ≤ y ∧ y ≤ t.maxValue)
    (hnz : ∀ y ∈ rhs, y ≠ 0)
    (hov : ∀ i (hi : i < dst.length), ¬ (lhs[i] = t.minValue ∧ rhs[i] = -1)) :
    (∃ out, Div.Execute t lhs rhs dst = some (Status.ok, out) ∧
      out.length = dst.length ∧
      ∀ i (hi : i < dst.length), ∃ q,
        out[i]? = some q ∧ q = Int.tdiv lhs[i] rhs[i] ∧
        q.natAbs = lhs[i].natAbs / rhs[i].natAbs ∧
        (0 ≤ lhs[i] * rhs[i] → 0 ≤ q) ∧ (lhs[i] * rhs[i] ≤ 0 → q ≤ 0)) ∧
    Div.Execute { bits := 32, isSigned := true } [-7] [2] [0] = some (Status.ok, [-3]) := by
  refine ⟨?_, by decide⟩
  have hdef : ∀ i, i < dst.length → t.div (lhs.getD i default) (rhs.getD i default)
      = some (Int.tdiv (lhs.getD i default) (rhs.getD i default)) := by
    intro i hi
    have hil : i < lhs.length := by omega
    have hir : i < rhs.length := by omega
    rw [List.getD_eq_getElem _ _ hil, List.getD_eq_getElem _ _ hir]
    have hL := hlr lhs[i] (List.getElem_mem hil)
    have hR := hrr rhs[i] (List.getElem_mem hir)
    exact IntType_div_defined t hbits _ _ hL.1 hL.2 hR.1 (hnz _ (List.getElem_mem hir))
      (hov i hi)
  refine ⟨(List.range dst.length).foldl
    (fun d i => d.set i (Int.tdiv (lhs.getD i default) (rhs.getD i default))) dst, ?_, ?_, ?_⟩
  · exact congrArg (Option.map (fun d => (Status.ok, d)))
      (Div_loop t lhs rhs dst.length hdef dst)
  · exact elementwise_length _ dst
  · intro i hi
    have hil : i < lhs.length := by omega
    have hir : i < rhs.length := by omega
    refine ⟨Int.tdiv lhs[i] rhs[i], ?_, rfl, natAbs_tdiv_eq _ _, (tdiv_sign_bounds _ _).1,
      (tdiv_sign_bounds _ _).2⟩
    rw [elementwise_getElem? _ dst i hi, List.getD_eq_getElem _ _ hil,
      List.getD_eq_getElem _ _ hir]


/-! ### Reductions: the walk visits every source element once -/

theorem foldl_append_eq_flatten {α β : Type} (g : β → List α) (l : List β) :
    ∀ init : List α, l.foldl (fun acc k => acc ++ g k) init = init ++ (l.map g).flatten := by
  induction l with
  | nil => intro init; simp
  | cons a l ih => intro init; simp [ih, List.append_assoc]

theorem flatten_map_singleton {α β : Type} (f : β → α) (l : List β) :
    (l.map (fun k => [f k])).flatten = l.map f := by
  induction l with
  | nil => rfl
  | cons a l ih => simp [ih]

theorem reductionLog_length (s : Shape) (dim : Nat) (hdim : dim < s.length)
    (dst : List (List Nat)) (hdst : dst.length = (s.eraseIdx dim).prod) :
    (reductionLog s dim dst).length = dst.length := by
  by_cases h0 : dst.length = 0
  · have hnil : dst = [] := List.length_eq_zero.mp h0
    subst hnil
    unfold reductionLog impl.GenericReduce
    simp only [List.length_nil, List.replicate_zero]
    have hlen : ∀ (n : Nat) (st : List (List Nat) × List Nat) (f str : Nat),
        st.1 = [] →
        (impl.ReduceDimension (fun acc x => acc ++ x)
          ((List.range s.prod).map (fun i => [i])) s [dim]
          ((List.range (s.eraseIdx dim).length).reverse.foldl
            (fun (st : List Nat × Nat) dim_i =>
              (st.1 ++ [st.2], st.2 * (s.eraseIdx dim).getD dim_i 0)) ([], 1)).1
          n st f str).1 = [] := by
      intro n
      induction n with
      | zero =>
        intro st f str hst
        simp [impl.ReduceDimension, hst]
      | succ m ih =>
        intro st f str hst
        simp only [impl.ReduceDimension]
        generalize (List.range (s.getD m 0)) = L
        induction L generalizing st with
        | nil => simpa using hst
        | cons a L ihL =>
          simp only [List.foldl_cons]
          exact ihL _ (ih _ _ _ hst)
    rw [hlen _ _ _ _ rfl]
    rfl
  · have hpos : 0 < (s.eraseIdx dim).prod := by omega
    obtain ⟨hbox, _⟩ := unflatIndex_spec (s.eraseIdx dim) 0 hpos
    exact (GenericReduce_spec (fun acc x => acc ++ x) _ dst [] s dim hdim hdst _ hbox).2.1

theorem reductionLog_getElem (s : Shape) (dim : Nat) (hdim : dim < s.length)
    (dst : List (List Nat)) (hdst : dst.length = (s.eraseIdx dim).prod) (p : Nat)
    (hp : p < (reductionLog s dim dst).length) :
    (reductionLog s dim dst)[p]
      = (List.range (s.getD dim 0)).map
          (fun k => flatIndex s ((unflatIndex (s.eraseIdx dim) p).insertIdx dim k)) := by
  have hlen := reductionLog_length s dim hdim dst hdst
  have hpd : p < (s.eraseIdx dim).prod := by omega
  obtain ⟨hbox, hflat⟩ := unflatIndex_spec (s.eraseIdx dim) p hpd
  have h := (GenericReduce_spec (fun acc x => acc ++ x)
    ((List.range s.prod).map (fun i => [i])) dst [] s dim hdim hdst _ hbox).2.2
  rw [hflat] at h
  have hget : (reductionLog s dim dst)[p] = (reductionLog s dim dst).getD p default :=
    (List.getD_eq_getElem _ _ hp).symm
  rw [hget]
  unfold reductionLog
  rw [h, foldl_append_eq_flatten, List.nil_append,
    ← flatten_map_singleton
      (fun k => flatIndex s ((unflatIndex (s.eraseIdx dim) p).insertIdx dim k))]
  congr 1
  apply List.map_congr_left
  intro k hk
  have hk' : k < s.getD dim 0 := List.mem_range.mp hk
  have hlt := flatIndex_lt (inBox_insertIdx dim s _ k hdim hbox hk')
  rw [List.getD_eq_getElem _ _ (by simpa using hlt)]
  simp

theorem reduction_visit_inj (s : Shape) (dim : Nat) (hdim : dim < s.length) (p p' k k' : Nat)
    (hp : p < (s.eraseIdx dim).prod) (hp' : p' < (s.eraseIdx dim).prod)
    (hk : k < s.getD dim 0) (hk' : k' < s.getD dim 0)
    (h : flatIndex s ((unflatIndex (s.eraseIdx dim) p).insertIdx dim k)
      = flatIndex s ((unflatIndex (s.eraseIdx dim) p').insertIdx dim k')) :
    p = p' ∧ k = k' := by
  obtain ⟨hbox, hflat⟩ := unflatIndex_spec (s.eraseIdx dim) p hp
  obtain ⟨hbox', hflat'⟩ := unflatIndex_spec (s.eraseIdx dim) p' hp'
  have heq := flatIndex_inj (inBox_insertIdx dim s _ k hdim hbox hk)
    (inBox_insertIdx dim s _ k' hdim hbox' hk') h
  have hj : unflatIndex (s.eraseIdx dim) p = unflatIndex (s.eraseIdx dim) p' := by
    have := congrArg (fun l => l.eraseIdx dim) heq
    simpa [List.eraseIdx_insertIdx] using this
  have hl : dim ≤ (unflatIndex (s.eraseIdx dim) p).length := by
    rw [unflatIndex_length, List.length_eraseIdx]
    simp only [hdim, if_true]
    omega
  have hl' : dim ≤ (unflatIndex (s.eraseIdx dim) p').length := by
    rw [← hj]; exact hl
  refine ⟨by rw [← hflat, ← hflat', hj], ?_⟩
  have h1 := List.getElem_insertIdx_self (unflatIndex (s.eraseIdx dim) p) k dim hl
  have h2 := List.getElem_insertIdx_self (unflatIndex (s.eraseIdx dim) p') k' dim hl'
  rw [← h1, ← h2]
  simp only [heq]

theorem reductionLog_eq (s : Shape) (dim : Nat) (hdim : dim < s.length)
    (dst : List (List Nat)) (hdst : dst.length = (s.eraseIdx dim).prod) :
    reductionLog s dim dst
      = (List.range (s.eraseIdx dim).prod).map (fun p =>
          (List.range (s.getD dim 0)).map
            (fun k => flatIndex s ((unflatIndex (s.eraseIdx dim) p).insertIdx dim k))) := by
  have hlen := reductionLog_length s dim hdim dst hdst
  apply List.ext_getElem
  · simp [hlen, hdst]
  · intro p hp1 hp2
    rw [reductionLog_getElem s dim hdim dst hdst p hp1, List.getElem_map, List.getElem_range]

theorem reductionLog_flatten_perm (s : Shape) (dim : Nat) (hdim : dim < s.length)
    (dst : List (List Nat)) (hdst : dst.length = (s.eraseIdx dim).prod) :
    (reductionLog s dim dst).flatten.Perm (List.range s.prod) := by
  rw [reductionLog_eq s dim hdim dst hdst]
  have hnodup : ((List.range (s.eraseIdx dim).prod).flatMap (fun p =>
      (List.range (s.getD dim 0)).map
        (fun k => flatIndex s ((unflatIndex (s.eraseIdx dim) p).insertIdx dim k)))).Nodup := by
    rw [List.nodup_flatMap]
    constructor
    · intro p hp
      have hp' := List.mem_range.mp hp
      apply List.Nodup.map_on _ (List.nodup_range _)
      intro k hk k' hk' h
      exact (reduction_visit_inj s dim hdim p p k k' hp' hp' (List.mem_range.mp hk)
        (List.mem_range.mp hk') h).2
    · apply List.Pairwise.imp_of_mem _ (List.nodup_range _)
      intro p p' hp hp' hne
      show List.Disjoint _ _
      intro x hx hx'
      simp only [List.mem_map, List.mem_range] at hx hx'
      obtain ⟨k, hk, rfl⟩ := hx
      obtain ⟨k', hk', h⟩ := hx'
      exact hne (reduction_visit_inj s dim hdim p p' k k' (List.mem_range.mp hp)
        (List.mem_range.mp hp') hk hk' h.symm).1
  have hnodup' : ((List.range (s.eraseIdx dim).prod).map (fun p =>
      (List.range (s.getD dim 0)).map
        (fun k => flatIndex s ((unflatIndex (s.eraseIdx dim) p).insertIdx dim k)))).flatten.Nodup :=
    hnodup
  rw [List.perm_ext_iff_of_nodup hnodup' (List.nodup_range _)]
  intro i
  simp only [List.mem_flatten, List.mem_map, List.mem_range, exists_exists_and_eq_and]
  constructor
  · rintro ⟨p, hp, k, hk, rfl⟩
    obtain ⟨hbox, _⟩ := unflatIndex_spec (s.eraseIdx dim) p hp
    exact flatIndex_lt (inBox_insertIdx dim s _ k hdim hbox hk)
  · intro hi
    obtain ⟨hbox, hflat⟩ := unflatIndex_spec s i hi
    have hj := inBox_eraseIdx hbox dim
    have hlen : dim < (unflatIndex s i).length := by rw [unflatIndex_length]; exact hdim
    have hk : (unflatIndex s i).getD dim 0 < s.getD dim 0 :=
      ((inBox_iff_getD _ _).mp hbox).2 dim hdim
    refine ⟨flatIndex (s.eraseIdx dim) ((unflatIndex s i).eraseIdx dim), flatIndex_lt hj,
      (unflatIndex s i).getD dim 0, hk, ?_⟩
    rw [flatIndex_unflat_of_inBox hj, insertIdx_eraseIdx_getD dim _ hlen, hflat]

/-- C27, as the claim states it, fails: for the source shape `[2, 0]` and the reduction
axis 1 the destination has two elements and the source none, and the walk applies the
combine operator to no destination element. -/
theorem GenericReduce_empty_axis_no_visit :
    (1 : Nat) < ([2, 0] : Shape).length ∧
    (([2, 0] : Shape).eraseIdx 1).prod = 2 ∧
    reductionLog [2, 0] 1 [[], []] = [[], []] := by
  decide

/-- C27, amended. For every source shape, every reduction axis `dim` of it along which
the shape has at least one element and every destination of the size of the shape without
that axis, the walk of `impl::GenericReduce`, which `ReduceSum`, `ReduceMin` and
`ReduceMax` share, applies the combine operator at every source linear index exactly once
(the concatenation of the logs of the destination elements is a permutation of
`0, ..., product(s) - 1`) and to every destination element at least once (exactly
`s[dim]` times). -/
theorem GenericReduce_visits_once (s : Shape) (dim : Nat) (hdim : dim < s.length)
    (hpos : 1 ≤ s.getD dim 0) (dst : List (List Nat))
    (hdst : dst.length = (s.eraseIdx dim).prod) :
    (reductionLog s dim dst).length = dst.length ∧
    (reductionLog s dim dst).flatten.Perm (List.range s.prod) ∧
    ∀ p (hp : p < (reductionLog s dim dst).length),
      (reductionLog s dim dst)[p].length = s.getD dim 0 ∧
      1 ≤ (reductionLog s dim dst)[p].length := by
  refine ⟨reductionLog_length s dim hdim dst hdst,
    reductionLog_flatten_perm s dim hdim dst hdst, ?_⟩
  intro p hp
  rw [reductionLog_getElem s dim hdim dst hdst p hp]
  simp only [List.length_map, List.length_range]
  exact ⟨trivial, hpos⟩


/-! ### Transpose: the offset map is a bijection -/

theorem inversePerm_inversePerm {perm : List Nat} {r : Nat}
    (hperm : perm.Perm (List.range r)) : inversePerm (inversePerm perm) = perm := by
  have hpl : perm.length = r := by simpa using hperm.length_eq
  have hinv := inversePerm_perm hperm
  apply List.ext_getElem
  · simp [inversePerm_length]
  · intro k h1 h2
    have hk : k < r := by omega
    have e1 := inversePerm_getD hinv hk
    rw [List.getD_eq_getElem _ _ h1] at e1
    rw [e1]
    have hp : perm.getD k 0 < r := perm_getD_lt hperm hk
    have e2 := inversePerm_getD hperm hp
    rw [perm_indexOf_getD hperm hk] at e2
    have e3 := perm_indexOf_getD hinv hp
    rw [e2] at e3
    rw [e3, List.getD_eq_getElem _ _ h2]

theorem Transpose_srcIndex_left_inverse (s : Shape) (perm : List Nat)
    (hperm : perm.Perm (List.range s.length)) (n : Nat) (hn : n < s.prod) :
    Transpose.srcIndex (Transpose.strides s perm).1 (Transpose.strides s perm).2 perm
        s.length n < s.prod ∧
    Transpose.srcIndex (Transpose.strides (permuteShape s perm) (inversePerm perm)).1
        (Transpose.strides (permuteShape s perm) (inversePerm perm)).2 (inversePerm perm)
        (permuteShape s perm).length
        (Transpose.srcIndex (Transpose.strides s perm).1 (Transpose.strides s perm).2 perm
          s.length n) = n := by
  have hpl : perm.length = s.length := by simpa using hperm.length_eq
  have hdl : (permuteShape s perm).length = s.length := by rw [permuteShape_length, hpl]
  have hinv : (inversePerm perm).Perm (List.range (permuteShape s perm).length) := by
    rw [hdl]; exact inversePerm_perm hperm
  have hprod := permuteShape_prod s perm hperm
  have h := Transpose_srcIndex_roundtrip (permuteShape s perm) (inversePerm perm) hinv n
    (by rw [hprod]; exact hn)
  simp only [permuteShape_inverse s perm hperm, inversePerm_inversePerm hperm, hprod] at h
  exact h

/-- C31. For every source shape `s` and every permutation `perm` of its axes, the map from
the destination offset `dst_i` to the source offset `src_i` that `Transpose::Execute`
computes is a bijection of `[0, product(s))` onto itself: it maps the range into itself, is
injective on it and reaches every offset of it. Hence the source offsets read for
`dst_i = 0, 1, ..., product(s) - 1` are a permutation of `0, ..., product(s) - 1`: every
read is in bounds and every source element is read exactly once. -/
theorem Transpose_srcIndex_bijective (s : Shape) (perm : List Nat)
    (hperm : perm.Perm (List.range s.length)) :
    (∀ n, n < s.prod →
      Transpose.srcIndex (Transpose.strides s perm).1 (Transpose.strides s perm).2 perm
        s.length n < s.prod) ∧
    (∀ n n', n < s.prod → n' < s.prod →
      Transpose.srcIndex (Transpose.strides s perm).1 (Transpose.strides s perm).2 perm
        s.length n
      = Transpose.srcIndex (Transpose.strides s perm).1 (Transpose.strides s perm).2 perm
        s.length n' → n = n') ∧
    (∀ m, m < s.prod → ∃ n, n < s.prod ∧
      Transpose.srcIndex (Transpose.strides s perm).1 (Transpose.strides s perm).2 perm
        s.length n = m) ∧
    ((List.range s.prod).map
      (Transpose.srcIndex (Transpose.strides s perm).1 (Transpose.strides s perm).2 perm
        s.length)).Perm (List.range s.prod) := by
  have hinto := fun n hn => (Transpose_srcIndex_left_inverse s perm hperm n hn).1
  have hinj : ∀ n n', n < s.prod → n' < s.prod →
      Transpose.srcIndex (Transpose.strides s perm).1 (Transpose.strides s perm).2 perm
        s.length n
      = Transpose.srcIndex (Transpose.strides s perm).1 (Transpose.strides s perm).2 perm
        s.length n' → n = n' := by
    intro n n' hn hn' h
    have e1 := (Transpose_srcIndex_left_inverse s perm hperm n hn).2
    have e2 := (Transpose_srcIndex_left_inverse s perm hperm n' hn').2
    rw [h] at e1
    rw [← e1, e2]
  refine ⟨hinto, hinj, ?_, ?_⟩
  · intro m hm
    have h := Transpose_srcIndex_roundtrip s perm hperm m hm
    exact ⟨_, h.1, h.2⟩
  · have hnd : ((List.range s.prod).map
        (Transpose.srcIndex (Transpose.strides s perm).1 (Transpose.strides s perm).2 perm
          s.length)).Nodup := by
      apply List.Nodup.map_on _ (List.nodup_range _)
      intro x hx y hy hxy
      exact hinj x y (List.mem_range.mp hx) (List.mem_range.mp hy) hxy
    apply (List.subperm_of_subset hnd ?_).perm_of_length_le
    · simp
    · intro x hx
      simp only [List.mem_map, List.mem_range] at hx
      obtain ⟨n, hn, rfl⟩ := hx
      exact List.mem_range.mpr (hinto n hn)


/-! ### Pad: the source cursor stays inside the source -/

/-- C32. For every source shape `s`, non-negative low, high and interior padding and the
destination shape `d[i] = low[i] + high[i] + s[i] + max(s[i]-1, 0) * interior[i]`: the
number of destination positions (row-major offsets below `product(d)`, one for each
multi-index of `d`) at which `impl::IsPadding` is false is `product(s)`; and in every
iteration of the loop of `Pad::Execute` that takes the copy branch the source cursor is
below the length of the source, which is what the `DCHECK` of that branch asserts. -/
theorem Pad_Execute_cursor_in_bounds {T : Type} [Inhabited T] (src : List T) (v : T)
    (s low high interior : List Nat)
    (hl : low.length = s.length) (hh : high.length = s.length)
    (hi : interior.length = s.length)
    (dst : List T) (hdst : dst.length = (padShape s low high interior).prod)
    (hsrc : src.length = s.prod) :
    Nat.count (notPadding s low high interior) (padShape s low high interior).prod = s.prod ∧
    ∀ n, n < dst.length →
      impl.IsPadding
        ((List.range n).foldl
          (Pad.step src v (padShape s low high interior) (low.map Int.ofNat)
            (high.map Int.ofNat) (interior.map Int.ofNat))
          (0, List.replicate s.length 0, dst)).2.1
        (padShape s low high interior) (low.map Int.ofNat) (high.map Int.ofNat)
        (interior.map Int.ofNat) = false →
      ((List.range n).foldl
          (Pad.step src v (padShape s low high interior) (low.map Int.ofNat)
            (high.map Int.ofNat) (interior.map Int.ofNat))
          (0, List.replicate s.length 0, dst)).1 < src.length := by
  have hcount := (count_notPadding s low high interior hl hh hi).1
  refine ⟨hcount, ?_⟩
  intro n hn hpad
  obtain ⟨h1, h2, _, _⟩ := Pad_loop src v s low high interior hl hh hi dst hdst n (by omega)
  rw [h2 hn] at hpad
  rw [h1, hsrc, ← hcount]
  have hnp : notPadding s low high interior n := hpad
  have hsucc : Nat.count (notPadding s low high interior) (n + 1)
      = Nat.count (notPadding s low high interior) n + 1 := by
    rw [Nat.count_succ, if_pos hnp]
  have hmono : Nat.count (notPadding s low high interior) (n + 1)
      ≤ Nat.count (notPadding s low high interior) (padShape s low high interior).prod :=
    Nat.count_monotone _ (by omega)
  omega


/-! ## Instances of the theorems at concrete inputs -/

theorem Transpose_Execute_inverse_roundtrip_witness :
    ([1, 0] : List Nat).Perm (List.range [2, 3].length) ∧
    (Transpose.Execute (Transpose.Execute ([1, 2, 3, 4, 5, 6] : List Int) [0, 0, 0, 0, 0, 0]
        [2, 3] [1, 0]).2 [0, 0, 0, 0, 0, 0] (permuteShape [2, 3] [1, 0])
        (inversePerm [1, 0])).2 = [1, 2, 3, 4, 5, 6] :=
  ⟨by decide,
   Transpose_Execute_inverse_roundtrip ([1, 2, 3, 4, 5, 6] : List Int) [0, 0, 0, 0, 0, 0]
     [0, 0, 0, 0, 0, 0] [2, 3] [1, 0] (by decide) rfl rfl rfl⟩

theorem Transpose_Execute_permutes_axes_witness :
    InBox [2, 1] (permuteShape [2, 3] [1, 0]) ∧
    (Transpose.Execute ([1, 2, 3, 4, 5, 6] : List Int) [0, 0, 0, 0, 0, 0] [2, 3] [1, 0]).2[
        flatIndex (permuteShape [2, 3] [1, 0]) [2, 1]]?
      = ([1, 2, 3, 4, 5, 6] : List Int)[flatIndex [2, 3] [1, 2]]? :=
  ⟨List.Forall₂.cons (by decide) (List.Forall₂.cons (by decide) List.Forall₂.nil),
   (Transpose_Execute_permutes_axes ([1, 2, 3, 4, 5, 6] : List Int) [0, 0, 0, 0, 0, 0] [2, 3]
     [1, 0] (by decide) rfl rfl [2, 1] [1, 2]
     (List.Forall₂.cons (by decide) (List.Forall₂.cons (by decide) List.Forall₂.nil)) rfl
     (by decide)).2.2⟩

theorem Tile_Execute_mod_witness :
    InBox [3] [4] ∧
    (Tile.Execute ([1, 2] : List Int) [0, 0, 0, 0] [2] [4]).2[flatIndex [4] [3]]?
      = ([1, 2] : List Int)[flatIndex [2] (List.zipWith (fun x y => x % y) [3] [2])]? :=
  ⟨List.Forall₂.cons (by decide) List.Forall₂.nil,
   (Tile_Execute_mod ([1, 2] : List Int) [0, 0, 0, 0] [2] [4] (by decide) rfl rfl rfl [3]
     (List.Forall₂.cons (by decide) List.Forall₂.nil)).1.2.2⟩

theorem Copy_Execute_copies_region_witness :
    List.Forall₂ (fun a d => a ≤ d) (List.zipWith (fun x y => x + y) [1, 1] [2, 2]) [3, 4] ∧
    List.Forall₂ (fun a d => a ≤ d) (List.zipWith (fun x y => x + y) [0, 1] [2, 2]) [2, 3] ∧
    InBox [1, 0] [2, 2] ∧
    (Copy.Execute 1 [1, 2, 3, 4, 5, 6, 7, 8, 9, 10, 11, 12] [3, 4] [1, 1] [0, 0, 0, 0, 0, 0]
        [2, 3] [0, 1] [2, 2]).2[
        1 * flatIndex [2, 3] (List.zipWith (fun x y => x + y) [0, 1] [1, 0]) + 0]?
      = ([1, 2, 3, 4, 5, 6, 7, 8, 9, 10, 11, 12] : List UInt8)[
        1 * flatIndex [3, 4] (List.zipWith (fun x y => x + y) [1, 1] [1, 0]) + 0]? :=
  ⟨List.Forall₂.cons (by decide) (List.Forall₂.cons (by decide) List.Forall₂.nil),
   List.Forall₂.cons (by decide) (List.Forall₂.cons (by decide) List.Forall₂.nil),
   List.Forall₂.cons (by decide) (List.Forall₂.cons (by decide) List.Forall₂.nil),
   (Copy_Execute_copies_region 1 [1, 2, 3, 4, 5, 6, 7, 8, 9, 10, 11, 12] [0, 0, 0, 0, 0, 0]
     [3, 4] [2, 3] [1, 1] [0, 1] [2, 2] (by decide) rfl rfl
     (List.Forall₂.cons (by decide) (List.Forall₂.cons (by decide) List.Forall₂.nil))
     (List.Forall₂.cons (by decide) (List.Forall₂.cons (by decide) List.Forall₂.nil))
     rfl rfl [1, 0]
     (List.Forall₂.cons (by decide) (List.Forall₂.cons (by decide) List.Forall₂.nil))
     0 (by decide)).2.2⟩

theorem Copy_Execute_full_roundtrip_witness :
    (1 ≤ [2, 2].length ∧
      (Copy.Execute 1
        (Copy.Execute 1 [1, 2, 3, 4] [2, 2] (List.replicate [2, 2].length 0) [0, 0, 0, 0]
          [2, 2] (List.replicate [2, 2].length 0) [2, 2]).2
        [2, 2] (List.replicate [2, 2].length 0) [9, 9, 9, 9] [2, 2]
        (List.replicate [2, 2].length 0) [2, 2]).2 = [1, 2, 3, 4]) ∧
    (Copy.Execute 2 (Copy.Execute 2 [5, 6] [] [0] [0, 0] [] [0] [1]).2 [] [0] [9, 9] [] [0]
      [1]).2 = [5, 6] :=
  ⟨⟨by decide,
    (Copy_Execute_full_roundtrip 1 [1, 2, 3, 4] [0, 0, 0, 0] [9, 9, 9, 9] [2, 2]
      rfl rfl rfl).1 (by decide)⟩,
   (Copy_Execute_full_roundtrip 2 [5, 6] [0, 0] [9, 9] [] rfl rfl rfl).2 rfl⟩

theorem Pad_Execute_spec_witness :
    InBox [2] [3] ∧
    (Pad.Execute ([1, 2, 3] : List Int) [0] [9, 9, 9, 9, 9] [3] (padShape [3] [1] [1] [0])
        ([1].map Int.ofNat) ([1].map Int.ofNat) ([0].map Int.ofNat)).2[
        flatIndex (padShape [3] [1] [1] [0]) (padIndex [2] [1] [0])]?
      = ([1, 2, 3] : List Int)[flatIndex [3] [2]]? :=
  ⟨List.Forall₂.cons (by decide) List.Forall₂.nil,
   ((Pad_Execute_spec ([1, 2, 3] : List Int) [9, 9, 9, 9, 9] 0 [3] [1] [1] [0] rfl rfl rfl rfl
     rfl).1.2.1 [2] (List.Forall₂.cons (by decide) List.Forall₂.nil)).1⟩

theorem Pad_Execute_bad_fill_witness :
    ([0, 0] : List Int).length ≠ 1 ∧
    Pad.Execute ([1, 2, 3] : List Int) [0, 0] [9, 9, 9, 9, 9] [3] [5] [1] [1] [0]
      = (Status.invalidArgument, [9, 9, 9, 9, 9]) :=
  ⟨by decide,
   Pad_Execute_bad_fill ([1, 2, 3] : List Int) [0, 0] [9, 9, 9, 9, 9] [3] [5] [1] [1] [0]
     (by decide)⟩

theorem ReduceSum_Execute_sums_axis_witness :
    InBox [1] (List.eraseIdx [2, 3] 0) ∧
    (ReduceSum.Execute ([1, 2, 3, 4, 5, 6] : List Int) [0] [0, 0, 0] 0 [2, 3]
        (List.eraseIdx [2, 3] 0)).2[flatIndex (List.eraseIdx [2, 3] 0) [1]]?
      = some ((List.range (List.getD [2, 3] 0 0)).foldl
          (fun acc k =>
            acc + ([1, 2, 3, 4, 5, 6] : List Int).getD
              (flatIndex [2, 3] (List.insertIdx 0 k [1])) default) 0) :=
  ⟨List.Forall₂.cons (by decide) List.Forall₂.nil,
   (ReduceSum_Execute_sums_axis ([1, 2, 3, 4, 5, 6] : List Int) [0, 0, 0] 0 [2, 3] 0
     (by decide) rfl rfl [1] (List.Forall₂.cons (by decide) List.Forall₂.nil)).1.2.2⟩

theorem Reverse_Execute_flips_axes_witness :
    InBox [1, 0] [2, 3] ∧
    (Reverse.Execute ([1, 2, 3, 4, 5, 6] : List Int) [0, 0, 0, 0, 0, 0] [2, 3] [1]).2[
        flatIndex [2, 3] [1, 0]]?
      = ([1, 2, 3, 4, 5, 6] : List Int)[flatIndex [2, 3] [1, 2]]? :=
  ⟨List.Forall₂.cons (by decide) (List.Forall₂.cons (by decide) List.Forall₂.nil),
   (Reverse_Execute_flips_axes ([1, 2, 3, 4, 5, 6] : List Int) [0, 0, 0, 0, 0, 0] [2, 3] [1]
     rfl rfl [1, 0] [1, 2]
     (List.Forall₂.cons (by decide) (List.Forall₂.cons (by decide) List.Forall₂.nil)) rfl
     (by decide)).2.2⟩

theorem Select_Execute_spec_witness :
    (Select.Execute [0, 2] ([10, 11] : List Int) [20, 21] [0, 0]).2[1]? = some 11 :=
  (Select_Execute_spec [0, 2] ([10, 11] : List Int) [20, 21] [0, 0] 1 2 11 21 (by decide) rfl
    rfl rfl).2.1 (by decide)

theorem Clamp_Execute_spec_witness :
    (Clamp.Execute ([5, 1] : List Int) [3, 3] [2, 2] [0, 0]).2[0]? = some 2 :=
  (Clamp_Execute_spec ([5, 1] : List Int) [3, 3] [2, 2] [0, 0] 0 5 3 2 (by decide) rfl rfl
    rfl).2.2.1 (by decide) (by decide)

theorem Broadcast_Execute_fills_witness :
    (Broadcast.Execute ([7] : List Int) [1, 2, 3]).2 = List.replicate 3 7 :=
  (Broadcast_Execute_fills ([7] : List Int) [1, 2, 3] 7 rfl).2.2.2

theorem MulAdd_Execute_spec_witness :
    (MulAdd.Execute ([1, 2] : List Int) [3, 4] [5, 6] [0, 0]).2[1]? = some (2 + (4 * 6)) :=
  (MulAdd_Execute_spec ([1, 2] : List Int) [3, 4] [5, 6] [0, 0] 1 2 4 6 (by decide) rfl rfl
    rfl).2

theorem Div_Execute_truncates_witness :
    ∃ out, Div.Execute { bits := 8, isSigned := true } [-7, 7] [2, -2] [0, 0]
        = some (Status.ok, out) ∧ out.length = 2 := by
  obtain ⟨out, h1, h2, _⟩ := (Div_Execute_truncates { bits := 8, isSigned := true } (by decide)
    [-7, 7] [2, -2] [0, 0] rfl rfl (by decide) (by decide) (by decide) (by decide)).1
  exact ⟨out, h1, h2⟩

theorem elementwise_binary_no_length_check_witness :
    ([0, 0] : List Int).length ≤ ([1, 2, 3] : List Int).length ∧
    (Add.Execute ([1, 2, 3] : List Int) [10, 20] [0, 0]).1 = Status.ok ∧
    (Add.Execute ([1, 2, 3] : List Int) [10, 20] [0, 0]).2.length = 2 :=
  ⟨by decide,
   (elementwise_binary_no_length_check ([1, 2, 3] : List Int) [10, 20] [0, 0] (by decide)
     (by decide)).1.1,
   (elementwise_binary_no_length_check ([1, 2, 3] : List Int) [10, 20] [0, 0] (by decide)
     (by decide)).1.2.1⟩

theorem Copy_Execute_fitting_region_witness :
    List.Forall₂ (fun a d => a ≤ d) (List.zipWith (fun x y => x + y) [1] [2]) [3] ∧
    InBox [1] [2] ∧
    (Copy.Execute 1 [1, 2, 3] [3] [1] [9, 9] [2] [0] [2]).1 = Status.ok ∧
    (Copy.Execute 1 [1, 2, 3] [3] [1] [9, 9] [2] [0] [2]).2[regionOffset 1 [2] [0] [1] 0]?
      = ([1, 2, 3] : List UInt8)[regionOffset 1 [3] [1] [1] 0]? :=
  ⟨List.Forall₂.cons (by decide) List.Forall₂.nil,
   List.Forall₂.cons (by decide) List.Forall₂.nil,
   (Copy_Execute_fitting_region 1 [1, 2, 3] [9, 9] [3] [2] [1] [0] [2] (by decide) rfl rfl
     (List.Forall₂.cons (by decide) List.Forall₂.nil)
     (List.Forall₂.cons (by decide) List.Forall₂.nil) rfl rfl).1,
   ((Copy_Execute_fitting_region 1 [1, 2, 3] [9, 9] [3] [2] [1] [0] [2] (by decide) rfl rfl
     (List.Forall₂.cons (by decide) List.Forall₂.nil)
     (List.Forall₂.cons (by decide) List.Forall₂.nil) rfl rfl).2.2.1 [1] 0
     (List.Forall₂.cons (by decide) List.Forall₂.nil) (by decide)).2.2⟩

theorem GenericReduce_visits_once_witness :
    (reductionLog [2, 3] 0 [[], [], []]).flatten.Perm (List.range ([2, 3] : Shape).prod) :=
  (GenericReduce_visits_once [2, 3] 0 (by decide) (by decide) [[], [], []] rfl).2.1

theorem Copy_Execute_frame_witness :
    (Copy.Execute 1 [1, 2, 3] [3] [1] [7, 8, 9] [3] [0] [2]).2[2]?
      = ([7, 8, 9] : List UInt8)[2]? :=
  (Copy_Execute_frame 1 [1, 2, 3] [7, 8, 9] [3] [3] [1] [0] [2] (by decide) rfl rfl
    (List.Forall₂.cons (by decide) List.Forall₂.nil)
    (List.Forall₂.cons (by decide) List.Forall₂.nil) rfl 2
    (by
      rintro ⟨k, b, hk, hb, hp⟩
      cases hk with
      | cons h1 h2 =>
        cases h2
        simp [regionOffset, flatIndex] at hp
        omega)).2

theorem Reverse_Execute_involution_witness :
    Reverse.Execute
        (Reverse.Execute ([1, 2, 3, 4, 5, 6] : List Int) [0, 0, 0, 0, 0, 0] [2, 3] [1]).2
        [0, 0, 0, 0, 0, 0] [2, 3] [1]
      = (Status.ok, [1, 2, 3, 4, 5, 6]) :=
  (Reverse_Execute_involution ([1, 2, 3, 4, 5, 6] : List Int) [0, 0, 0, 0, 0, 0]
    [0, 0, 0, 0, 0, 0] [2, 3] [1] rfl rfl rfl).2

theorem Reverse_Execute_set_of_axes_witness :
    Reverse.Execute ([1, 2, 3, 4, 5, 6] : List Int) [0, 0, 0, 0, 0, 0] [2, 3] [0, 1, 0]
      = Reverse.Execute ([1, 2, 3, 4, 5, 6] : List Int) [0, 0, 0, 0, 0, 0] [2, 3] [1, 0] :=
  (Reverse_Execute_set_of_axes ([1, 2, 3, 4, 5, 6] : List Int) [0, 0, 0, 0, 0, 0] [2, 3]
    [0, 1, 0] [1, 0] (by simp [or_comm])).1

theorem Transpose_srcIndex_bijective_witness :
    ([1, 0] : List Nat).Perm (List.range ([2, 3] : Shape).length) ∧
    ((List.range ([2, 3] : Shape).prod).map
      (Transpose.srcIndex (Transpose.strides [2, 3] [1, 0]).1
        (Transpose.strides [2, 3] [1, 0]).2 [1, 0] ([2, 3] : Shape).length)).Perm
      (List.range ([2, 3] : Shape).prod) :=
  ⟨by decide, (Transpose_srcIndex_bijective [2, 3] [1, 0] (by decide)).2.2.2⟩

theorem Pad_Execute_cursor_in_bounds_witness :
    ([0, 0, 0, 0, 0] : List Int).length = (padShape [2] [1] [1] [1]).prod ∧
    Nat.count (notPadding [2] [1] [1] [1]) (padShape [2] [1] [1] [1]).prod
      = ([2] : Shape).prod :=
  ⟨by decide,
   (Pad_Execute_cursor_in_bounds ([1, 2] : List Int) 0 [2] [1] [1] [1] rfl rfl rfl
     [0, 0, 0, 0, 0] (by decide) (by decide)).1⟩

end iree.hal.kernels

namespace iree

/-! ### Loader: factory functions -/

theorem build_fst (step : FlatBufferFile → World → Status × FlatBufferFile × World)
    (w : World) : (FlatBufferFile.build step w).1 = propagate (step FlatBufferFile.new w) := by
  unfold FlatBufferFile.build propagate
  rcases h : step FlatBufferFile.new w with ⟨st, file, w1⟩
  cases st <;> simp only [h]

theorem build_snd_released (step : FlatBufferFile → World → Status × FlatBufferFile × World)
    (w : World) (code : StatusCode)
    (h1 : (step FlatBufferFile.new w).1 = Status.failure code)
    (h2 : (step FlatBufferFile.new w).2.1 = FlatBufferFile.new) :
    (FlatBufferFile.build step w).2 = (step FlatBufferFile.new w).2.2 := by
  unfold FlatBufferFile.build
  rcases h : step FlatBufferFile.new w with ⟨st, file, w1⟩
  rw [h] at h1 h2
  simp only at h1 h2
  subst h1; subst h2
  simp only [h]
  rfl

theorem build_snd_ok (step : FlatBufferFile → World → Status × FlatBufferFile × World)
    (w : World) (h1 : (step FlatBufferFile.new w).1 = Status.ok) :
    FlatBufferFile.build step w
      = (Except.ok (step FlatBufferFile.new w).2.1, (step FlatBufferFile.new w).2.2) := by
  unfold FlatBufferFile.build
  rcases h : step FlatBufferFile.new w with ⟨st, file, w1⟩
  rw [h] at h1
  simp only at h1
  subst h1
  simp only [h]

/-! ### Loader: shared pointers -/

theorem withBlock_shared_length (w : World) (k : Nat) (file : FlatBufferFile) :
    (withBlock w k file).shared.length = w.shared.length + 1 := by
  simp [withBlock]

theorem withBlock_getElem? (w : World) (k : Nat) (file : FlatBufferFile) :
    (withBlock w k file).shared[w.shared.length]? = some { use_count := k, file := some file } := by
  simp [withBlock]

theorem withBlock_set (w : World) (k : Nat) (file : FlatBufferFile) (blk : SharedBlock) :
    (withBlock w k file).shared.set w.shared.length blk = w.shared ++ [blk] := by
  simp [withBlock, List.set_append]

theorem SharedPtr_copy_withBlock (w : World) (k : Nat) (file : FlatBufferFile) :
    SharedPtr.copy w.shared.length (withBlock w k file) = withBlock w (k + 1) file := by
  unfold SharedPtr.copy
  rw [withBlock_getElem?]
  simp only [withBlock_set]
  rfl

theorem SharedPtr_release_withBlock (w : World) (k : Nat) (file : FlatBufferFile) :
    SharedPtr.release w.shared.length (withBlock w (k + 2) file) = withBlock w (k + 1) file := by
  unfold SharedPtr.release
  rw [withBlock_shared_length]
  unfold SharedPtr.releaseFuel
  rw [withBlock_getElem?]
  simp only [withBlock_set]
  rw [if_neg (by omega)]
  rfl

theorem SharedPtr_release_last (w : World) (file : FlatBufferFile)
    (hka : ∀ b, file.deleter ≠ Deleter.keepAlive b) :
    SharedPtr.release w.shared.length (withBlock w 1 file)
      = FlatBufferFileBase.invokeDeleter file (withDeadBlock w) := by
  unfold SharedPtr.release
  rw [withBlock_shared_length]
  unfold SharedPtr.releaseFuel
  rw [withBlock_getElem?]
  simp only [withBlock_set]
  rw [if_pos (by omega)]
  unfold Deleter.destroyCaptures
  cases hd : file.deleter with
  | keepAlive b => exact absurd hd (hka b)
  | _ => rfl

theorem destroy_keepAlive (root : Option Nat) (b : Nat) (w : World) :
    FlatBufferFile.destroy { root_ptr := root, deleter := Deleter.keepAlive b } w
      = SharedPtr.release b w := rfl

theorem invokeDeleter_released (file : FlatBufferFile) (w : World)
    (hka : ∀ b, file.deleter ≠ Deleter.keepAlive b) (hne : file.deleter ≠ Deleter.empty) :
    (FlatBufferFileBase.invokeDeleter file w).released = w.released ++ [file.deleter] := by
  unfold FlatBufferFileBase.invokeDeleter
  cases hd : file.deleter with
  | keepAlive b => exact absurd hd (hka b)
  | empty => exact absurd hd hne
  | _ => rfl

theorem invokeDeleter_verifier_calls (file : FlatBufferFile) (w : World) :
    (FlatBufferFileBase.invokeDeleter file w).verifier_calls = w.verifier_calls := by
  unfold FlatBufferFileBase.invokeDeleter
  cases file.deleter <;> rfl

theorem releaseFuel_verifier_calls (fuel block : Nat) (w : World) :
    (SharedPtr.releaseFuel fuel block w).verifier_calls = w.verifier_calls := by
  induction fuel generalizing block w with
  | zero => rfl
  | succ n ih =>
    unfold SharedPtr.releaseFuel
    cases hb : w.shared[block]? with
    | none => rfl
    | some blk =>
      simp only
      split
      · cases hf : blk.file with
        | none => rfl
        | some f =>
          simp only
          unfold Deleter.destroyCaptures
          cases hd : f.deleter with
          | keepAlive b =>
            simp only
            rw [ih, invokeDeleter_verifier_calls]
          | _ => simp only; rw [invokeDeleter_verifier_calls]
      · rfl

theorem release_verifier_calls (block : Nat) (w : World) :
    (SharedPtr.release block w).verifier_calls = w.verifier_calls :=
  releaseFuel_verifier_calls _ _ _


/-! ### Loader: share groups -/

theorem Create_ok (root : Option Nat) (d : Deleter) (w : World) :
    FlatBufferFile.Create Status.ok root d w
      = (Except.ok { root_ptr := root, deleter := d }, w) := rfl

theorem CreateShareGroup_step_ok (outcome : Nat → Status) (file : FlatBufferFile) (w : World)
    (l : List FlatBufferFile) (k i : Nat) (hok : outcome i = Status.ok) :
    FlatBufferFile.CreateShareGroup.step outcome file.root w.shared.length
        (none, l, withBlock w k file) i
      = (none, l ++ [{ root_ptr := file.root, deleter := Deleter.keepAlive w.shared.length }],
          withBlock w (k + 1) file) := by
  unfold FlatBufferFile.CreateShareGroup.step
  simp only [hok, SharedPtr_copy_withBlock, Create_ok]

theorem CreateShareGroup_loop_ok (outcome : Nat → Status) (file : FlatBufferFile) (w : World)
    (n : Nat) (hok : ∀ i, i < n → outcome i = Status.ok) :
    (List.range n).foldl (FlatBufferFile.CreateShareGroup.step outcome file.root w.shared.length)
        (none, [], withBlock w 1 file)
      = (none,
          List.replicate n
            { root_ptr := file.root, deleter := Deleter.keepAlive w.shared.length },
          withBlock w (n + 1) file) := by
  induction n with
  | zero => rfl
  | succ m ih =>
    rw [List.range_succ, List.foldl_append, ih (fun i hi => hok i (by omega))]
    simp only [List.foldl_cons, List.foldl_nil]
    rw [CreateShareGroup_step_ok outcome file w _ _ m (hok m (by omega)), List.replicate_succ']

theorem CreateShareGroup_ok (outcome : Nat → Status) (file : FlatBufferFile) (w : World)
    (count : Int) (hok : ∀ i, i < count.toNat → outcome i = Status.ok) :
    FlatBufferFile.CreateShareGroup outcome file count w
      = (Except.ok (List.replicate count.toNat
            { root_ptr := file.root, deleter := Deleter.keepAlive w.shared.length }),
          SharedPtr.release w.shared.length (withBlock w (count.toNat + 1) file)) := by
  unfold FlatBufferFile.CreateShareGroup
  have h := CreateShareGroup_loop_ok outcome file w count.toNat hok
  unfold withBlock at h
  simp only [h]
  rfl

theorem destroyAll_append (l : List FlatBufferFile) (x : FlatBufferFile) (w : World) :
    FlatBufferFile.destroyAll (l ++ [x]) w
      = FlatBufferFile.destroy x (FlatBufferFile.destroyAll l w) := by
  simp [FlatBufferFile.destroyAll, List.foldl_append]

theorem destroyAll_group_alive (file : FlatBufferFile) (w : World) (root : Option Nat)
    (m k : Nat) :
    FlatBufferFile.destroyAll
        (List.replicate m { root_ptr := root, deleter := Deleter.keepAlive w.shared.length })
        (withBlock w (k + 1 + m) file)
      = withBlock w (k + 1) file := by
  induction m generalizing k with
  | zero => rfl
  | succ n ih =>
    rw [List.replicate_succ', destroyAll_append]
    have h := ih (k + 1)
    rw [show k + 1 + 1 + n = k + 1 + (n + 1) by omega] at h
    rw [h, destroy_keepAlive, SharedPtr_release_withBlock]

theorem destroyAll_group_all (file : FlatBufferFile) (w : World) (root : Option Nat)
    (n : Nat) (hka : ∀ b, file.deleter ≠ Deleter.keepAlive b) :
    FlatBufferFile.destroyAll
        (List.replicate (n + 1)
          { root_ptr := root, deleter := Deleter.keepAlive w.shared.length })
        (withBlock w (n + 1) file)
      = FlatBufferFileBase.invokeDeleter file (withDeadBlock w) := by
  rw [List.replicate_succ', destroyAll_append]
  have h := destroyAll_group_alive file w root n 0
  rw [show 0 + 1 + n = n + 1 by omega] at h
  rw [h, destroy_keepAlive, SharedPtr_release_last w file hka]


/-! ### Loader: claims -/

/-- C12. Single-threaded share group: let `CreateShareGroup` build a group of `N ≥ 1`
handles from an original handle whose release action is a callback (every creation of a
handle succeeds). Then for every order of destruction of the `N` group handles the release
action of the original handle has not run after the creation nor after the destruction of
any `m < N` of them, and after the destruction of the last one the log of the release
actions that have run has grown by exactly one entry, the release action of the
original. -/
theorem CreateShareGroup_release_once (outcome : Nat → Status) (file : FlatBufferFile)
    (N : Nat) (w : World) (hN : 1 ≤ N) (hok : ∀ i, i < N → outcome i = Status.ok)
    (hne : file.deleter ≠ Deleter.empty) (hka : ∀ b, file.deleter ≠ Deleter.keepAlive b) :
    ∃ group, (FlatBufferFile.CreateShareGroup outcome file (N : Int) w).1 = Except.ok group ∧
      group.length = N ∧
      ∀ order : List FlatBufferFile, order.Perm group →
        (∀ m, m < N →
          (FlatBufferFile.destroyAll (order.take m)
            (FlatBufferFile.CreateShareGroup outcome file (N : Int) w).2).released
            = w.released) ∧
        (FlatBufferFile.destroyAll order
          (FlatBufferFile.CreateShareGroup outcome file (N : Int) w).2).released
          = w.released ++ [file.deleter] := by
  obtain ⟨n, rfl⟩ : ∃ n, N = n + 1 := ⟨N - 1, by omega⟩
  have hc : ((n + 1 : Nat) : Int).toNat = n + 1 := Int.toNat_ofNat _
  rw [CreateShareGroup_ok outcome file w _ (by rw [hc]; exact hok), hc,
    SharedPtr_release_withBlock]
  refine ⟨_, rfl, List.length_replicate _ _, ?_⟩
  intro order hperm
  rw [List.perm_replicate] at hperm
  subst hperm
  constructor
  · intro m hm
    rw [List.take_replicate, Nat.min_eq_left (by omega)]
    have h := destroyAll_group_alive file w file.root m (n - m)
    rw [show n - m + 1 + m = n + 1 by omega] at h
    simp only
    rw [h]
    rfl
  · simp only
    rw [destroyAll_group_all file w file.root n hka, invokeDeleter_released file _ hka hne]
    rfl

/-- C13. For every `count ≥ 0` for which every creation of a handle succeeds,
`CreateShareGroup` returns a list of exactly `count` handles, the root pointer of each of
them is the root pointer of the original handle, and no verifier function is called during
the call. -/
theorem CreateShareGroup_count_handles (outcome : Nat → Status) (file : FlatBufferFile)
    (count : Int) (w : World) (hcount : 0 ≤ count)
    (hok : ∀ i : Nat, (i : Int) < count → outcome i = Status.ok) :
    ∃ group, (FlatBufferFile.CreateShareGroup outcome file count w).1 = Except.ok group ∧
      (group.length : Int) = count ∧
      (∀ h ∈ group, h.root = file.root) ∧
      (FlatBufferFile.CreateShareGroup outcome file count w).2.verifier_calls
        = w.verifier_calls := by
  rw [CreateShareGroup_ok outcome file w count (fun i hi => hok i (by omega))]
  refine ⟨_, rfl, ?_, ?_, ?_⟩
  · rw [List.length_replicate]; omega
  · intro h hh
    rw [List.eq_of_mem_replicate hh]
    rfl
  · simp only
    rw [release_verifier_calls]
    rfl

/-- C14. Each of the entry points `FromBuffer` (span with release action, and owned
vector), `WrapBuffer`, `FromString` and `LoadFile` returns the outcome of its step of the
base class: when the step fails, that same failure and no handle; when it succeeds, the
handle that the step filled. The result is a failure or a handle, never both. -/
theorem factory_functions_propagate (ext : Externals) (identifier : Option String)
    (buffer_data : List UInt8) (deleter : Deleter) (path : String) (w : World) :
    (FlatBufferFile.FromBuffer ext identifier buffer_data deleter w).1
      = propagate
          (FlatBufferFileBase.FromBuffer ext identifier buffer_data deleter
            FlatBufferFile.new w) ∧
    (FlatBufferFile.FromBufferVector ext identifier buffer_data w).1
      = propagate
          (FlatBufferFileBase.FromBuffer ext identifier buffer_data Deleter.deleteBuffer
            FlatBufferFile.new w) ∧
    (FlatBufferFile.WrapBuffer ext identifier buffer_data w).1
      = propagate (FlatBufferFileBase.WrapBuffer ext identifier buffer_data
          FlatBufferFile.new w) ∧
    (FlatBufferFile.FromString ext identifier buffer_data w).1
      = propagate (FlatBufferFileBase.FromString ext identifier buffer_data
          FlatBufferFile.new w) ∧
    (FlatBufferFile.LoadFile ext identifier path w).1
      = propagate (FlatBufferFileBase.LoadFile ext identifier path FlatBufferFile.new w) ∧
    (∀ r : Status × FlatBufferFile × World,
      (∀ code, r.1 = Status.failure code → propagate r = Except.error code) ∧
      (r.1 = Status.ok → propagate r = Except.ok r.2.1)) :=
  ⟨build_fst _ w, build_fst _ w, build_fst _ w, build_fst _ w, build_fst _ w,
   fun r => ⟨fun code h => by unfold propagate; rw [h], fun h => by unfold propagate; rw [h]⟩⟩

theorem FromBuffer_verification_failure (ext : Externals) (identifier : Option String)
    (buffer_data : List UInt8) (deleter : Deleter) (w : World)
    (hver : ext.verifier_fn identifier buffer_data = false)
    (hka : ∀ b, deleter ≠ Deleter.keepAlive b) :
    (FlatBufferFile.FromBuffer ext identifier buffer_data deleter w).1
        = Except.error StatusCode.verificationFailure ∧
      (FlatBufferFile.FromBuffer ext identifier buffer_data deleter w).2.released
        = w.released := by
  have hstep : FlatBufferFileBase.FromBuffer ext identifier buffer_data deleter
      FlatBufferFile.new w
        = (Status.failure StatusCode.verificationFailure, FlatBufferFile.new,
            { w with verifier_calls := w.verifier_calls + 1 }) := by
    unfold FlatBufferFileBase.FromBuffer
    simp only [hver, Bool.false_eq_true, if_false]
    unfold Deleter.destroy Deleter.destroyCaptures
    cases hd : deleter with
    | keepAlive b => exact absurd hd (hka b)
    | _ => rfl
  unfold FlatBufferFile.FromBuffer
  constructor
  · rw [build_fst, hstep]; rfl
  · rw [build_snd_released _ w StatusCode.verificationFailure (by rw [hstep]) (by rw [hstep]),
      hstep]

/-- C15. When the verification fails in `FromBuffer` with a release action that is a
callback of the caller, in `FromBuffer` with an owned vector or in `LoadFile` (the file at
`path` has been mapped), the entry point returns the verification failure and no release
action has run when it returns: none during the call, none at the destruction of the
partially built handle. -/
theorem verification_failure_runs_no_release (ext : Externals) (identifier : Option String)
    (buffer_data : List UInt8) (deleter : Deleter) (path : String) (w : World)
    (hver : ext.verifier_fn identifier buffer_data = false)
    (hka : ∀ b, deleter ≠ Deleter.keepAlive b)
    (hpath : ext.read_file path = some buffer_data) :
    ((FlatBufferFile.FromBuffer ext identifier buffer_data deleter w).1
        = Except.error StatusCode.verificationFailure ∧
      (FlatBufferFile.FromBuffer ext identifier buffer_data deleter w).2.released
        = w.released) ∧
    ((FlatBufferFile.FromBufferVector ext identifier buffer_data w).1
        = Except.error StatusCode.verificationFailure ∧
      (FlatBufferFile.FromBufferVector ext identifier buffer_data w).2.released
        = w.released) ∧
    ((FlatBufferFile.LoadFile ext identifier path w).1
        = Except.error StatusCode.verificationFailure ∧
      (FlatBufferFile.LoadFile ext identifier path w).2.released = w.released) := by
  refine ⟨FromBuffer_verification_failure ext identifier buffer_data deleter w hver hka,
    FromBuffer_verification_failure ext identifier buffer_data Deleter.deleteBuffer w hver
      (fun b h => by cases h), ?_⟩
  have h := FromBuffer_verification_failure ext identifier buffer_data Deleter.deleteBuffer w
    hver (fun b h => by cases h)
  unfold FlatBufferFile.FromBuffer at h
  unfold FlatBufferFile.LoadFile
  have hb : FlatBufferFileBase.LoadFile ext identifier path
      = FlatBufferFileBase.FromBuffer ext identifier buffer_data Deleter.deleteBuffer := by
    funext self w1
    unfold FlatBufferFileBase.LoadFile
    rw [hpath]
  rw [hb]
  exact h

/-! ### Loader: instances of the theorems at concrete inputs -/

theorem CreateShareGroup_release_once_witness :
    (FlatBufferFile.destroyAll
        [{ root_ptr := some 7, deleter := Deleter.keepAlive 0 },
         { root_ptr := some 7, deleter := Deleter.keepAlive 0 }]
        (FlatBufferFile.CreateShareGroup (fun _ => Status.ok)
          { root_ptr := some 7, deleter := Deleter.action 3 } 2
          { shared := [], released := [], verifier_calls := 0 }).2).released
      = [Deleter.action 3] := by
  obtain ⟨group, hg, _, h⟩ := CreateShareGroup_release_once (fun _ => Status.ok)
    { root_ptr := some 7, deleter := Deleter.action 3 } 2
    { shared := [], released := [], verifier_calls := 0 } (by decide) (fun _ _ => rfl)
    (fun h => Deleter.noConfusion h) (fun _ h => Deleter.noConfusion h)
  have hgroup : group = [{ root_ptr := some 7, deleter := Deleter.keepAlive 0 },
      { root_ptr := some 7, deleter := Deleter.keepAlive 0 }] :=
    (Except.ok.inj hg).symm
  exact (h _ (by rw [hgroup])).2

theorem CreateShareGroup_count_handles_witness :
    (0 : Int) ≤ 2 ∧
    ∃ group, (FlatBufferFile.CreateShareGroup (fun _ => Status.ok)
        { root_ptr := some 7, deleter := Deleter.action 3 } 2
        { shared := [], released := [], verifier_calls := 0 }).1 = Except.ok group ∧
      (group.length : Int) = 2 ∧
      (∀ h ∈ group, h.root = some 7) ∧
      (FlatBufferFile.CreateShareGroup (fun _ => Status.ok)
        { root_ptr := some 7, deleter := Deleter.action 3 } 2
        { shared := [], released := [], verifier_calls := 0 }).2.verifier_calls = 0 :=
  ⟨by decide, CreateShareGroup_count_handles (fun _ => Status.ok)
    { root_ptr := some 7, deleter := Deleter.action 3 } 2
    { shared := [], released := [], verifier_calls := 0 } (by decide) (fun _ _ => rfl)⟩

theorem verification_failure_runs_no_release_witness :
    (FlatBufferFile.FromBuffer
        { verifier_fn := fun _ b => decide (2 < b.length), root_of := fun _ => 4,
          read_file := fun _ => some [1, 2] }
        none [1, 2] (Deleter.action 1)
        { shared := [], released := [], verifier_calls := 0 }).2.released = [] :=
  (verification_failure_runs_no_release
    { verifier_fn := fun _ b => decide (2 < b.length), root_of := fun _ => 4,
      read_file := fun _ => some [1, 2] }
    none [1, 2] (Deleter.action 1) "module"
    { shared := [], released := [], verifier_calls := 0 } (by decide) (fun _ h => Deleter.noConfusion h) rfl).1.2

end iree

namespace iree

/-! ### Loader: share group without members -/

theorem invokeDeleter_shared (file : FlatBufferFile) (w : World) :
    (FlatBufferFileBase.invokeDeleter file w).shared = w.shared := by
  unfold FlatBufferFileBase.invokeDeleter
  cases file.deleter <;> rfl

/-- C35. For every handle whose release action is a callback and every `count ≤ 0`,
`CreateShareGroup` returns success with an empty list; no group handle holds the shared
reference, so that the release of the local shared pointer on return destroys the original
handle: when the call returns, the control block has no owner and no object left, and the
log of the release actions has grown by exactly one entry, the release action of the
original. -/
theorem CreateShareGroup_nonpositive_count (outcome : Nat → Status) (file : FlatBufferFile)
    (count : Int) (w : World) (hcount : count ≤ 0)
    (hne : file.deleter ≠ Deleter.empty) (hka : ∀ b, file.deleter ≠ Deleter.keepAlive b) :
    (FlatBufferFile.CreateShareGroup outcome file count w).1 = Except.ok [] ∧
    (FlatBufferFile.CreateShareGroup outcome file count w).2.released
      = w.released ++ [file.deleter] ∧
    (FlatBufferFile.CreateShareGroup outcome file count w).2.shared
      = w.shared ++ [{ use_count := 0, file := none }] := by
  have hz : count.toNat = 0 := Int.toNat_of_nonpos hcount
  rw [CreateShareGroup_ok outcome file w count (by rw [hz]; intro i hi; omega), hz]
  simp only [List.replicate_zero, Nat.zero_add, true_and]
  rw [SharedPtr_release_last w file hka]
  exact ⟨invokeDeleter_released file _ hka hne, invokeDeleter_shared file _⟩

theorem CreateShareGroup_nonpositive_count_witness :
    (-3 : Int) ≤ 0 ∧
    (FlatBufferFile.CreateShareGroup (fun _ => Status.ok)
        { root_ptr := some 7, deleter := Deleter.action 3 } (-3)
        { shared := [], released := [], verifier_calls := 0 }).1 = Except.ok [] ∧
    (FlatBufferFile.CreateShareGroup (fun _ => Status.ok)
        { root_ptr := some 7, deleter := Deleter.action 3 } (-3)
        { shared := [], released := [], verifier_calls := 0 }).2.released
      = [Deleter.action 3] ∧
    (FlatBufferFile.CreateShareGroup (fun _ => Status.ok)
        { root_ptr := some 7, deleter := Deleter.action 3 } (-3)
        { shared := [], released := [], verifier_calls := 0 }).2.shared
      = [{ use_count := 0, file := none }] :=
  ⟨by decide,
   CreateShareGroup_nonpositive_count (fun _ => Status.ok)
    { root_ptr := some 7, deleter := Deleter.action 3 } (-3)
    { shared := [], released := [], verifier_calls := 0 } (by decide)
    (fun h => Deleter.noConfusion h) (fun _ h => Deleter.noConfusion h)⟩

end iree

namespace iree.hal

/-! ### Executable format identifiers -/

theorem or_eq_add_of_lt (a b i : Nat) (hb : b < 2 ^ i) : a <<< i ||| b = a * 2 ^ i + b := by
  rw [Nat.shiftLeft_eq, Nat.mul_comm, ← Nat.mul_add_lt_is_or hb]

/-- C26. For four characters with 7-bit codes `c0 c1 c2 c3`, `MakeExecutableFormatID`
returns the 32-bit integer `c0 * 2^24 + c1 * 2^16 + c2 * 2^8 + c3`: the first character is
the most significant byte. The four constants of the header have the values `0x20202020`,
`0x4D4C4952`, `0x49524545` and `0x53505645`. -/
theorem MakeExecutableFormatID_value (c0 c1 c2 c3 : Nat) (h0 : c0 < 128) (h1 : c1 < 128)
    (h2 : c2 < 128) (h3 : c3 < 128) :
    MakeExecutableFormatID [c0, c1, c2, c3, 0]
      = c0 * 2 ^ 24 + c1 * 2 ^ 16 + c2 * 2 ^ 8 + c3 ∧
    MakeExecutableFormatID [c0, c1, c2, c3, 0] < 2 ^ 32 ∧
    kExecutableFormatUnspecified = 0x20202020 ∧
    kExecutableFormatMlir = 0x4D4C4952 ∧
    kExecutableFormatIreeBytecode = 0x49524545 ∧
    kExecutableFormatSpirV = 0x53505645 := by
  have hval : MakeExecutableFormatID [c0, c1, c2, c3, 0]
      = c0 * 2 ^ 24 + c1 * 2 ^ 16 + c2 * 2 ^ 8 + c3 := by
    unfold MakeExecutableFormatID
    simp only [List.getD_cons_zero, List.getD_cons_succ]
    rw [Nat.lor_assoc, Nat.lor_assoc, or_eq_add_of_lt c2 c3 8 (by omega),
      or_eq_add_of_lt c1 _ 16 (by omega), or_eq_add_of_lt c0 _ 24 (by omega),
      Nat.mod_eq_of_lt (by omega)]
    show @Eq Nat _ _
    omega
  refine ⟨hval, ?_, by decide, by decide, by decide, by decide⟩
  rw [hval]
  show @LT.lt Nat _ _ _
  omega

theorem MakeExecutableFormatID_value_witness :
    MakeExecutableFormatID [77, 76, 73, 82, 0] = 77 * 2 ^ 24 + 76 * 2 ^ 16 + 73 * 2 ^ 8 + 82 :=
  (MakeExecutableFormatID_value 77 76 73 82 (by decide) (by decide) (by decide)
    (by decide)).1

end iree.hal

namespace iree.hal

/-! ### Executable format identifiers: injectivity -/

theorem MakeExecutableFormatID_sum (c0 c1 c2 c3 : Nat) (h0 : c0 < 128) (h1 : c1 < 128)
    (h2 : c2 < 128) (h3 : c3 < 128) :
    MakeExecutableFormatID [c0, c1, c2, c3, 0]
      = c0 * 2 ^ 24 + c1 * 2 ^ 16 + c2 * 2 ^ 8 + c3 := by
  unfold MakeExecutableFormatID
  simp only [List.getD_cons_zero, List.getD_cons_succ]
  rw [Nat.lor_assoc, Nat.lor_assoc, or_eq_add_of_lt c2 c3 8 (by omega),
    or_eq_add_of_lt c1 _ 16 (by omega), or_eq_add_of_lt c0 _ 24 (by omega),
    Nat.mod_eq_of_lt (by omega)]
  show @Eq Nat _ _
  omega

/-- C34. `MakeExecutableFormatID` is injective on four-character codes of 7-bit
characters: two codes with the same `ExecutableFormat` have the same four characters.
The four format constants of the header are pairwise distinct. -/
theorem MakeExecutableFormatID_injective (c0 c1 c2 c3 e0 e1 e2 e3 : Nat)
    (hc0 : c0 < 128) (hc1 : c1 < 128) (hc2 : c2 < 128) (hc3 : c3 < 128)
    (he0 : e0 < 128) (he1 : e1 < 128) (he2 : e2 < 128) (he3 : e3 < 128)
    (h : MakeExecutableFormatID [c0, c1, c2, c3, 0]
      = MakeExecutableFormatID [e0, e1, e2, e3, 0]) :
    (c0 = e0 ∧ c1 = e1 ∧ c2 = e2 ∧ c3 = e3) ∧
    kExecutableFormatUnspecified ≠ kExecutableFormatMlir ∧
    kExecutableFormatUnspecified ≠ kExecutableFormatIreeBytecode ∧
    kExecutableFormatUnspecified ≠ kExecutableFormatSpirV ∧
    kExecutableFormatMlir ≠ kExecutableFormatIreeBytecode ∧
    kExecutableFormatMlir ≠ kExecutableFormatSpirV ∧
    kExecutableFormatIreeBytecode ≠ kExecutableFormatSpirV := by
  rw [MakeExecutableFormatID_sum c0 c1 c2 c3 hc0 hc1 hc2 hc3,
    MakeExecutableFormatID_sum e0 e1 e2 e3 he0 he1 he2 he3] at h
  refine ⟨?_, by decide, by decide, by decide, by decide, by decide, by decide⟩
  have h' : @Eq Nat (c0 * 2 ^ 24 + c1 * 2 ^ 16 + c2 * 2 ^ 8 + c3)
      (e0 * 2 ^ 24 + e1 * 2 ^ 16 + e2 * 2 ^ 8 + e3) := h
  omega

theorem MakeExecutableFormatID_injective_witness :
    MakeExecutableFormatID [77, 76, 73, 82, 0] = MakeExecutableFormatID [77, 76, 73, 82, 0] ∧
    kExecutableFormatMlir ≠ kExecutableFormatSpirV :=
  ⟨rfl,
   (MakeExecutableFormatID_injective 77 76 73 82 77 76 73 82 (by decide) (by decide)
     (by decide) (by decide) (by decide) (by decide) (by decide) (by decide) rfl).2.2.2.2.2.1⟩

end iree.hal

namespace mlir.iree_compiler

/-! ### Lowering of output bindings: the emitted copy -/

theorem static_cast_int32_of_fits (x : Int) (h0 : 0 ≤ x) (h1 : x < 2 ^ 31) :
    static_cast_int32 x = x := by
  unfold static_cast_int32
  have e31 : (2 : Int) ^ 31 = 2147483648 := by norm_num
  have e32 : (2 : Int) ^ 32 = 4294967296 := by norm_num
  rw [e31] at h1 ⊢
  rw [e32]
  omega

theorem shapeValues_loop (dims : List Int) (h0 : ∀ d ∈ dims, 0 ≤ d)
    (h1 : ∀ d ∈ dims, d < 2 ^ 31) :
    (List.range dims.length).foldl
        (fun sv i => sv.set i (static_cast_int32 (dims.getD i 0)))
        (List.replicate dims.length 0)
      = dims := by
  have h := iree.hal.kernels.foldl_set_range_full
    (fun i => static_cast_int32 (dims.getD i 0)) (List.replicate dims.length (0 : Int))
  rw [List.length_replicate] at h
  rw [h]
  apply List.ext_getElem
  · simp
  · intro i hi1 hi2
    rw [List.getElem_map, List.getElem_range, List.getD_eq_getElem _ _ hi2]
    exact static_cast_int32_of_fits _ (h0 _ (List.getElem_mem hi2)) (h1 _ (List.getElem_mem hi2))

/-- C33, as the claim states it, fails: the destination type with the static shape
`[2147483648]` has rank 1, and the lengths of the emitted copy are `[-2147483648]`, the
dimension converted to `int32_t`, not the dimension. -/
theorem replaceStoreOutputOp_narrows_dimension :
    ShapedType.hasStaticShape { shape := [2147483648] } = true ∧
    replaceStoreOutputOp SrcType.tensor { shape := [2147483648] }
      = Except.ok [Op.tensorToMemRef, Op.constant [0], Op.constant [-2147483648],
          Op.copy [0] [0] [-2147483648]] ∧
    ([-2147483648] : List Int) ≠ [2147483648] := by
  refine ⟨by decide, ?_, by decide⟩
  rfl

/-- C33, amended. For a `store_output` whose source is a tensor and whose destination has
a static shape of rank `r` with every dimension below `2 ^ 31`: `replaceStoreOutputOp`
emits a cast, two constants and a copy whose source and destination start indices are the
all-zero vector and whose lengths are the dimensions of the destination, each of length
`r`, when `r > 0`; for a destination of rank 0 the start indices are `[0]` and the lengths
`[1]`, vectors of length 1 like the stride vector `[element_size]` that
`impl::ComputeCopyStrides` gives for a shape of rank 0. -/
theorem replaceStoreOutputOp_copy (dims : List Int) (element_size : Nat)
    (hstatic : ∀ d ∈ dims, 0 ≤ d) (hfit : ∀ d ∈ dims, d < 2 ^ 31) :
    (0 < dims.length →
      replaceStoreOutputOp SrcType.tensor { shape := dims }
        = Except.ok [Op.tensorToMemRef, Op.constant (List.replicate dims.length 0),
            Op.constant dims,
            Op.copy (List.replicate dims.length 0) (List.replicate dims.length 0) dims]) ∧
    (dims = [] →
      replaceStoreOutputOp SrcType.tensor { shape := dims }
        = Except.ok [Op.tensorToMemRef, Op.constant [0], Op.constant [1],
            Op.copy [0] [0] [1]]) ∧
    iree.hal.kernels.impl.ComputeCopyStrides [] element_size = [element_size] := by
  have hs : ShapedType.hasStaticShape { shape := dims } = true := by
    unfold ShapedType.hasStaticShape
    simp only [List.all_eq_true, decide_eq_true_eq]
    exact hstatic
  refine ⟨?_, ?_, rfl⟩
  · intro hr
    have hne : dims.length ≠ 0 := by omega
    unfold replaceStoreOutputOp
    simp only [hs, ShapedType.getRank, ShapedType.getDimSize, Bool.not_true, Bool.false_eq_true,
      if_false, ne_eq, hne, not_false_eq_true, if_true, gt_iff_lt, hr,
      shapeValues_loop dims hstatic hfit]
  · intro hnil
    subst hnil
    rfl

theorem replaceStoreOutputOp_copy_witness :
    replaceStoreOutputOp SrcType.tensor { shape := [2, 3] }
      = Except.ok [Op.tensorToMemRef, Op.constant (List.replicate ([2, 3] : List Int).length 0),
          Op.constant [2, 3],
          Op.copy (List.replicate ([2, 3] : List Int).length 0)
            (List.replicate ([2, 3] : List Int).length 0) [2, 3]] :=
  (replaceStoreOutputOp_copy [2, 3] 4 (by decide) (by decide)).1 (by decide)

end mlir.iree_compiler
